import Mathlib

/-!
# Schroedinger: bordered grid (`Field.h`) and wave integrator (`Wave.cc`)

A shallow embedding of the C++ sources.

* C++ `int` values are modelled as `Int` (grids whose frame size leaves the
  range of `int` cannot be allocated, so no wrap-around is modelled); the
  C++ remainder `%` is `Int.tmod` (truncation toward zero).
* The backing buffer `data` of a `Field<T>` is a function from the linear
  offset (relative to `data`) to the cell value.  `cell0` is the offset
  `border * framew + border`.
* `memcpy` reads its source from the buffer as it was before the call, which
  is its behaviour whenever source and destination do not overlap.
* `double` arithmetic is modelled exactly in an ordered field `K`; the
  functions of `math.h` that the code uses are parameters (`MathLib`), and the
  theorems that need it assume the square root exact.  The one division whose
  divisor can be zero, the quotient `rr` of the bump functions, is `fdiv`.
* The `do ... while` loop of `calcV` has no bound in the source; its embedding
  takes a bound on the number of rounds and returns `none` when it is reached.
* The buffer that `new T[framesize]` returns is a parameter of the constructors
  (`raw`): its content is indeterminate until `zero()` has run.
-/

set_option autoImplicit false

namespace Schroedinger

/-! ## Basic control and memory primitives -/

/-- The first `n` rounds of `for (int i = lo; ...; i++) body`. -/
def iterFrom {σ : Type} (lo : Int) (body : Int → σ → σ) (n : Nat) (s : σ) : σ :=
  (List.range n).foldl (fun s k => body (lo + (k : Int)) s) s

/-- The loop `for (int i = lo; i < hi; i++) body`, threading the state. -/
def forLoop {σ : Type} (lo hi : Int) (body : Int → σ → σ) (s : σ) : σ :=
  iterFrom lo body (hi - lo).toNat s

/-- The call `memcpy(dst, src, n)` within one buffer, sizes counted in cells. -/
def memcpy {α : Type} (d : Int → α) (dst src n : Int) : Int → α :=
  fun i => if dst ≤ i ∧ i < dst + n then d (src + (i - dst)) else d i

/-- The call `memcpy(dst, src, n)` from the buffer `e` into the buffer `d`. -/
def memcpyFrom {α : Type} (d : Int → α) (dst : Int) (e : Int → α) (src n : Int) : Int → α :=
  fun i => if dst ≤ i ∧ i < dst + n then e (src + (i - dst)) else d i

/-- The store `*(p) = v` into a buffer. -/
def store {α : Type} (d : Int → α) (p : Int) (v : α) : Int → α :=
  fun i => if i = p then v else d i

/-! ## `Field.h` -/

/-- The enum `BoundaryCondition`. -/
inductive BoundaryCondition where
  | WRAP
  | MIRROR
  | ZERO
  deriving DecidableEq, Repr

open BoundaryCondition

/-- The class `Field<T>`: the constant members and the buffer `data`. -/
structure Field (α : Type) where
  width : Int
  height : Int
  border : Int
  boundary : BoundaryCondition
  data : Int → α

namespace Field

variable {α : Type}

/-- Member `framew`. -/
def framew (f : Field α) : Int := 2 * f.border + f.width

/-- Member `frameh`. -/
def frameh (f : Field α) : Int := 2 * f.border + f.height

/-- Member `framesize`. -/
def framesize (f : Field α) : Int := f.framew * f.frameh

/-- Member `cell0`, as an offset into `data`. -/
def cell0 (f : Field α) : Int := f.border * f.framew + f.border

/-- Method `zero()`: the `memset` over the `framesize` cells of the buffer. -/
def zero [Zero α] (f : Field α) : Field α :=
  { f with data := fun i => if 0 ≤ i ∧ i < f.framesize then 0 else f.data i }

/-- The constructor `Field(width_, height_, border_, boundary_)`; `none` is a
failed assertion.  `raw` is the content of the buffer that `new T[framesize]` returns,
which the language leaves indeterminate for `int` and `double`. -/
def create [Zero α] (raw : Int → α) (width_ height_ border_ : Int)
    (boundary_ : BoundaryCondition) : Option (Field α) :=
  if (boundary_ = ZERO ∨ width_ ≥ border_) ∧ (boundary_ = ZERO ∨ height_ ≥ border_) then
    some (zero ⟨width_, height_, border_, boundary_, raw⟩)
  else
    none

/-- Method `get(x, y)`. -/
def get (f : Field α) (x y : Int) : α :=
  f.data (f.cell0 + (x + y * f.framew))

/-- Method `set(x, y, value)`. -/
def set (f : Field α) (x y : Int) (value : α) : Field α :=
  { f with data := store f.data (f.cell0 + (x + y * f.framew)) value }

/-- Method `wrap()`. -/
def wrap (f : Field α) : Field α :=
  let sideBorderSize := f.border
  let d1 := forLoop f.border (f.height + f.border) (fun y d =>
    let leftOutside := y * f.framew
    let d := memcpy d leftOutside (leftOutside + f.width) sideBorderSize
    let leftInside := leftOutside + f.border
    memcpy d (leftInside + f.width) leftInside sideBorderSize) f.data
  let topBorderSize := f.framew * f.border
  let topOutside : Int := 0
  let d2 := memcpy d1 topOutside (topOutside + f.framew * f.height) topBorderSize
  let topInside := f.framew * f.border
  { f with data := memcpy d2 (topInside + f.framew * f.height) topInside topBorderSize }

/-- Method `mirror()`. -/
def mirror (f : Field α) : Field α :=
  let d1 := forLoop f.border (f.height + f.border) (fun y d =>
    let left := y * f.framew + f.border
    let right := y * f.framew + f.border + f.width
    forLoop 0 f.border (fun x d =>
      let d := store d (left - x - 1) (d (left + x))
      store d (right + x) (d (right - x - 1))) d) f.data
  let row_size := f.framew
  let top := f.border * f.framew
  let bottom := (f.height + f.border) * f.framew
  { f with data := forLoop 0 f.border (fun y d =>
      let d := memcpy d (top - (1 + y) * f.framew) (top + y * f.framew) row_size
      memcpy d (bottom + y * f.framew) (bottom - (1 + y) * f.framew) row_size) d1 }

/-- Method `fillBorder()`. -/
def fillBorder (f : Field α) : Field α :=
  match f.boundary with
  | WRAP => f.wrap
  | MIRROR => f.mirror
  | ZERO => f

/-- Method `sum()`; the access `cell0[x + y * framew]` is that of `get`. -/
def sum [Zero α] [Add α] (f : Field α) : α :=
  forLoop 0 f.width (fun x result =>
    forLoop 0 f.height (fun y result =>
      result + f.get x y) result) 0

/-- The two nested loops of `add(t)`, before the border is refreshed; the access
`cell0[x + y * framew]` is that of `get` and `set`. -/
def addCells [Add α] (f : Field α) (t : α) : Field α :=
  forLoop 0 f.width (fun x p =>
    forLoop 0 f.height (fun y (p : Field α) =>
      p.set x y (p.get x y + t)) p) f

/-- Method `add(t)`. -/
def add [Add α] (f : Field α) (t : α) : Field α :=
  (f.addCells t).wrap

/-- The function `mod(a, m)`. -/
def mod (a m : Int) : Int :=
  let a := Int.tmod a m
  if a < 0 then a + m else a

/-- The function `mirrorMod(a, m)`. -/
def mirrorMod (a m : Int) : Int :=
  let a := mod a (2 * m)
  if a ≥ m then 2 * m - 1 - a else a

/-- The coordinate remapping shared by `safeGet` and `safeSet`: `none` is the
early `return` of the `ZERO` case. -/
def remap (boundary : BoundaryCondition) (a dim : Int) : Option Int :=
  if a < 0 ∨ a ≥ dim then
    match boundary with
    | WRAP => some (mod a dim)
    | MIRROR => some (mirrorMod a dim)
    | ZERO => none
  else
    some a

/-- Method `safeGet(x, y)`. -/
def safeGet [Zero α] (f : Field α) (x y : Int) : α :=
  match remap f.boundary x f.width with
  | none => 0
  | some x =>
    match remap f.boundary y f.height with
    | none => 0
    | some y => f.data (f.cell0 + (x + y * f.framew))

/-- Method `safeSet(x, y, value)`. -/
def safeSet (f : Field α) (x y : Int) (value : α) : Field α :=
  match remap f.boundary x f.width with
  | none => f
  | some x =>
    match remap f.boundary y f.height with
    | none => f
    | some y => { f with data := store f.data (f.cell0 + (x + y * f.framew)) value }

/-- Method `set(const Field<T> &other)`; `none` is a failed assertion. -/
def assign (f other : Field α) : Option (Field α) :=
  if other.width = f.width ∧ other.height = f.height ∧ other.border = f.border then
    some { f with data := memcpyFrom f.data 0 other.data 0 f.framesize }
  else
    none

end Field

/-! ## `Wave.h`, `Wave.cc` -/

/-- The functions and the constant of `math.h` that `Wave` uses. -/
structure MathLib (K : Type) where
  sqrt : K → K
  pi : K
  cos : K → K
  sin : K → K

/-- The type `dcomp`, that is `std::complex<double>`. -/
structure Dcomp (K : Type) where
  re : K
  im : K

namespace Dcomp

variable {K : Type}

instance [Zero K] : Zero (Dcomp K) := ⟨⟨0, 0⟩⟩

instance [Add K] : Add (Dcomp K) := ⟨fun a b => ⟨a.re + b.re, a.im + b.im⟩⟩

instance [Sub K] : Sub (Dcomp K) := ⟨fun a b => ⟨a.re - b.re, a.im - b.im⟩⟩

instance [Neg K] : Neg (Dcomp K) := ⟨fun a => ⟨-a.re, -a.im⟩⟩

instance [Add K] [Sub K] [Mul K] : Mul (Dcomp K) :=
  ⟨fun a b => ⟨a.re * b.re - a.im * b.im, a.re * b.im + a.im * b.re⟩⟩

/-- The product of a `dcomp` and a `double`. -/
def scale [Mul K] (c : Dcomp K) (t : K) : Dcomp K := ⟨c.re * t, c.im * t⟩

/-- The quotient of a `dcomp` by a `double`. -/
def divReal [Div K] (c : Dcomp K) (t : K) : Dcomp K := ⟨c.re / t, c.im / t⟩

/-- The conversion of a `double` to `dcomp`. -/
def ofReal [Zero K] (t : K) : Dcomp K := ⟨t, 0⟩

/-- The function `std::norm`: the squared magnitude. -/
def norm [Add K] [Mul K] (c : Dcomp K) : K := c.re * c.re + c.im * c.im

/-- The function `abs` on `dcomp`: the magnitude. -/
def abs [Add K] [Mul K] (M : MathLib K) (c : Dcomp K) : K := M.sqrt (norm c)

/-- The function `std::polar`. -/
def polar [Mul K] (M : MathLib K) (r theta : K) : Dcomp K := ⟨r * M.cos theta, r * M.sin theta⟩

/-- The constant `I`. -/
def I [Zero K] [One K] : Dcomp K := ⟨0, 1⟩

end Dcomp

/-- The quotient `a / b` of two doubles where it is a finite number: `none` is the
NaN of `0.0 / 0.0` and the infinity of a non-zero value over zero (the numerators
divided here are sums of squares, so no negative infinity arises).  A comparison
`rr < 1.0` with either of them is false. -/
def fdiv {K : Type} [LinearOrderedField K] (a b : K) : Option K :=
  if b = 0 then none else some (a / b)

/-- The function `std::max`. -/
def stdMax {K : Type} [LinearOrderedField K] (a b : K) : K :=
  if a < b then b else a

/-- The class `Wave`: the members that are not constants of the class.  The four
entries of the vector `tmpPsi_` are `tmpPsi0` to `tmpPsi3`. -/
structure Wave (K : Type) where
  width_ : Int
  height_ : Int
  tmpPsi0 : Field (Dcomp K)
  tmpPsi1 : Field (Dcomp K)
  tmpPsi2 : Field (Dcomp K)
  tmpPsi3 : Field (Dcomp K)
  psi_ : Field (Dcomp K)
  potential_ : Field K
  dynPotential_ : Field K
  tmpPotential_ : Field K
  tmpReal_ : Field K

namespace Wave

variable {K : Type} [LinearOrderedField K]

/-- Constant `PLANCK_CONST`. -/
def PLANCK_CONST : K := 662606957 / 10 ^ 42

/-- Constant `GRAVITATIONAL_CONST`. -/
def GRAVITATIONAL_CONST : K := 6673 / 10 ^ 14

/-- Constant `POTENTIAL_UNIT`. -/
def POTENTIAL_UNIT : K := 10 ^ 35

/-- Member `boundary_`. -/
def boundary_ : BoundaryCondition := BoundaryCondition.WRAP

/-- Member `area_`. -/
def area_ : K := 1

/-- Member `sarea_`. -/
def sarea_ (M : MathLib K) : K := M.sqrt area_

/-- Member `dr_`. -/
def dr_ (M : MathLib K) (W : Wave K) : K :=
  M.sqrt (area_ / ((W.width_ * W.height_ : Int) : K))

/-- Member `qdrdr_`. -/
def qdrdr_ (M : MathLib K) (W : Wave K) : K := 1 / (dr_ M W * dr_ M W)

/-- Member `maxAbs_`. -/
def maxAbs_ : K := 6 / area_

/-- Member `m_`. -/
def m_ : K := 1000 * (910938291 / 10 ^ 39)

/-- Member `dt_`. -/
def dt_ : K := 10

/-- The constructor `Wave(width, height)`; `none` is a failed assertion of a
`Field` constructor.  `rawC i` and `rawR i` are the contents of the buffers that
`new T[framesize]` returns to the constructors of the complex grids (`tmpPsi_[0]` to
`tmpPsi_[3]`, then `psi_`) and of the real grids (`potential_`, `dynPotential_`,
`tmpPotential_`, `tmpReal_`). -/
def create (M : MathLib K) (rawC : Nat → Int → Dcomp K) (rawR : Nat → Int → K)
    (width height : Int) : Option (Wave K) :=
  match Field.create (rawC 4) width height 1 boundary_,
      Field.create (rawR 0) width height 1 boundary_,
      Field.create (rawR 1) width height 1 boundary_,
      Field.create (rawR 2) width height 1 boundary_,
      Field.create (rawR 3) width height 1 boundary_,
      Field.create (rawC 0) width height 1 boundary_,
      Field.create (rawC 1) width height 1 boundary_,
      Field.create (rawC 2) width height 1 boundary_,
      Field.create (rawC 3) width height 1 boundary_ with
  | some psi, some potential, some dynPotential, some tmpPotential, some tmpReal,
      some tmp0, some tmp1, some tmp2, some tmp3 =>
    let psi := forLoop 0 width (fun x psi =>
      forLoop 0 height (fun y psi =>
        psi.set x y (Dcomp.polar M 1 (2 * M.pi * (x : K) / (width : K)))) psi) psi
    some
      { width_ := width
        height_ := height
        tmpPsi0 := tmp0
        tmpPsi1 := tmp1
        tmpPsi2 := tmp2
        tmpPsi3 := tmp3
        psi_ := psi.fillBorder
        potential_ := Field.fillBorder potential
        dynPotential_ := dynPotential
        tmpPotential_ := tmpPotential
        tmpReal_ := tmpReal }
  | _, _, _, _, _, _, _, _, _ => none

/-- Method `laplace(f, x, y)`. -/
def laplace (M : MathLib K) (W : Wave K) (f : Field (Dcomp K)) (x y : Int) : Dcomp K :=
  let qsqrt2 : K := 1 / M.sqrt 2
  let w4 := Dcomp.scale (f.get x y) 4
  let s := f.get (x + 1) y + f.get (x - 1) y + f.get x (y - 1) + f.get x (y + 1) - w4
  let sdiag := f.get (x + 1) (y + 1) + f.get (x + 1) (y - 1) + f.get (x - 1) (y + 1) +
    f.get (x - 1) (y - 1) - w4
  Dcomp.scale (Dcomp.scale (s + Dcomp.scale sdiag qsqrt2) (1 / 2)) (qdrdr_ M W)

/-- Method `calcDPsiXY(laplaceXY, psiXY, VXY)`. -/
def calcDPsiXY (M : MathLib K) (laplaceXY psiXY VXY : Dcomp K) : Dcomp K :=
  let hm : K := PLANCK_CONST / (2 * M.pi * m_)
  let qh : K := 2 * M.pi / PLANCK_CONST
  (-Dcomp.I) * (Dcomp.scale VXY qh * psiXY - Dcomp.scale laplaceXY hm)

/-- Method `calcK(newk, oldk, factor)`; the result is the new content of `newk`,
which in every call is another grid than `oldk` and the members read here. -/
def calcK (M : MathLib K) (W : Wave K) (newk oldk : Field (Dcomp K)) (factor : K) :
    Field (Dcomp K) :=
  let newk := forLoop 0 W.width_ (fun x newk =>
    forLoop 0 W.height_ (fun y newk =>
      let laplaceXY := laplace M W W.psi_ x y + Dcomp.scale (laplace M W oldk x y) factor
      let psiXY := W.psi_.get x y + Dcomp.scale (oldk.get x y) factor
      let VXY := W.potential_.get x y + W.dynPotential_.get x y
      newk.set x y (calcDPsiXY M laplaceXY psiXY (Dcomp.ofReal VXY))) newk) newk
  newk.fillBorder

/-- Method `calcLaplaceV(laplaceV)`; the result is the new content of `laplaceV`. -/
def calcLaplaceV (M : MathLib K) (W : Wave K) (laplaceV : Field K) : Field K :=
  let factor : K := 4 * M.pi * GRAVITATIONAL_CONST * m_
  let laplaceV := forLoop 0 W.width_ (fun x laplaceV =>
    forLoop 0 W.height_ (fun y laplaceV =>
      laplaceV.set x y (factor * Dcomp.abs M (W.psi_.get x y))) laplaceV) laplaceV
  laplaceV.fillBorder

/-- The state of the `do` body of `calcV`: `sqrerr`, `norm` and the wave. -/
structure SweepState (K : Type) where
  sqrerr : K
  norm : K
  wave : Wave K

/-- One round of the body of the `do ... while` loop of `calcV`; `none` is a failed
assertion of `Field::set(const Field&)`. -/
def calcVBody (M : MathLib K) (laplaceV : Field K) (W : Wave K) : Option (SweepState K) :=
  let s0 : SweepState K := ⟨0, 0, W⟩
  let s1 := forLoop 0 W.width_ (fun x s =>
    forLoop 0 W.height_ (fun y s =>
      let newV : K := (1 / 4) * (s.wave.dynPotential_.get (x - 1) y +
        s.wave.dynPotential_.get (x + 1) y + s.wave.dynPotential_.get x (y - 1) +
        s.wave.dynPotential_.get x (y + 1) - laplaceV.get x y * dr_ M W * dr_ M W)
      let tmp := s.wave.tmpPotential_.set x y newV
      let norm := s.norm + newV * newV
      let oldV := s.wave.dynPotential_.get x y
      let sqrerr := s.sqrerr + (oldV - newV) * (oldV - newV)
      ⟨sqrerr, norm, { s.wave with tmpPotential_ := tmp }⟩) s) s0
  let tmp := s1.wave.tmpPotential_.fillBorder
  match s1.wave.dynPotential_.assign tmp with
  | none => none
  | some dyn => some ⟨s1.sqrerr, s1.norm, { s1.wave with tmpPotential_ := tmp, dynPotential_ := dyn }⟩

/-- The `do ... while (sqrerr > norm * 0.0001)` loop of `calcV`, with a bound on the
number of rounds; `none` is a failed assertion or the bound being reached. -/
def calcVLoop (M : MathLib K) (laplaceV : Field K) : Nat → Wave K → Option (Wave K)
  | 0, _ => none
  | fuel + 1, W =>
    match calcVBody M laplaceV W with
    | none => none
    | some s => if s.sqrerr > s.norm * (1 / 10000) then calcVLoop M laplaceV fuel s.wave
      else some s.wave

/-- Method `calcV(laplaceV)`, the loop bounded by `fuel` rounds. -/
def calcV (M : MathLib K) (fuel : Nat) (W : Wave K) (laplaceV : Field K) : Option (Wave K) :=
  match calcVLoop M laplaceV fuel W with
  | none => none
  | some W1 =>
    let t : K := -W1.dynPotential_.sum / ((W1.width_ * W1.height_ : Int) : K)
    some { W1 with dynPotential_ := W1.dynPotential_.add t }

/-- The state of the first loop of `normalize`: `sintegral` and `psi_`. -/
structure NormState (K : Type) where
  sintegral : K
  psi : Field (Dcomp K)

/-- The first pair of loops of `normalize()`: the clamp and the integral. -/
def normalizeClamp (W : Wave K) (M : MathLib K) : NormState K :=
  forLoop 0 W.width_ (fun x s =>
    forLoop 0 W.height_ (fun y s =>
      let c := s.psi.get x y
      let nc := Dcomp.norm c
      if nc > maxAbs_ * maxAbs_ then
        let c := Dcomp.scale c (maxAbs_ / M.sqrt nc)
        let nc : K := maxAbs_ * maxAbs_
        ⟨s.sintegral + nc, s.psi.set x y c⟩
      else
        ⟨s.sintegral + nc, s.psi⟩) s) ⟨0, W.psi_⟩

/-- Method `normalize()`. -/
def normalize (M : MathLib K) (W : Wave K) : Wave K :=
  let s := normalizeClamp W M
  let a := M.sqrt s.sintegral * dr_ M W
  let psi :=
    if a > 0 then
      let qa := 1 / a
      forLoop 0 W.width_ (fun x psi =>
        forLoop 0 W.height_ (fun y psi =>
          let c := psi.get x y
          psi.set x y (Dcomp.scale c qa)) psi) s.psi
    else
      s.psi
  { W with psi_ := psi.fillBorder }

/-- Method `addBump(x, y, c, size)`. -/
def addBump (M : MathLib K) (W : Wave K) (x y : Int) (c : Dcomp K) (size : Int) : Wave K :=
  let c := Dcomp.divReal c (sarea_ M)
  let psi := forLoop (-size) (size + 1) (fun dx psi =>
    forLoop (-size) (size + 1) (fun dy psi =>
      match fdiv ((dx * dx + dy * dy : Int) : K) ((size * size : Int) : K) with
      | none => psi
      | some rr =>
        if rr < 1 then
          let mx := Int.tmod (x + dx + W.width_) W.width_
          let my := Int.tmod (y + dy + W.height_) W.height_
          let oldc := psi.get mx my
          psi.set mx my (oldc + Dcomp.scale c (1 - M.sqrt rr))
        else psi) psi) W.psi_
  { W with psi_ := psi }

/-- Method `addPotentialBump(x, y, c, size)`. -/
def addPotentialBump (M : MathLib K) (W : Wave K) (x y : Int) (c : K) (size : Int) : Wave K :=
  let c := c / (POTENTIAL_UNIT * area_ * dt_)
  let potential := forLoop (-size) (size + 1) (fun dx potential =>
    forLoop (-size) (size + 1) (fun dy potential =>
      match fdiv ((dx * dx + dy * dy : Int) : K) ((size : K) * (size : K)) with
      | none => potential
      | some rr =>
        if rr < 1 then
          let mx := Int.tmod (x + dx + W.width_) W.width_
          let my := Int.tmod (y + dy + W.height_) W.height_
          let oldc := potential.get mx my
          potential.set mx my (stdMax oldc (c * (1 - M.sqrt rr)))
        else potential) potential) W.potential_
  { W with potential_ := potential }

/-- Method `draw(pixels, toColor)`: the new content of the buffer `pixels`.  The
method is `const`: it has no wave to return. -/
def draw {γ : Type} (M : MathLib K) (W : Wave K) (pixels : Int → γ)
    (toColor : Dcomp K → K → γ) : Int → γ :=
  forLoop 0 W.width_ (fun x pixels =>
    forLoop 0 W.height_ (fun y pixels =>
      let psiXY := Dcomp.scale (W.psi_.get x y) (sarea_ M)
      let VXY : K := POTENTIAL_UNIT * W.potential_.get x y * sarea_ M * dt_
      store pixels (x + W.width_ * y) (toColor psiXY VXY)) pixels) pixels

end Wave

end Schroedinger

/-! ## Auxiliary definitions for the statements and proofs -/

namespace Schroedinger

open BoundaryCondition

/-- The grids of a `Wave`: the shape every grid gets in the constructor. -/
def Field.Shaped {α : Type} (f : Field α) (w h : Int) : Prop :=
  f.width = w ∧ f.height = h ∧ f.border = 1 ∧ f.boundary = WRAP

/-- The border of a grid is the Wrap image of its main rectangle. -/
def Field.WrapConsistent {α : Type} (f : Field α) : Prop :=
  ∀ x y : Int, -f.border ≤ x ∧ x < f.width + f.border →
    -f.border ≤ y ∧ y < f.height + f.border →
    f.get x y = f.get (x % f.width) (y % f.height)

/-- What the first loop of `normalize()` makes of one cell. -/
def clampCell {K : Type} [LinearOrderedField K] (M : MathLib K) (c : Dcomp K) : Dcomp K :=
  if Dcomp.norm c > Wave.maxAbs_ * Wave.maxAbs_ then
    Dcomp.scale c (Wave.maxAbs_ / M.sqrt (Dcomp.norm c))
  else c

/-- What the first loop of `normalize()` adds to `sintegral` for one cell. -/
def clampNorm {K : Type} [LinearOrderedField K] (c : Dcomp K) : K :=
  if Dcomp.norm c > Wave.maxAbs_ * Wave.maxAbs_ then Wave.maxAbs_ * Wave.maxAbs_
  else Dcomp.norm c

/-- What `addPotentialBump(x, y, c, size)` does at the offset `(dx, dy)`: `none` when the
test `rr < 1.0` fails, else the coordinates `(mx, my)` of the cell it updates and the
factor `1 - sqrt(rr)` of the cone. -/
def coneTarget {K : Type} [LinearOrderedField K] (M : MathLib K) (W : Wave K)
    (x y size dx dy : Int) : Option (Int × Int × K) :=
  match fdiv ((dx * dx + dy * dy : Int) : K) ((size : K) * (size : K)) with
  | none => none
  | some rr =>
    if rr < 1 then
      some (Int.tmod (x + dx + W.width_) W.width_, Int.tmod (y + dy + W.height_) W.height_,
        1 - M.sqrt rr)
    else none

/-- The update `potential_.set(mx, my, std::max(potential_.get(mx, my), c * k))` at a
target of `coneTarget`. -/
def maxAt {K : Type} [LinearOrderedField K] (p : Field K) (c : K) :
    Option (Int × Int × K) → Field K
  | none => p
  | some (mx, my, k) => p.set mx my (stdMax (p.get mx my) (c * k))

/-- The discrete Laplacian in the words of the specification, for a field given by its
values: the axis-neighbour sum minus `4 f(x, y)`, plus the diagonal-neighbour sum minus
`4 f(x, y)` divided by `sqrt2`, the whole halved and divided by `dr²`. -/
def specLaplacian {K : Type} [LinearOrderedField K] (sqrt2 dr : K)
    (f : Int → Int → Dcomp K) (x y : Int) : Dcomp K :=
  Dcomp.divReal
    (Dcomp.divReal
      ((f (x + 1) y + f (x - 1) y + f x (y - 1) + f x (y + 1) - Dcomp.scale (f x y) 4) +
        Dcomp.divReal
          (f (x + 1) (y + 1) + f (x + 1) (y - 1) + f (x - 1) (y + 1) + f (x - 1) (y - 1) -
            Dcomp.scale (f x y) 4) sqrt2) 2)
    (dr * dr)

/-- The time derivative of the wavefunction in the words of the specification:
`-i * ((2π / h) * V * φ - (h / (2π * m)) * L)`, where `φ` is the value of the field and
`L` the value of its Laplacian at the cell. -/
def specTimeDerivative {K : Type} [LinearOrderedField K] (pi h m V : K)
    (phi L : Dcomp K) : Dcomp K :=
  (-Dcomp.I) * (Dcomp.scale phi (2 * pi / h * V) - Dcomp.scale L (h / (2 * pi * m)))

/-- The value the Jacobi iteration of the specification gives the cell `(x, y)` from the
iterate `V` and the source `lap`. -/
def specJacobi {K : Type} [LinearOrderedField K] (dr : K) (V lap : Field K) (x y : Int) : K :=
  (1 / 4) * (V.get (x - 1) y + V.get (x + 1) y + V.get x (y - 1) + V.get x (y + 1) -
    lap.get x y * (dr * dr))

/-- The state after `n + 1` rounds of the body of the loop of `calcV`, the loop test
left out. -/
def sweepN {K : Type} [LinearOrderedField K] (M : MathLib K) (lap : Field K) :
    Nat → Wave K → Option (Wave.SweepState K)
  | 0, W => Wave.calcVBody M lap W
  | n + 1, W =>
    match Wave.calcVBody M lap W with
    | none => none
    | some s => sweepN M lap n s.wave

/-- A grid of the shape the `Wave` constructor makes, every cell of the frame `v`. -/
def constField {α : Type} (w h : Int) (v : α) : Field α :=
  ⟨w, h, 1, WRAP, fun _ => v⟩

/-- A wave whose wavefunction is `c` in every cell of the frame, all other grids zero. -/
def constWave {K : Type} [Zero K] (w h : Int) (c : Dcomp K) : Wave K :=
  { width_ := w
    height_ := h
    tmpPsi0 := constField w h 0
    tmpPsi1 := constField w h 0
    tmpPsi2 := constField w h 0
    tmpPsi3 := constField w h 0
    psi_ := constField w h c
    potential_ := constField w h 0
    dynPotential_ := constField w h 0
    tmpPotential_ := constField w h 0
    tmpReal_ := constField w h 0 }

end Schroedinger

/-! ## Loops and frame indices -/

namespace Schroedinger
open BoundaryCondition

section Lemmas
variable {σ α : Type}

theorem iterFrom_succ (lo : Int) (body : Int → σ → σ) (n : Nat) (s : σ) :
    iterFrom lo body (n + 1) s = body (lo + (n : Int)) (iterFrom lo body n s) := by
  simp [iterFrom, List.range_succ, List.foldl_append]

theorem iterFrom_zero (lo : Int) (body : Int → σ → σ) (s : σ) :
    iterFrom lo body 0 s = s := rfl

theorem forLoop_eq_iterFrom (lo hi : Int) (body : Int → σ → σ) (s : σ) (n : Nat)
    (h : hi - lo = (n : Int)) : forLoop lo hi body s = iterFrom lo body n s := by
  unfold forLoop
  rw [h, Int.toNat_ofNat]

theorem le_idx {W c r a : Int} (hc0 : 0 ≤ c) (hcW : c < W) :
    a * W ≤ c + r * W ↔ a ≤ r := by
  constructor
  · intro h
    by_contra hlt
    have h1 : (r + 1) * W ≤ a * W := mul_le_mul_of_nonneg_right (by omega) (by omega)
    rw [add_mul, one_mul] at h1
    omega
  · intro h
    have h1 : a * W ≤ r * W := mul_le_mul_of_nonneg_right h (by omega)
    omega

theorem idx_lt {W c r a : Int} (hc0 : 0 ≤ c) (hcW : c < W) :
    c + r * W < a * W ↔ r < a := by
  have h := le_idx (a := a) (r := r) hc0 hcW
  constructor
  · intro h1
    by_contra h2
    have := h.mpr (by omega)
    omega
  · intro h1
    by_contra h2
    have := h.mp (by omega)
    omega

/-- A `memcpy` whose destination lies within the frame row `y`. -/
theorem memcpy_row (d : Int → α) (W a s y : Int) {n c r dst src : Int}
    (hdst : dst = a + y * W) (hsrc : src = s + y * W) (ha : 0 ≤ a) (han : a + n ≤ W)
    (hc0 : 0 ≤ c) (hcW : c < W) :
    memcpy d dst src n (c + r * W) =
      if r = y ∧ a ≤ c ∧ c < a + n then d ((s + (c - a)) + y * W) else d (c + r * W) := by
  subst hdst hsrc
  unfold memcpy
  by_cases hr : r = y
  · subst hr
    by_cases h : a ≤ c ∧ c < a + n
    · rw [if_pos (by omega), if_pos ⟨rfl, h⟩]
      congr 1
      ring
    · rw [if_neg (by omega), if_neg (by tauto)]
  · have hn : ¬(a + y * W ≤ c + r * W ∧ c + r * W < a + y * W + n) := by
      intro ⟨h1, h2⟩
      apply hr
      have h3 : y * W ≤ c + r * W := by omega
      have h4 : c + r * W < (y + 1) * W := by rw [add_mul, one_mul]; omega
      have := (le_idx hc0 hcW).mp h3
      have := (idx_lt hc0 hcW).mp h4
      omega
    rw [if_neg hn, if_neg (by tauto)]

/-- A `memcpy` of `k` whole frame rows. -/
theorem memcpy_block (d : Int → α) (W p q k : Int) {n c r dst src : Int}
    (hdst : dst = p * W) (hsrc : src = q * W) (hn : n = k * W)
    (hc0 : 0 ≤ c) (hcW : c < W) :
    memcpy d dst src n (c + r * W) =
      if p ≤ r ∧ r < p + k then d (c + (r - p + q) * W) else d (c + r * W) := by
  subst hdst hsrc hn
  unfold memcpy
  have e1 : p * W + k * W = (p + k) * W := by ring
  have c1 : (p * W ≤ c + r * W ∧ c + r * W < p * W + k * W) ↔ (p ≤ r ∧ r < p + k) := by
    rw [e1, le_idx hc0 hcW, idx_lt hc0 hcW]
  by_cases h : p ≤ r ∧ r < p + k
  · rw [if_pos (c1.mpr h), if_pos h]
    congr 1
    ring
  · rw [if_neg (fun h1 => h (c1.mp h1)), if_neg h]

/-- A store into column `a` of the frame row `y`. -/
theorem store_row (d : Int → α) (W a y : Int) {c r p : Int} (v : α)
    (hp : p = a + y * W) (ha : 0 ≤ a) (haW : a < W) (hc0 : 0 ≤ c) (hcW : c < W) :
    store d p v (c + r * W) = if r = y ∧ c = a then v else d (c + r * W) := by
  subst hp
  unfold store
  by_cases hr : r = y
  · subst hr
    by_cases h : c = a
    · rw [if_pos (by omega), if_pos ⟨rfl, h⟩]
    · rw [if_neg (by omega), if_neg (by tauto)]
  · have hn : ¬(c + r * W = a + y * W) := by
      intro h
      apply hr
      have h3 : y * W ≤ c + r * W := by omega
      have h4 : c + r * W < (y + 1) * W := by rw [add_mul, one_mul]; omega
      have := (le_idx hc0 hcW).mp h3
      have := (idx_lt hc0 hcW).mp h4
      omega
    rw [if_neg hn, if_neg (by tauto)]

end Lemmas
end Schroedinger

/-! ## The border after `wrap()` -/

namespace Schroedinger
open BoundaryCondition
section WrapLemmas
variable {α : Type}

/-- The row loop of `wrap()`, as a loop body. -/
theorem wrap_rows (f : Field α) (hb : 0 ≤ f.border) (hw : f.border ≤ f.width) (n : Nat) :
    ∀ c r : Int, 0 ≤ c → c < f.framew →
    iterFrom f.border (fun y d =>
      memcpy (memcpy d (y * f.framew) (y * f.framew + f.width) f.border)
        (y * f.framew + f.border + f.width) (y * f.framew + f.border) f.border) n f.data
      (c + r * f.framew)
    = if f.border ≤ r ∧ r < f.border + n then
        (if c < f.border then f.data (c + f.width + r * f.framew)
         else if f.border + f.width ≤ c then f.data (c - f.width + r * f.framew)
         else f.data (c + r * f.framew))
      else f.data (c + r * f.framew) := by
  induction n with
  | zero =>
    intro c r _ _
    rw [iterFrom_zero, if_neg (by omega)]
  | succ n ih =>
    intro c r hc0 hcW
    have hW : f.framew = 2 * f.border + f.width := rfl
    rw [iterFrom_succ]
    rw [memcpy_row _ f.framew (f.border + f.width) f.border (f.border + (n : Int))
      (by ring) (by ring) (by omega) (by omega) hc0 hcW]
    by_cases h1 : r = f.border + (n : Int) ∧ f.border + f.width ≤ c ∧
        c < f.border + f.width + f.border
    · obtain ⟨hr, hc1, hc2⟩ := h1
      rw [if_pos ⟨hr, hc1, hc2⟩]
      rw [memcpy_row _ f.framew 0 f.width (f.border + (n : Int))
        (by ring) (by ring) (by omega) (by omega) (by omega) (by omega)]
      rw [if_neg (by omega), ih _ _ (by omega) (by omega), if_neg (by omega)]
      rw [if_pos (by push_cast; omega), if_neg (by omega), if_pos hc1]
      subst hr
      congr 1
      ring
    · rw [if_neg h1]
      rw [memcpy_row _ f.framew 0 f.width (f.border + (n : Int))
        (by ring) (by ring) (by omega) (by omega) hc0 hcW]
      by_cases h2 : r = f.border + (n : Int) ∧ 0 ≤ c ∧ c < 0 + f.border
      · obtain ⟨hr, _, hc2⟩ := h2
        rw [if_pos ⟨hr, hc0, hc2⟩, ih _ _ (by omega) (by omega), if_neg (by omega)]
        rw [if_pos (by push_cast; omega), if_pos (by omega)]
        subst hr
        congr 1
        ring
      · rw [if_neg h2, ih _ _ hc0 hcW]
        by_cases h3 : f.border ≤ r ∧ r < f.border + (n : Int)
        · have h5 : f.border ≤ r ∧ r < f.border + ((n + 1 : Nat) : Int) := by
            push_cast; omega
          rw [if_pos h3, if_pos h5]
        · rw [if_neg h3]
          by_cases h4 : r = f.border + (n : Int)
          · have h5 : f.border ≤ r ∧ r < f.border + ((n + 1 : Nat) : Int) := by
              push_cast; omega
            have h6 : ¬ c < f.border := by omega
            have h7 : ¬ f.border + f.width ≤ c := by omega
            rw [if_pos h5, if_neg h6, if_neg h7]
          · have h5 : ¬(f.border ≤ r ∧ r < f.border + ((n + 1 : Nat) : Int)) := by
              push_cast; omega
            rw [if_neg h5]

end WrapLemmas
end Schroedinger

namespace Schroedinger
open BoundaryCondition
section WrapLemmas2
variable {α : Type}

theorem get_eq_data (f : Field α) (x y : Int) :
    f.get x y = f.data ((x + f.border) + (y + f.border) * f.framew) := by
  unfold Field.get Field.cell0
  congr 1
  ring

/-- What `wrap()` leaves in the frame, by cases on the position of the cell. -/
theorem wrap_get_cases (f : Field α) (hb : 0 ≤ f.border) (hw : f.border ≤ f.width)
    (hh : f.border ≤ f.height) (x y : Int)
    (hx : -f.border ≤ x ∧ x < f.width + f.border) (hy : -f.border ≤ y ∧ y < f.height + f.border) :
    f.wrap.get x y =
      f.get (if x < 0 then x + f.width else if f.width ≤ x then x - f.width else x)
        (if y < 0 then y + f.height else if f.height ≤ y then y - f.height else y) := by
  have hW : f.framew = 2 * f.border + f.width := rfl
  have hfw : f.wrap.framew = f.framew := rfl
  have hfb : f.wrap.border = f.border := rfl
  rw [get_eq_data, get_eq_data, hfw, hfb]
  have hrows := wrap_rows f hb hw (f.height + f.border - f.border).toNat
  have hn : ((f.height + f.border - f.border).toNat : Int) = f.height := by
    rw [Int.toNat_of_nonneg (by omega)]; omega
  rw [hn] at hrows
  show memcpy (memcpy (forLoop f.border (f.height + f.border) _ f.data) 0
      (0 + f.framew * f.height) (f.framew * f.border))
      (f.framew * f.border + f.framew * f.height) (f.framew * f.border)
      (f.framew * f.border) (x + f.border + (y + f.border) * f.framew) = _
  unfold forLoop
  rw [memcpy_block _ f.framew (f.border + f.height) f.border f.border
    (by ring) (by ring) (by ring) (by omega) (by omega)]
  by_cases hy2 : f.height ≤ y
  · have c1 : f.border + f.height ≤ y + f.border ∧ y + f.border < f.border + f.height + f.border := by
      omega
    rw [if_pos c1]
    rw [memcpy_block _ f.framew 0 f.height f.border
      (by ring) (by ring) (by ring) (by omega) (by omega)]
    have c2 : ¬(0 ≤ y + f.border - (f.border + f.height) + f.border ∧
        y + f.border - (f.border + f.height) + f.border < 0 + f.border) := by omega
    rw [if_neg c2, hrows _ _ (by omega) (by omega)]
    have c3 : f.border ≤ y + f.border - (f.border + f.height) + f.border ∧
        y + f.border - (f.border + f.height) + f.border < f.border + f.height := by omega
    have c4 : ¬ y < 0 := by omega
    rw [if_pos c3, if_neg c4, if_pos hy2]
    split_ifs <;> first | omega | rfl | (congr 1; ring)
  · have c1 : ¬(f.border + f.height ≤ y + f.border ∧
        y + f.border < f.border + f.height + f.border) := by omega
    rw [if_neg c1]
    rw [memcpy_block _ f.framew 0 f.height f.border
      (by ring) (by ring) (by ring) (by omega) (by omega)]
    by_cases hy3 : y < 0
    · have c2 : 0 ≤ y + f.border ∧ y + f.border < 0 + f.border := by omega
      rw [if_pos c2, hrows _ _ (by omega) (by omega)]
      have c3 : f.border ≤ y + f.border - 0 + f.height ∧
          y + f.border - 0 + f.height < f.border + f.height := by omega
      rw [if_pos c3, if_pos hy3]
      split_ifs <;> first | omega | rfl | (congr 1; ring)
    · have c2 : ¬(0 ≤ y + f.border ∧ y + f.border < 0 + f.border) := by omega
      rw [if_neg c2, hrows _ _ (by omega) (by omega)]
      have c3 : f.border ≤ y + f.border ∧ y + f.border < f.border + f.height := by omega
      rw [if_pos c3, if_neg hy3, if_neg hy2]
      split_ifs <;> first | omega | rfl | (congr 1; ring)

theorem emod_wrap {w b x : Int} (hw : b ≤ w) (hx : -b ≤ x ∧ x < w + b) :
    x % w = if x < 0 then x + w else if w ≤ x then x - w else x := by
  split_ifs with h1 h2
  · have e : x % w = (x + w) % w := by rw [Int.add_emod_self]
    rw [e]
    exact Int.emod_eq_of_lt (by omega) (by omega)
  · have e : x % w = (x - w) % w := by
      conv_lhs => rw [← Int.sub_add_cancel x w, Int.add_emod_self]
    rw [e]
    exact Int.emod_eq_of_lt (by omega) (by omega)
  · exact Int.emod_eq_of_lt (by omega) (by omega)

end WrapLemmas2
end Schroedinger
namespace Schroedinger
open BoundaryCondition

/-- C1: on a Wrap grid with `0 ≤ border ≤ width, height`, after `fillBorder()` every
frame coordinate `(x, y)` reads what the main-rectangle cell
`(x mod width, y mod height)` held before the call (non-negative remainders); in
particular the main-rectangle cells are unchanged. -/
theorem fillBorder_wrap_get {α : Type} (f : Field α) (hB : f.boundary = WRAP)
    (hb : 0 ≤ f.border) (hw : f.border ≤ f.width) (hh : f.border ≤ f.height) (x y : Int)
    (hx : -f.border ≤ x ∧ x < f.width + f.border)
    (hy : -f.border ≤ y ∧ y < f.height + f.border) :
    f.fillBorder.get x y = f.get (x % f.width) (y % f.height) ∧
    (0 ≤ x % f.width ∧ x % f.width < f.width ∧ 0 ≤ y % f.height ∧ y % f.height < f.height) ∧
    (0 ≤ x → x < f.width → 0 ≤ y → y < f.height → f.fillBorder.get x y = f.get x y) := by
  have e : f.fillBorder = f.wrap := by unfold Field.fillBorder; rw [hB]
  have hwp : 0 < f.width := by omega
  have hhp : 0 < f.height := by omega
  rw [e, wrap_get_cases f hb hw hh x y hx hy, emod_wrap hw hx, emod_wrap hh hy]
  refine ⟨rfl, ?_, ?_⟩
  · split_ifs <;> omega
  · intro h1 h2 h3 h4
    rw [if_neg (by omega), if_neg (by omega), if_neg (by omega), if_neg (by omega)]

theorem fillBorder_wrap_get_witness :
    (((Field.zero ⟨5, 3, 2, WRAP, fun _ => (0 : Int)⟩).set 1 2 300).set 4 0 500).fillBorder.get
      (-1) 3 = 500 := by
  have h := (fillBorder_wrap_get
    (((Field.zero ⟨5, 3, 2, WRAP, fun _ => (0 : Int)⟩).set 1 2 300).set 4 0 500)
    rfl (by decide) (by decide) (by decide) (-1) 3 (by decide) (by decide)).1
  rw [h]
  decide

end Schroedinger

namespace Schroedinger
open BoundaryCondition

theorem wrap_get_emod {α : Type} (f : Field α) (hb : 0 ≤ f.border) (hw : f.border ≤ f.width)
    (hh : f.border ≤ f.height) (x y : Int)
    (hx : -f.border ≤ x ∧ x < f.width + f.border)
    (hy : -f.border ≤ y ∧ y < f.height + f.border) :
    f.wrap.get x y = f.get (x % f.width) (y % f.height) ∧
    (0 ≤ x % f.width ∧ x % f.width < f.width ∧ 0 ≤ y % f.height ∧ y % f.height < f.height) := by
  rw [wrap_get_cases f hb hw hh x y hx hy, emod_wrap hw hx, emod_wrap hh hy]
  refine ⟨rfl, ?_⟩
  split_ifs <;> omega

theorem wrap_get_main {α : Type} (f : Field α) (hb : 0 ≤ f.border) (hw : f.border ≤ f.width)
    (hh : f.border ≤ f.height) (x y : Int) (hx : 0 ≤ x ∧ x < f.width)
    (hy : 0 ≤ y ∧ y < f.height) : f.wrap.get x y = f.get x y := by
  rw [wrap_get_cases f hb hw hh x y (by omega) (by omega)]
  rw [if_neg (by omega), if_neg (by omega), if_neg (by omega), if_neg (by omega)]

theorem wrap_wrapConsistent {α : Type} (f : Field α) (hb : 0 ≤ f.border)
    (hw : f.border ≤ f.width) (hh : f.border ≤ f.height) : f.wrap.WrapConsistent := by
  intro x y hx hy
  have hx' : -f.border ≤ x ∧ x < f.width + f.border := hx
  have hy' : -f.border ≤ y ∧ y < f.height + f.border := hy
  obtain ⟨h1, h2⟩ := wrap_get_emod f hb hw hh x y hx' hy'
  show f.wrap.get x y = f.wrap.get (x % f.width) (y % f.height)
  rw [h1, wrap_get_main f hb hw hh _ _ (by omega) (by omega)]

end Schroedinger

/-! ## The border after `mirror()` -/

namespace Schroedinger
open BoundaryCondition
section MirrorLemmas
variable {α : Type}

/-- The inner loop of the row loop of `mirror()`, in the frame row `y`. -/
theorem mirror_inner (W b w y : Int) (hb : 0 ≤ b) (hw : b ≤ w) (hW : W = 2 * b + w)
    (d : Int → α) (m : Nat) (hm : (m : Int) ≤ b) :
    ∀ c r : Int, 0 ≤ c → c < W →
    iterFrom 0 (fun x d =>
      store (store d (y * W + b - x - 1) (d (y * W + b + x))) (y * W + b + w + x)
        (store d (y * W + b - x - 1) (d (y * W + b + x)) (y * W + b + w - x - 1))) m d
      (c + r * W)
    = if r = y ∧ b - (m : Int) ≤ c ∧ c < b then d ((2 * b - 1 - c) + y * W)
      else if r = y ∧ b + w ≤ c ∧ c < b + w + (m : Int) then d ((2 * (b + w) - 1 - c) + y * W)
      else d (c + r * W) := by
  induction m with
  | zero =>
    intro c r _ _
    rw [iterFrom_zero, if_neg (by omega), if_neg (by omega)]
  | succ m ih =>
    intro c r hc0 hcW
    have ihm := ih (by push_cast at hm; omega)
    push_cast at hm
    rw [iterFrom_succ]
    generalize hD : iterFrom 0 _ m d = D at ihm
    rw [store_row _ W (b + w + (m : Int)) y _ (by ring) (by omega) (by omega) hc0 hcW]
    by_cases h1 : r = y ∧ c = b + w + (m : Int)
    · rw [if_pos h1]
      obtain ⟨hr, hc⟩ := h1
      have e1 : y * W + b + w - (0 + (m : Int)) - 1 = (b + w - (m : Int) - 1) + y * W := by ring
      rw [e1, store_row _ W (b - (m : Int) - 1) y _ (by ring) (by omega) (by omega)
        (by omega) (by omega)]
      have c1 : ¬(y = y ∧ b + w - (m : Int) - 1 = b - (m : Int) - 1) := by omega
      rw [if_neg c1, ihm _ _ (by omega) (by omega)]
      have c2 : ¬(y = y ∧ b - (m : Int) ≤ b + w - (m : Int) - 1 ∧ b + w - (m : Int) - 1 < b) := by
        omega
      have c3 : ¬(y = y ∧ b + w ≤ b + w - (m : Int) - 1 ∧
          b + w - (m : Int) - 1 < b + w + (m : Int)) := by omega
      have c4 : ¬(r = y ∧ b - ((m + 1 : Nat) : Int) ≤ c ∧ c < b) := by push_cast; omega
      have c5 : r = y ∧ b + w ≤ c ∧ c < b + w + ((m + 1 : Nat) : Int) := by push_cast; omega
      rw [if_neg c2, if_neg c3, if_neg c4, if_pos c5]
      congr 1
      rw [hc]; ring
    · rw [if_neg h1]
      rw [store_row _ W (b - (m : Int) - 1) y _ (by ring) (by omega) (by omega) hc0 hcW]
      by_cases h2 : r = y ∧ c = b - (m : Int) - 1
      · rw [if_pos h2]
        obtain ⟨hr, hc⟩ := h2
        have e1 : y * W + b + (0 + (m : Int)) = (b + (m : Int)) + y * W := by ring
        rw [e1, ihm _ _ (by omega) (by omega)]
        have c2 : ¬(y = y ∧ b - (m : Int) ≤ b + (m : Int) ∧ b + (m : Int) < b) := by omega
        have c3 : ¬(y = y ∧ b + w ≤ b + (m : Int) ∧ b + (m : Int) < b + w + (m : Int)) := by
          omega
        have c4 : r = y ∧ b - ((m + 1 : Nat) : Int) ≤ c ∧ c < b := by push_cast; omega
        rw [if_neg c2, if_neg c3, if_pos c4]
        congr 1
        rw [hc]; ring
      · rw [if_neg h2, ihm _ _ hc0 hcW]
        by_cases h3 : r = y ∧ b - (m : Int) ≤ c ∧ c < b
        · have c4 : r = y ∧ b - ((m + 1 : Nat) : Int) ≤ c ∧ c < b := by push_cast; omega
          rw [if_pos h3, if_pos c4]
        · have c4 : ¬(r = y ∧ b - ((m + 1 : Nat) : Int) ≤ c ∧ c < b) := by push_cast; omega
          rw [if_neg h3, if_neg c4]
          by_cases h5 : r = y ∧ b + w ≤ c ∧ c < b + w + (m : Int)
          · have c6 : r = y ∧ b + w ≤ c ∧ c < b + w + ((m + 1 : Nat) : Int) := by
              push_cast; omega
            rw [if_pos h5, if_pos c6]
          · have c6 : ¬(r = y ∧ b + w ≤ c ∧ c < b + w + ((m + 1 : Nat) : Int)) := by
              push_cast; omega
            rw [if_neg h5, if_neg c6]

end MirrorLemmas
end Schroedinger

namespace Schroedinger
open BoundaryCondition
section MirrorLemmas2
variable {α : Type}

/-- The row loop of `mirror()`. -/
theorem mirror_rows (W b w : Int) (hb : 0 ≤ b) (hw : b ≤ w) (hW : W = 2 * b + w)
    (d : Int → α) (n : Nat) :
    ∀ c r : Int, 0 ≤ c → c < W →
    iterFrom b (fun y d =>
      forLoop 0 b (fun x d =>
        store (store d (y * W + b - x - 1) (d (y * W + b + x))) (y * W + b + w + x)
          (store d (y * W + b - x - 1) (d (y * W + b + x)) (y * W + b + w - x - 1))) d) n d
      (c + r * W)
    = if b ≤ r ∧ r < b + (n : Int) then
        (if c < b then d ((2 * b - 1 - c) + r * W)
         else if b + w ≤ c then d ((2 * (b + w) - 1 - c) + r * W)
         else d (c + r * W))
      else d (c + r * W) := by
  induction n with
  | zero =>
    intro c r _ _
    rw [iterFrom_zero, if_neg (by omega)]
  | succ n ih =>
    intro c r hc0 hcW
    rw [iterFrom_succ]
    generalize hD : iterFrom b _ n d = D at ih
    rw [forLoop_eq_iterFrom 0 b _ _ b.toNat (by rw [Int.toNat_of_nonneg hb]; ring)]
    have hbn : (b.toNat : Int) = b := Int.toNat_of_nonneg hb
    rw [mirror_inner W b w (b + (n : Int)) hb hw hW D b.toNat (by omega) c r hc0 hcW, hbn]
    by_cases h1 : r = b + (n : Int)
    · have c5 : b ≤ r ∧ r < b + ((n + 1 : Nat) : Int) := by push_cast; omega
      rw [if_pos c5]
      by_cases h2 : c < b
      · have c1 : r = b + (n : Int) ∧ b - b ≤ c ∧ c < b := by omega
        rw [if_pos c1, if_pos h2, ih _ _ (by omega) (by omega), if_neg (by omega), h1]
      · have c1 : ¬(r = b + (n : Int) ∧ b - b ≤ c ∧ c < b) := by omega
        rw [if_neg c1, if_neg h2]
        by_cases h3 : b + w ≤ c
        · have c2 : r = b + (n : Int) ∧ b + w ≤ c ∧ c < b + w + b := by omega
          rw [if_pos c2, if_pos h3, ih _ _ (by omega) (by omega), if_neg (by omega), h1]
        · have c2 : ¬(r = b + (n : Int) ∧ b + w ≤ c ∧ c < b + w + b) := by omega
          rw [if_neg c2, if_neg h3, ih _ _ hc0 hcW, if_neg (by omega)]
    · have c1 : ¬(r = b + (n : Int) ∧ b - b ≤ c ∧ c < b) := by omega
      have c2 : ¬(r = b + (n : Int) ∧ b + w ≤ c ∧ c < b + w + b) := by omega
      rw [if_neg c1, if_neg c2, ih _ _ hc0 hcW]
      by_cases h3 : b ≤ r ∧ r < b + (n : Int)
      · have c5 : b ≤ r ∧ r < b + ((n + 1 : Nat) : Int) := by push_cast; omega
        rw [if_pos h3, if_pos c5]
      · have c5 : ¬(b ≤ r ∧ r < b + ((n + 1 : Nat) : Int)) := by push_cast; omega
        rw [if_neg h3, if_neg c5]

/-- The loop of `mirror()` over the top and bottom rows. -/
theorem mirror_topbottom (W b h : Int) (hb : 0 ≤ b) (hh : b ≤ h)
    (d : Int → α) (m : Nat) (hm : (m : Int) ≤ b) :
    ∀ c r : Int, 0 ≤ c → c < W →
    iterFrom 0 (fun y d =>
      memcpy (memcpy d (b * W - (1 + y) * W) (b * W + y * W) W)
        ((h + b) * W + y * W) ((h + b) * W - (1 + y) * W) W) m d
      (c + r * W)
    = if b - (m : Int) ≤ r ∧ r < b then d (c + (2 * b - 1 - r) * W)
      else if h + b ≤ r ∧ r < h + b + (m : Int) then d (c + (2 * (h + b) - 1 - r) * W)
      else d (c + r * W) := by
  induction m with
  | zero =>
    intro c r _ _
    rw [iterFrom_zero, if_neg (by omega), if_neg (by omega)]
  | succ m ih =>
    intro c r hc0 hcW
    have ihm := ih (by push_cast at hm; omega)
    push_cast at hm
    rw [iterFrom_succ]
    generalize hD : iterFrom 0 _ m d = D at ihm
    rw [memcpy_block _ W (h + b + (m : Int)) (h + b - 1 - (m : Int)) 1
      (by ring) (by ring) (by ring) hc0 hcW]
    by_cases h1 : r = h + b + (m : Int)
    · have c1 : h + b + (m : Int) ≤ r ∧ r < h + b + (m : Int) + 1 := by omega
      rw [if_pos c1]
      rw [memcpy_block _ W (b - 1 - (m : Int)) (b + (m : Int)) 1
        (by ring) (by ring) (by ring) hc0 hcW]
      have c2 : ¬(b - 1 - (m : Int) ≤ r - (h + b + (m : Int)) + (h + b - 1 - (m : Int)) ∧
          r - (h + b + (m : Int)) + (h + b - 1 - (m : Int)) < b - 1 - (m : Int) + 1) := by omega
      rw [if_neg c2, ihm _ _ hc0 hcW]
      have c3 : ¬(b - (m : Int) ≤ r - (h + b + (m : Int)) + (h + b - 1 - (m : Int)) ∧
          r - (h + b + (m : Int)) + (h + b - 1 - (m : Int)) < b) := by omega
      have c4 : ¬(h + b ≤ r - (h + b + (m : Int)) + (h + b - 1 - (m : Int)) ∧
          r - (h + b + (m : Int)) + (h + b - 1 - (m : Int)) < h + b + (m : Int)) := by omega
      have c5 : ¬(b - ((m + 1 : Nat) : Int) ≤ r ∧ r < b) := by push_cast; omega
      have c6 : h + b ≤ r ∧ r < h + b + ((m + 1 : Nat) : Int) := by push_cast; omega
      rw [if_neg c3, if_neg c4, if_neg c5, if_pos c6]
      congr 1
      rw [h1]; ring
    · have c1 : ¬(h + b + (m : Int) ≤ r ∧ r < h + b + (m : Int) + 1) := by omega
      rw [if_neg c1]
      rw [memcpy_block _ W (b - 1 - (m : Int)) (b + (m : Int)) 1
        (by ring) (by ring) (by ring) hc0 hcW]
      by_cases h2 : r = b - 1 - (m : Int)
      · have c2 : b - 1 - (m : Int) ≤ r ∧ r < b - 1 - (m : Int) + 1 := by omega
        rw [if_pos c2, ihm _ _ hc0 hcW]
        have c3 : ¬(b - (m : Int) ≤ r - (b - 1 - (m : Int)) + (b + (m : Int)) ∧
            r - (b - 1 - (m : Int)) + (b + (m : Int)) < b) := by omega
        have c4 : ¬(h + b ≤ r - (b - 1 - (m : Int)) + (b + (m : Int)) ∧
            r - (b - 1 - (m : Int)) + (b + (m : Int)) < h + b + (m : Int)) := by omega
        have c5 : b - ((m + 1 : Nat) : Int) ≤ r ∧ r < b := by push_cast; omega
        rw [if_neg c3, if_neg c4, if_pos c5]
        congr 1
        rw [h2]; ring
      · have c2 : ¬(b - 1 - (m : Int) ≤ r ∧ r < b - 1 - (m : Int) + 1) := by omega
        rw [if_neg c2, ihm _ _ hc0 hcW]
        by_cases h3 : b - (m : Int) ≤ r ∧ r < b
        · have c5 : b - ((m + 1 : Nat) : Int) ≤ r ∧ r < b := by push_cast; omega
          rw [if_pos h3, if_pos c5]
        · have c5 : ¬(b - ((m + 1 : Nat) : Int) ≤ r ∧ r < b) := by push_cast; omega
          rw [if_neg h3, if_neg c5]
          by_cases h4 : h + b ≤ r ∧ r < h + b + (m : Int)
          · have c6 : h + b ≤ r ∧ r < h + b + ((m + 1 : Nat) : Int) := by push_cast; omega
            rw [if_pos h4, if_pos c6]
          · have c6 : ¬(h + b ≤ r ∧ r < h + b + ((m + 1 : Nat) : Int)) := by push_cast; omega
            rw [if_neg h4, if_neg c6]

end MirrorLemmas2
end Schroedinger

namespace Schroedinger
open BoundaryCondition

/-- What `mirror()` leaves in the frame, by cases on the position of the cell. -/
theorem mirror_get_cases {α : Type} (f : Field α) (hb : 0 ≤ f.border) (hw : f.border ≤ f.width)
    (hh : f.border ≤ f.height) (x y : Int)
    (hx : -f.border ≤ x ∧ x < f.width + f.border)
    (hy : -f.border ≤ y ∧ y < f.height + f.border) :
    f.mirror.get x y =
      f.get (if x < 0 then -1 - x else if f.width ≤ x then 2 * f.width - 1 - x else x)
        (if y < 0 then -1 - y else if f.height ≤ y then 2 * f.height - 1 - y else y) := by
  have hW : f.framew = 2 * f.border + f.width := rfl
  have hfw : f.mirror.framew = f.framew := rfl
  have hfb : f.mirror.border = f.border := rfl
  have hbn : (f.border.toNat : Int) = f.border := Int.toNat_of_nonneg hb
  have hhn : ((f.height + f.border - f.border).toNat : Int) = f.height := by
    rw [Int.toNat_of_nonneg (by omega)]; omega
  rw [get_eq_data, get_eq_data, hfw, hfb]
  show forLoop 0 f.border (fun y d =>
      memcpy (memcpy d (f.border * f.framew - (1 + y) * f.framew)
        (f.border * f.framew + y * f.framew) f.framew)
        ((f.height + f.border) * f.framew + y * f.framew)
        ((f.height + f.border) * f.framew - (1 + y) * f.framew) f.framew)
      (forLoop f.border (f.height + f.border) (fun y d =>
        forLoop 0 f.border (fun x d =>
          store (store d (y * f.framew + f.border - x - 1) (d (y * f.framew + f.border + x)))
            (y * f.framew + f.border + f.width + x)
            (store d (y * f.framew + f.border - x - 1) (d (y * f.framew + f.border + x))
              (y * f.framew + f.border + f.width - x - 1))) d) f.data)
      (x + f.border + (y + f.border) * f.framew) = _
  rw [forLoop_eq_iterFrom 0 f.border _ _ f.border.toNat (by rw [hbn]; ring)]
  rw [mirror_topbottom f.framew f.border f.height hb hh _ f.border.toNat (by omega) _ _
    (by omega) (by omega), hbn]
  rw [forLoop_eq_iterFrom f.border (f.height + f.border) _ _
    (f.height + f.border - f.border).toNat (by rw [hhn]; ring)]
  have hrows := mirror_rows f.framew f.border f.width hb hw hW f.data
    (f.height + f.border - f.border).toNat
  rw [hhn] at hrows
  by_cases hy1 : y < 0
  · have c1 : f.border - f.border ≤ y + f.border ∧ y + f.border < f.border := by omega
    rw [if_pos c1, hrows _ _ (by omega) (by omega)]
    have c2 : f.border ≤ 2 * f.border - 1 - (y + f.border) ∧
        2 * f.border - 1 - (y + f.border) < f.border + f.height := by omega
    rw [if_pos c2, if_pos hy1]
    split_ifs <;> first | omega | rfl | (congr 1; ring)
  · have c1 : ¬(f.border - f.border ≤ y + f.border ∧ y + f.border < f.border) := by omega
    rw [if_neg c1, if_neg hy1]
    by_cases hy2 : f.height ≤ y
    · have c2 : f.height + f.border ≤ y + f.border ∧
          y + f.border < f.height + f.border + f.border := by omega
      rw [if_pos c2, hrows _ _ (by omega) (by omega)]
      have c3 : f.border ≤ 2 * (f.height + f.border) - 1 - (y + f.border) ∧
        2 * (f.height + f.border) - 1 - (y + f.border) < f.border + f.height := by omega
      rw [if_pos c3, if_pos hy2]
      split_ifs <;> first | omega | rfl | (congr 1; ring)
    · have c2 : ¬(f.height + f.border ≤ y + f.border ∧
          y + f.border < f.height + f.border + f.border) := by omega
      rw [if_neg c2, hrows _ _ (by omega) (by omega)]
      have c3 : f.border ≤ y + f.border ∧ y + f.border < f.border + f.height := by omega
      rw [if_pos c3, if_neg hy2]
      split_ifs <;> first | omega | rfl | (congr 1; ring)

/-- C2: on a Mirror grid with `0 ≤ border ≤ width, height`, after `fillBorder()` every
frame coordinate `(x, y)` reads what the main-rectangle cell `(r x width, r y height)`
held before the call, where `r a n = a` inside `[0, n)`, `-1 - a` for `a < 0` and
`2n - 1 - a` for `a ≥ n`; the reflected cell lies in the main rectangle and the
main-rectangle cells are unchanged. -/
theorem fillBorder_mirror_get {α : Type} (f : Field α) (hB : f.boundary = MIRROR)
    (hb : 0 ≤ f.border) (hw : f.border ≤ f.width) (hh : f.border ≤ f.height) (x y : Int)
    (hx : -f.border ≤ x ∧ x < f.width + f.border)
    (hy : -f.border ≤ y ∧ y < f.height + f.border) :
    f.fillBorder.get x y =
      f.get (if x < 0 then -1 - x else if f.width ≤ x then 2 * f.width - 1 - x else x)
        (if y < 0 then -1 - y else if f.height ≤ y then 2 * f.height - 1 - y else y) ∧
    (0 ≤ (if x < 0 then -1 - x else if f.width ≤ x then 2 * f.width - 1 - x else x) ∧
      (if x < 0 then -1 - x else if f.width ≤ x then 2 * f.width - 1 - x else x) < f.width ∧
      0 ≤ (if y < 0 then -1 - y else if f.height ≤ y then 2 * f.height - 1 - y else y) ∧
      (if y < 0 then -1 - y else if f.height ≤ y then 2 * f.height - 1 - y else y) < f.height) ∧
    (0 ≤ x → x < f.width → 0 ≤ y → y < f.height → f.fillBorder.get x y = f.get x y) := by
  have e : f.fillBorder = f.mirror := by unfold Field.fillBorder; rw [hB]
  rw [e, mirror_get_cases f hb hw hh x y hx hy]
  refine ⟨rfl, ?_, ?_⟩
  · split_ifs <;> omega
  · intro h1 h2 h3 h4
    rw [if_neg (by omega), if_neg (by omega), if_neg (by omega), if_neg (by omega)]

theorem fillBorder_mirror_get_witness :
    (((Field.zero ⟨5, 3, 2, MIRROR, fun _ => (0 : Int)⟩).set 1 2 300).set 4 0 500).fillBorder.get
      5 (-1) = 500 := by
  have h := (fillBorder_mirror_get
    (((Field.zero ⟨5, 3, 2, MIRROR, fun _ => (0 : Int)⟩).set 1 2 300).set 4 0 500)
    rfl (by decide) (by decide) (by decide) 5 (-1) (by decide) (by decide)).1
  rw [h]
  decide

end Schroedinger

/-! ## Nested loops over the main rectangle -/

namespace Schroedinger
open BoundaryCondition

theorem forLoop_zero {σ : Type} (h : Int) (body : Int → σ → σ) (s : σ) :
    forLoop 0 h body s = iterFrom 0 body h.toNat s := by
  unfold forLoop
  rw [sub_zero]

/-- Loop invariants for `for x in [0, w) for y in [0, h)`: `Inv i j s` is stated for the
state `s` reached after `i` complete rounds of the outer loop and `j` rounds of the
inner loop. -/
theorem forLoop2_induction {σ : Type} (w h : Int) (body : Int → Int → σ → σ) (s0 : σ)
    (Inv : Nat → Nat → σ → Prop) (h0 : Inv 0 0 s0)
    (hstep : ∀ (i j : Nat) (s : σ), (i : Int) < w → (j : Int) < h → Inv i j s →
      Inv i (j + 1) (body i j s))
    (hrow : ∀ (i : Nat) (s : σ), (i : Int) < w → Inv i h.toNat s → Inv (i + 1) 0 s) :
    Inv w.toNat 0 (forLoop 0 w (fun x s => forLoop 0 h (fun y s => body x y s) s) s0) := by
  have inner : ∀ (i : Nat), (i : Int) < w → ∀ (j : Nat), j ≤ h.toNat → ∀ s, Inv i 0 s →
      Inv i j (iterFrom 0 (fun y s => body i y s) j s) := by
    intro i hi j
    induction j with
    | zero => intro _ s hs; exact hs
    | succ j ih =>
      intro hj s hs
      rw [iterFrom_succ, zero_add]
      exact hstep i j _ hi (by omega) (ih (by omega) s hs)
  have outer : ∀ (i : Nat), i ≤ w.toNat →
      Inv i 0 (iterFrom 0 (fun x s => forLoop 0 h (fun y s => body x y s) s) i s0) := by
    intro i
    induction i with
    | zero => intro _; exact h0
    | succ i ih =>
      intro hi
      rw [iterFrom_succ, zero_add]
      apply hrow i _ (by omega)
      rw [forLoop_zero]
      exact inner i (by omega) h.toNat le_rfl _ (ih (by omega))
  rw [forLoop_zero]
  exact outer w.toNat le_rfl

/-- Reading a frame column after a `set` of a frame column. -/
theorem get_set {α : Type} (f : Field α) (x y x1 y1 : Int) (v : α)
    (hx : -f.border ≤ x ∧ x < f.width + f.border)
    (hx1 : -f.border ≤ x1 ∧ x1 < f.width + f.border) :
    (f.set x y v).get x1 y1 = if x1 = x ∧ y1 = y then v else f.get x1 y1 := by
  have hW : f.framew = 2 * f.border + f.width := rfl
  rw [get_eq_data, get_eq_data]
  show store f.data (f.cell0 + (x + y * f.framew)) v (x1 + f.border + (y1 + f.border) * f.framew)
    = _
  rw [store_row f.data f.framew (x + f.border) (y + f.border) v
    (by unfold Field.cell0; ring) (by omega) (by omega) (by omega) (by omega)]
  by_cases h : x1 = x ∧ y1 = y
  · rw [if_pos (by omega), if_pos h]
  · rw [if_neg (by omega), if_neg h]

end Schroedinger

/-! ## `normalize()` -/

namespace Schroedinger
open BoundaryCondition

section Normalize
variable {K : Type} [LinearOrderedField K]

theorem normalizeClamp_spec (M : MathLib K) (W : Wave K)
    (hs : W.psi_.Shaped W.width_ W.height_) :
    ((Wave.normalizeClamp W M).psi.Shaped W.width_ W.height_) ∧
    (∀ x y : Int, -1 ≤ x ∧ x < W.width_ + 1 →
      (Wave.normalizeClamp W M).psi.get x y =
        if 0 ≤ x ∧ x < W.width_ ∧ 0 ≤ y ∧ y < W.height_ then clampCell M (W.psi_.get x y)
        else W.psi_.get x y) ∧
    (Wave.normalizeClamp W M).sintegral =
      ∑ x in Finset.range W.width_.toNat, ∑ y in Finset.range W.height_.toNat,
        clampNorm (W.psi_.get x y) := by
  obtain ⟨hsw, hsh, hsb, hsB⟩ := hs
  have key := forLoop2_induction W.width_ W.height_
    (fun x y (s : Wave.NormState K) =>
      if Dcomp.norm (s.psi.get x y) > Wave.maxAbs_ * Wave.maxAbs_ then
        (⟨s.sintegral + Wave.maxAbs_ * Wave.maxAbs_,
          s.psi.set x y (Dcomp.scale (s.psi.get x y)
            (Wave.maxAbs_ / M.sqrt (Dcomp.norm (s.psi.get x y))))⟩ : Wave.NormState K)
      else ⟨s.sintegral + Dcomp.norm (s.psi.get x y), s.psi⟩)
    ⟨0, W.psi_⟩
    (fun i j s => s.psi.Shaped W.width_ W.height_ ∧
      (∀ x y : Int, -1 ≤ x ∧ x < W.width_ + 1 →
        s.psi.get x y =
          if 0 ≤ x ∧ 0 ≤ y ∧ y < W.height_ ∧ (x < i ∨ (x = i ∧ y < j)) then
            clampCell M (W.psi_.get x y)
          else W.psi_.get x y) ∧
      s.sintegral =
        (∑ x in Finset.range i, ∑ y in Finset.range W.height_.toNat,
          clampNorm (W.psi_.get x y)) +
        ∑ y in Finset.range j, clampNorm (W.psi_.get i y))
    ?_ ?_ ?_
  · obtain ⟨k1, k2, k3⟩ := key
    refine ⟨k1, ?_, ?_⟩
    · intro x y hx
      have := k2 x y hx
      unfold Wave.normalizeClamp
      rw [this]
      by_cases hc : 0 ≤ x ∧ x < W.width_ ∧ 0 ≤ y ∧ y < W.height_
      · rw [if_pos hc, if_pos (by omega)]
      · rw [if_neg hc, if_neg (by omega)]
    · unfold Wave.normalizeClamp
      rw [k3]
      simp
  · refine ⟨⟨hsw, hsh, hsb, hsB⟩, ?_, by simp⟩
    intro x y _
    rw [if_neg (by omega)]
  · intro i j s hi hj ⟨⟨h1, h2, h3, h4⟩, hget, hsum⟩
    have hij : s.psi.get i j = W.psi_.get i j := by
      rw [hget i j (by omega), if_neg (by omega)]
    have hstep : ∀ (v : Dcomp K) (x y : Int), -1 ≤ x ∧ x < W.width_ + 1 →
        v = clampCell M (W.psi_.get i j) →
        (if x = (i : Int) ∧ y = (j : Int) then v else s.psi.get x y) =
          if 0 ≤ x ∧ 0 ≤ y ∧ y < W.height_ ∧ (x < (i : Int) ∨ (x = (i : Int) ∧
              y < ((j + 1 : Nat) : Int))) then
            clampCell M (W.psi_.get x y)
          else W.psi_.get x y := by
      intro v x y hx hv
      by_cases hxy : x = (i : Int) ∧ y = (j : Int)
      · rw [if_pos hxy, if_pos (by push_cast; omega), hv, hxy.1, hxy.2]
      · rw [if_neg hxy, hget x y hx]
        by_cases hp : 0 ≤ x ∧ 0 ≤ y ∧ y < W.height_ ∧ (x < (i : Int) ∨ (x = (i : Int) ∧
            y < (j : Int)))
        · rw [if_pos hp, if_pos (by push_cast; omega)]
        · rw [if_neg hp, if_neg (by push_cast; omega)]
    beta_reduce
    by_cases hc : Dcomp.norm (s.psi.get i j) > Wave.maxAbs_ * Wave.maxAbs_
    · rw [if_pos hc]
      refine ⟨⟨h1, h2, h3, h4⟩, ?_, ?_⟩
      · intro x y hx
        show (s.psi.set i j _).get x y = _
        rw [get_set _ _ _ _ _ _ (by rw [h3, h1]; omega) (by rw [h3, h1]; omega)]
        apply hstep _ x y hx
        rw [hij]
        unfold clampCell
        rw [if_pos (by rw [← hij]; exact hc)]
      · show s.sintegral + Wave.maxAbs_ * Wave.maxAbs_ = _
        rw [hsum, Finset.sum_range_succ, add_assoc]
        congr 2
        unfold clampNorm
        rw [if_pos (by rw [← hij]; exact hc)]
    · rw [if_neg hc]
      refine ⟨⟨h1, h2, h3, h4⟩, ?_, ?_⟩
      · intro x y hx
        show s.psi.get x y = _
        rw [← hstep (s.psi.get i j) x y hx]
        · by_cases hxy : x = (i : Int) ∧ y = (j : Int)
          · rw [if_pos hxy, hxy.1, hxy.2]
          · rw [if_neg hxy]
        · rw [hij]
          unfold clampCell
          rw [if_neg (by rw [← hij]; exact hc)]
      · show s.sintegral + Dcomp.norm (s.psi.get i j) = _
        rw [hsum, Finset.sum_range_succ, add_assoc]
        congr 2
        unfold clampNorm
        rw [if_neg (by rw [← hij]; exact hc), hij]
  · intro i s hi ⟨hS, hget, hsum⟩
    refine ⟨hS, ?_, ?_⟩
    · intro x y hx
      rw [hget x y hx]
      by_cases hp : 0 ≤ x ∧ 0 ≤ y ∧ y < W.height_ ∧ (x < (i : Int) ∨ (x = (i : Int) ∧
          y < (W.height_.toNat : Int)))
      · rw [if_pos hp, if_pos (by push_cast; omega)]
      · rw [if_neg hp, if_neg (by push_cast; omega)]
    · rw [hsum, Finset.sum_range_succ]
      simp

end Normalize
end Schroedinger

namespace Schroedinger
open BoundaryCondition

/-- A pair of loops of `set` calls keeps the constant members of the grid. -/
theorem mapLoop_dims {α : Type} (p0 : Field α) (w h : Int) (g : Int → Int → α → α) :
    (forLoop 0 w (fun x p => forLoop 0 h (fun y (p : Field α) =>
        p.set x y (g x y (p.get x y))) p) p0).width = p0.width ∧
    (forLoop 0 w (fun x p => forLoop 0 h (fun y (p : Field α) =>
        p.set x y (g x y (p.get x y))) p) p0).height = p0.height ∧
    (forLoop 0 w (fun x p => forLoop 0 h (fun y (p : Field α) =>
        p.set x y (g x y (p.get x y))) p) p0).border = p0.border ∧
    (forLoop 0 w (fun x p => forLoop 0 h (fun y (p : Field α) =>
        p.set x y (g x y (p.get x y))) p) p0).boundary = p0.boundary :=
  forLoop2_induction w h (fun x y (p : Field α) => p.set x y (g x y (p.get x y))) p0
    (fun _ _ p => p.width = p0.width ∧ p.height = p0.height ∧ p.border = p0.border ∧
      p.boundary = p0.boundary)
    ⟨rfl, rfl, rfl, rfl⟩ (fun _ _ _ _ _ h => h) (fun _ _ _ h => h)

/-- A pair of loops that rewrites every cell of `[0, w) × [0, h)` from its own value. -/
theorem mapLoop_spec {α : Type} (p0 : Field α) (w h : Int) (g : Int → Int → α → α)
    (hb : 0 ≤ p0.border) (hw : w ≤ p0.width + p0.border) :
    ∀ x y : Int, -p0.border ≤ x ∧ x < p0.width + p0.border →
      (forLoop 0 w (fun x p => forLoop 0 h (fun y (p : Field α) =>
        p.set x y (g x y (p.get x y))) p) p0).get x y =
        if 0 ≤ x ∧ x < w ∧ 0 ≤ y ∧ y < h then g x y (p0.get x y) else p0.get x y := by
  have key := forLoop2_induction w h
    (fun x y (p : Field α) => p.set x y (g x y (p.get x y))) p0
    (fun i j p => p.width = p0.width ∧ p.height = p0.height ∧ p.border = p0.border ∧
      p.boundary = p0.boundary ∧
      ∀ x y : Int, -p0.border ≤ x ∧ x < p0.width + p0.border →
        p.get x y =
          if 0 ≤ x ∧ 0 ≤ y ∧ y < h ∧ (x < i ∨ (x = i ∧ y < j)) then g x y (p0.get x y)
          else p0.get x y)
    ?_ ?_ ?_
  · obtain ⟨k1, k2, k3, k4, k5⟩ := key
    intro x y hx
    rw [k5 x y hx]
    by_cases hc : 0 ≤ x ∧ x < w ∧ 0 ≤ y ∧ y < h
    · rw [if_pos hc, if_pos (by omega)]
    · rw [if_neg hc, if_neg (by omega)]
  · refine ⟨rfl, rfl, rfl, rfl, ?_⟩
    intro x y _
    rw [if_neg (by omega)]
  · intro i j p hi hj ⟨h1, h2, h3, h4, hget⟩
    refine ⟨h1, h2, h3, h4, ?_⟩
    intro x y hx
    have hij : p.get i j = p0.get i j := by
      rw [hget i j (by omega), if_neg (by omega)]
    beta_reduce
    rw [get_set _ _ _ _ _ _ (by rw [h3, h1]; omega) (by rw [h3, h1]; omega)]
    by_cases hxy : x = (i : Int) ∧ y = (j : Int)
    · rw [if_pos hxy, if_pos (by push_cast; omega), hij, hxy.1, hxy.2]
    · rw [if_neg hxy, hget x y hx]
      by_cases hp : 0 ≤ x ∧ 0 ≤ y ∧ y < h ∧ (x < (i : Int) ∨ (x = (i : Int) ∧ y < (j : Int)))
      · rw [if_pos hp, if_pos (by push_cast; omega)]
      · rw [if_neg hp, if_neg (by push_cast; omega)]
  · intro i p hi ⟨h1, h2, h3, h4, hget⟩
    refine ⟨h1, h2, h3, h4, ?_⟩
    intro x y hx
    rw [hget x y hx]
    by_cases hp : 0 ≤ x ∧ 0 ≤ y ∧ y < h ∧ (x < (i : Int) ∨ (x = (i : Int) ∧
        y < (h.toNat : Int)))
    · rw [if_pos hp, if_pos (by push_cast; omega)]
    · rw [if_neg hp, if_neg (by push_cast; omega)]

/-- On a grid of a `Wave`, `fillBorder()` keeps the main rectangle. -/
theorem fillBorder_get_main {α : Type} (f : Field α) (w h : Int) (hS : f.Shaped w h)
    (hw : 1 ≤ w) (hh : 1 ≤ h) (x y : Int) (hx : 0 ≤ x ∧ x < w) (hy : 0 ≤ y ∧ y < h) :
    f.fillBorder.get x y = f.get x y := by
  obtain ⟨h1, h2, h3, h4⟩ := hS
  have e : f.fillBorder = f.wrap := by unfold Field.fillBorder; rw [h4]
  rw [e, wrap_get_cases f (by omega) (by omega) (by omega) x y (by omega) (by omega)]
  rw [if_neg (by omega), if_neg (by omega), if_neg (by omega), if_neg (by omega)]

theorem fillBorder_shaped {α : Type} (f : Field α) (w h : Int) (hS : f.Shaped w h) :
    f.fillBorder.Shaped w h := by
  obtain ⟨h1, h2, h3, h4⟩ := hS
  have e : f.fillBorder = f.wrap := by unfold Field.fillBorder; rw [h4]
  rw [e]
  exact ⟨h1, h2, h3, h4⟩

end Schroedinger

namespace Schroedinger
open BoundaryCondition

section NormalizeAlgebra
variable {K : Type} [LinearOrderedField K]

theorem Dcomp.norm_nonneg (c : Dcomp K) : 0 ≤ Dcomp.norm c :=
  add_nonneg (mul_self_nonneg _) (mul_self_nonneg _)

theorem Dcomp.norm_scale (c : Dcomp K) (t : K) :
    Dcomp.norm (Dcomp.scale c t) = Dcomp.norm c * (t * t) := by
  unfold Dcomp.norm Dcomp.scale
  ring

theorem Dcomp.eq_zero_iff (c : Dcomp K) : c = 0 ↔ c.re = 0 ∧ c.im = 0 := by
  constructor
  · intro h
    rw [h]
    exact ⟨rfl, rfl⟩
  · intro ⟨h1, h2⟩
    cases c
    simp only at h1 h2
    subst h1 h2
    rfl

theorem Dcomp.norm_eq_zero_iff (c : Dcomp K) : Dcomp.norm c = 0 ↔ c = 0 := by
  rw [Dcomp.eq_zero_iff]
  unfold Dcomp.norm
  constructor
  · intro h
    have h1 := mul_self_nonneg c.re
    have h2 := mul_self_nonneg c.im
    exact ⟨mul_self_eq_zero.mp (by linarith), mul_self_eq_zero.mp (by linarith)⟩
  · intro ⟨h1, h2⟩
    rw [h1, h2]
    ring

theorem maxAbs_sq_pos : (0 : K) < Wave.maxAbs_ * Wave.maxAbs_ := by
  unfold Wave.maxAbs_ Wave.area_
  norm_num

theorem clampNorm_nonneg (c : Dcomp K) : 0 ≤ clampNorm c := by
  unfold clampNorm
  split_ifs
  · exact le_of_lt maxAbs_sq_pos
  · exact Dcomp.norm_nonneg c

theorem clampNorm_eq_zero_iff (c : Dcomp K) : clampNorm c = 0 ↔ c = 0 := by
  unfold clampNorm
  have hp : (0 : K) < Wave.maxAbs_ * Wave.maxAbs_ := maxAbs_sq_pos
  split_ifs with h
  · constructor
    · intro h0
      linarith
    · intro h0
      rw [h0] at h
      have : Dcomp.norm (0 : Dcomp K) = 0 := (Dcomp.norm_eq_zero_iff 0).mpr rfl
      linarith
  · exact Dcomp.norm_eq_zero_iff c

/-- With an exact square root the clamped cell has the squared magnitude that the loop
adds to `sintegral`. -/
theorem norm_clampCell (M : MathLib K)
    (hsqrt : ∀ s : K, 0 ≤ s → 0 ≤ M.sqrt s ∧ M.sqrt s * M.sqrt s = s) (c : Dcomp K) :
    Dcomp.norm (clampCell M c) = clampNorm c := by
  unfold clampCell clampNorm
  split_ifs with h
  · have hp : (0 : K) < Wave.maxAbs_ * Wave.maxAbs_ := maxAbs_sq_pos
    have hn : 0 < Dcomp.norm c := lt_trans hp h
    obtain ⟨_, h2⟩ := hsqrt (Dcomp.norm c) (le_of_lt hn)
    have hne : M.sqrt (Dcomp.norm c) ≠ 0 := by
      intro h0
      rw [h0, mul_zero] at h2
      linarith
    rw [Dcomp.norm_scale, div_mul_div_comm, h2]
    field_simp
  · rfl

end NormalizeAlgebra
end Schroedinger

namespace Schroedinger
open BoundaryCondition

section NormalizeMain
variable {K : Type} [LinearOrderedField K]

theorem sqrt_pos_of_pos (M : MathLib K)
    (hsqrt : ∀ s : K, 0 ≤ s → 0 ≤ M.sqrt s ∧ M.sqrt s * M.sqrt s = s) {s : K} (hs : 0 < s) :
    0 < M.sqrt s := by
  obtain ⟨h1, h2⟩ := hsqrt s (le_of_lt hs)
  rcases eq_or_lt_of_le h1 with h | h
  · rw [← h, mul_zero] at h2
    linarith
  · exact h

theorem dr_pos (M : MathLib K)
    (hsqrt : ∀ s : K, 0 ≤ s → 0 ≤ M.sqrt s ∧ M.sqrt s * M.sqrt s = s) (W : Wave K)
    (hw : 1 ≤ W.width_) (hh : 1 ≤ W.height_) : 0 < Wave.dr_ M W := by
  unfold Wave.dr_ Wave.area_
  apply sqrt_pos_of_pos M hsqrt
  have h1 : (0 : Int) < W.width_ * W.height_ := mul_pos (by omega) (by omega)
  have h2 : (0 : K) < ((W.width_ * W.height_ : Int) : K) := by exact_mod_cast h1
  positivity

/-- C5: with an exact square root, on a wave with `width, height ≥ 1` whose grid `psi_`
is as constructed: if some main-rectangle cell of `psi_` is non-zero, then after
`normalize()` the sum of `|psi(x, y)|²` over the main rectangle times `dr²` is 1,
clamped cells or not; if every main-rectangle cell is zero, every main-rectangle cell
is unchanged, and so is every cell of the frame when the border was the Wrap image of
the main rectangle before the call. -/
theorem normalize_integral (M : MathLib K) (W : Wave K)
    (hsqrt : ∀ s : K, 0 ≤ s → 0 ≤ M.sqrt s ∧ M.sqrt s * M.sqrt s = s)
    (hS : W.psi_.Shaped W.width_ W.height_) (hw : 1 ≤ W.width_) (hh : 1 ≤ W.height_) :
    ((∃ x y : Int, 0 ≤ x ∧ x < W.width_ ∧ 0 ≤ y ∧ y < W.height_ ∧ W.psi_.get x y ≠ 0) →
      (∑ x in Finset.range W.width_.toNat, ∑ y in Finset.range W.height_.toNat,
        Dcomp.norm ((Wave.normalize M W).psi_.get x y)) * (Wave.dr_ M W * Wave.dr_ M W) = 1) ∧
    ((∀ x y : Int, 0 ≤ x ∧ x < W.width_ ∧ 0 ≤ y ∧ y < W.height_ → W.psi_.get x y = 0) →
      ∀ x y : Int, 0 ≤ x ∧ x < W.width_ ∧ 0 ≤ y ∧ y < W.height_ →
        (Wave.normalize M W).psi_.get x y = W.psi_.get x y) ∧
    ((∀ x y : Int, 0 ≤ x ∧ x < W.width_ ∧ 0 ≤ y ∧ y < W.height_ → W.psi_.get x y = 0) →
      W.psi_.WrapConsistent →
      ∀ x y : Int, -1 ≤ x ∧ x < W.width_ + 1 → -1 ≤ y ∧ y < W.height_ + 1 →
        (Wave.normalize M W).psi_.get x y = W.psi_.get x y) := by
  obtain ⟨c1, c2, c3⟩ := normalizeClamp_spec M W hS
  have hdr := dr_pos M hsqrt W hw hh
  have hSnn : 0 ≤ (Wave.normalizeClamp W M).sintegral := by
    rw [c3]
    exact Finset.sum_nonneg (fun x _ => Finset.sum_nonneg (fun y _ => clampNorm_nonneg _))
  obtain ⟨hq1, hq2⟩ := hsqrt _ hSnn
  have hb1 : (Wave.normalizeClamp W M).psi.border = 1 := c1.2.2.1
  have hw1 : (Wave.normalizeClamp W M).psi.width = W.width_ := c1.1
  have hcl0 : clampCell M (0 : Dcomp K) = 0 := by
    unfold clampCell
    rw [if_neg]
    have : Dcomp.norm (0 : Dcomp K) = 0 := (Dcomp.norm_eq_zero_iff 0).mpr rfl
    rw [this]
    exact not_lt.mpr (le_of_lt maxAbs_sq_pos)
  have hneg : (∀ x y : Int, 0 ≤ x ∧ x < W.width_ ∧ 0 ≤ y ∧ y < W.height_ →
      W.psi_.get x y = 0) →
      ¬ (M.sqrt (Wave.normalizeClamp W M).sintegral * Wave.dr_ M W > 0) := by
    intro hz
    have hSz : (Wave.normalizeClamp W M).sintegral = 0 := by
      rw [c3]
      apply Finset.sum_eq_zero
      intro x hx
      apply Finset.sum_eq_zero
      intro y hy
      rw [Finset.mem_range] at hx hy
      rw [hz x y (by omega)]
      exact (clampNorm_eq_zero_iff 0).mpr rfl
    have hsq0 : M.sqrt (Wave.normalizeClamp W M).sintegral = 0 := by
      rw [hSz] at hq2 ⊢
      exact mul_self_eq_zero.mp hq2
    rw [hsq0, zero_mul]
    exact lt_irrefl 0
  refine ⟨?_, ?_, ?_⟩
  · intro ⟨x0, y0, hx0, hx1, hy0, hy1, hne⟩
    have hSpos : 0 < (Wave.normalizeClamp W M).sintegral := by
      rw [c3]
      have hx0' : x0.toNat ∈ Finset.range W.width_.toNat := by
        rw [Finset.mem_range]; omega
      have hy0' : y0.toNat ∈ Finset.range W.height_.toNat := by
        rw [Finset.mem_range]; omega
      have hcell : 0 < clampNorm (W.psi_.get (x0.toNat : Int) (y0.toNat : Int)) := by
        rw [Int.toNat_of_nonneg hx0, Int.toNat_of_nonneg hy0]
        rcases eq_or_lt_of_le (clampNorm_nonneg (W.psi_.get x0 y0)) with h | h
        · exact absurd ((clampNorm_eq_zero_iff _).mp h.symm) hne
        · exact h
      have hrow : 0 < ∑ y in Finset.range W.height_.toNat,
          clampNorm (W.psi_.get (x0.toNat : Int) (y : Int)) :=
        lt_of_lt_of_le hcell (Finset.single_le_sum
          (f := fun y : Nat => clampNorm (W.psi_.get (x0.toNat : Int) (y : Int)))
          (fun y _ => clampNorm_nonneg _) hy0')
      exact lt_of_lt_of_le hrow (Finset.single_le_sum
        (f := fun x : Nat => ∑ y in Finset.range W.height_.toNat,
          clampNorm (W.psi_.get (x : Int) (y : Int)))
        (fun x _ => Finset.sum_nonneg (fun y _ => clampNorm_nonneg _)) hx0')
    have hsq := sqrt_pos_of_pos M hsqrt hSpos
    have ha : M.sqrt (Wave.normalizeClamp W M).sintegral * Wave.dr_ M W > 0 := mul_pos hsq hdr
    obtain ⟨m1, m2, m3, m4⟩ := mapLoop_dims (Wave.normalizeClamp W M).psi W.width_ W.height_
      (fun _ _ c => Dcomp.scale c
        (1 / (M.sqrt (Wave.normalizeClamp W M).sintegral * Wave.dr_ M W)))
    have m5 := mapLoop_spec (Wave.normalizeClamp W M).psi W.width_ W.height_
      (fun _ _ c => Dcomp.scale c
        (1 / (M.sqrt (Wave.normalizeClamp W M).sintegral * Wave.dr_ M W)))
      (by omega) (by omega)
    have hcell : ∀ x y : Int, 0 ≤ x ∧ x < W.width_ ∧ 0 ≤ y ∧ y < W.height_ →
        Dcomp.norm ((Wave.normalize M W).psi_.get x y) = clampNorm (W.psi_.get x y) *
          ((1 / (M.sqrt (Wave.normalizeClamp W M).sintegral * Wave.dr_ M W)) *
           (1 / (M.sqrt (Wave.normalizeClamp W M).sintegral * Wave.dr_ M W))) := by
      intro x y hxy
      unfold Wave.normalize
      simp only [if_pos ha]
      rw [fillBorder_get_main _ W.width_ W.height_
        ⟨m1.trans c1.1, m2.trans c1.2.1, m3.trans c1.2.2.1, m4.trans c1.2.2.2⟩ hw hh x y
        (by omega) (by omega)]
      rw [m5 x y (by omega), if_pos hxy, Dcomp.norm_scale, c2 x y (by omega), if_pos hxy,
        norm_clampCell M hsqrt]
    have hsum : (∑ x in Finset.range W.width_.toNat, ∑ y in Finset.range W.height_.toNat,
        Dcomp.norm ((Wave.normalize M W).psi_.get x y)) =
        (∑ x in Finset.range W.width_.toNat, ∑ y in Finset.range W.height_.toNat,
          clampNorm (W.psi_.get x y)) *
          ((1 / (M.sqrt (Wave.normalizeClamp W M).sintegral * Wave.dr_ M W)) *
           (1 / (M.sqrt (Wave.normalizeClamp W M).sintegral * Wave.dr_ M W))) := by
      rw [Finset.sum_mul]
      apply Finset.sum_congr rfl
      intro x hx
      rw [Finset.sum_mul]
      apply Finset.sum_congr rfl
      intro y hy
      rw [Finset.mem_range] at hx hy
      exact hcell x y (by omega)
    rw [hsum, ← c3]
    have hne1 : M.sqrt (Wave.normalizeClamp W M).sintegral ≠ 0 := ne_of_gt hsq
    have hne2 : Wave.dr_ M W ≠ 0 := ne_of_gt hdr
    nth_rewrite 1 [← hq2]
    field_simp
    ring
  · intro hz x y hxy
    unfold Wave.normalize
    simp only [if_neg (hneg hz)]
    rw [fillBorder_get_main _ W.width_ W.height_ c1 hw hh x y (by omega) (by omega)]
    rw [c2 x y (by omega), if_pos hxy, hz x y hxy, hcl0]
  · intro hz hc x y hx hy
    obtain ⟨s1, s2, s3, s4⟩ := hS
    have hh1 : (Wave.normalizeClamp W M).psi.height = W.height_ := c1.2.1
    have e : (Wave.normalizeClamp W M).psi.fillBorder = (Wave.normalizeClamp W M).psi.wrap := by
      unfold Field.fillBorder; rw [c1.2.2.2]
    unfold Wave.normalize
    simp only [if_neg (hneg hz)]
    obtain ⟨g1, g2⟩ := wrap_get_emod (Wave.normalizeClamp W M).psi (by omega) (by omega)
      (by omega) x y (by omega) (by omega)
    rw [e, g1, hw1, hh1] at *
    rw [c2 _ _ (by omega), if_pos (by omega), hz _ _ (by omega), hcl0]
    have h1 := hc x y (by rw [s3, s1]; omega) (by rw [s3, s2]; omega)
    rw [s1, s2] at h1
    rw [h1, hz _ _ (by omega)]

theorem normalize_integral_witness :
    (∑ x in Finset.range (constWave 2 2 (⟨3, 40⟩ : Dcomp ℝ)).width_.toNat,
      ∑ y in Finset.range (constWave 2 2 (⟨3, 40⟩ : Dcomp ℝ)).height_.toNat,
        Dcomp.norm ((Wave.normalize ⟨Real.sqrt, Real.pi, Real.cos, Real.sin⟩
          (constWave 2 2 (⟨3, 40⟩ : Dcomp ℝ))).psi_.get x y)) *
      (Wave.dr_ ⟨Real.sqrt, Real.pi, Real.cos, Real.sin⟩ (constWave 2 2 (⟨3, 40⟩ : Dcomp ℝ)) *
        Wave.dr_ ⟨Real.sqrt, Real.pi, Real.cos, Real.sin⟩ (constWave 2 2 (⟨3, 40⟩ : Dcomp ℝ)))
      = 1 :=
  (normalize_integral ⟨Real.sqrt, Real.pi, Real.cos, Real.sin⟩ (constWave 2 2 (⟨3, 40⟩ : Dcomp ℝ))
    (fun s hs => ⟨Real.sqrt_nonneg s, Real.mul_self_sqrt hs⟩) ⟨rfl, rfl, rfl, rfl⟩
    (by decide) (by decide)).1
    ⟨0, 0, le_refl 0, by decide, le_refl 0, by decide, fun h => by
      have h1 : (3 : ℝ) = 0 := congrArg Dcomp.re h
      norm_num at h1⟩

end NormalizeMain
end Schroedinger

/-! ## `sum()`, `add(t)` and the gauge fixing of `calcV` -/

namespace Schroedinger
open BoundaryCondition

theorem sum_eq {α : Type} [AddCommMonoid α] (f : Field α) :
    f.sum = ∑ x in Finset.range f.width.toNat, ∑ y in Finset.range f.height.toNat,
      f.get x y := by
  have key := forLoop2_induction f.width f.height
    (fun x y (r : α) => r + f.get x y) 0
    (fun i j r => r = (∑ x in Finset.range i, ∑ y in Finset.range f.height.toNat,
        f.get x y) + ∑ y in Finset.range j, f.get i y)
    (by simp)
    (fun i j s _ _ h => by beta_reduce at h ⊢; rw [h, Finset.sum_range_succ, add_assoc])
    (fun i s _ h => by beta_reduce at h ⊢; rw [h, Finset.sum_range_succ]; simp)
  unfold Field.sum
  rw [key]
  simp

theorem addCells_dims {α : Type} [Add α] (f : Field α) (t : α) :
    (f.addCells t).width = f.width ∧ (f.addCells t).height = f.height ∧
    (f.addCells t).border = f.border ∧ (f.addCells t).boundary = f.boundary :=
  mapLoop_dims f f.width f.height (fun _ _ v => v + t)

/-- On a Wrap grid `add(t)` is the addition to the main rectangle followed by
`fillBorder()`. -/
theorem add_eq_fillBorder_of_wrap {α : Type} [Add α] (f : Field α) (t : α)
    (hB : f.boundary = WRAP) : f.add t = (f.addCells t).fillBorder := by
  have e : (f.addCells t).boundary = WRAP := (addCells_dims f t).2.2.2.trans hB
  unfold Field.add Field.fillBorder
  rw [e]

theorem addCells_spec {α : Type} [Add α] (f : Field α) (t : α) (hb : 0 ≤ f.border) :
    ∀ x y : Int, -f.border ≤ x ∧ x < f.width + f.border →
      (f.addCells t).get x y =
        if 0 ≤ x ∧ x < f.width ∧ 0 ≤ y ∧ y < f.height then f.get x y + t else f.get x y :=
  mapLoop_spec f f.width f.height (fun _ _ v => v + t) hb (by omega)

/-- The effect of `add(t)` on a grid of a `Wave`. -/
theorem add_spec {K : Type} [CommRing K] (f : Field K) (w h : Int) (t : K)
    (hS : f.Shaped w h) (hw : 1 ≤ w) (hh : 1 ≤ h) :
    (f.add t).Shaped w h ∧
    (∀ x y : Int, 0 ≤ x ∧ x < w → 0 ≤ y ∧ y < h → (f.add t).get x y = f.get x y + t) ∧
    (f.add t).WrapConsistent ∧
    (f.add t).sum = f.sum + ((w * h : Int) : K) * t := by
  obtain ⟨h1, h2, h3, h4⟩ := hS
  obtain ⟨a1, a2, a3, a4⟩ := addCells_dims f t
  have a5 := addCells_spec f t (by omega)
  have hmain : ∀ x y : Int, 0 ≤ x ∧ x < w → 0 ≤ y ∧ y < h →
      (f.add t).get x y = f.get x y + t := by
    intro x y hx hy
    unfold Field.add
    rw [wrap_get_main _ (by omega) (by omega) (by omega) x y (by omega) (by omega)]
    rw [a5 x y (by omega), if_pos (by omega)]
  refine ⟨⟨a1.trans h1, a2.trans h2, a3.trans h3, a4.trans h4⟩, hmain, ?_, ?_⟩
  · exact wrap_wrapConsistent _ (by omega) (by omega) (by omega)
  · rw [sum_eq, sum_eq]
    have e1 : (f.add t).width = w := a1.trans h1
    have e2 : (f.add t).height = h := a2.trans h2
    rw [e1, e2, h1, h2]
    have hcell : ∀ x ∈ Finset.range w.toNat, ∀ y ∈ Finset.range h.toNat,
        (f.add t).get (x : Int) (y : Int) = f.get x y + t := by
      intro x hx y hy
      rw [Finset.mem_range] at hx hy
      exact hmain x y (by omega) (by omega)
    rw [Finset.sum_congr rfl (fun x hx => Finset.sum_congr rfl (hcell x hx))]
    simp only [Finset.sum_add_distrib, Finset.sum_const, Finset.card_range, smul_add,
      nsmul_eq_mul]
    have hwc : ((w.toNat : Nat) : K) = ((w : Int) : K) := by
      rw [← Int.cast_natCast, Int.toNat_of_nonneg (by omega)]
    have hhc : ((h.toNat : Nat) : K) = ((h : Int) : K) := by
      rw [← Int.cast_natCast, Int.toNat_of_nonneg (by omega)]
    rw [hwc, hhc]
    push_cast
    ring

end Schroedinger

/-! ## The constructor of `Field` -/

namespace Schroedinger
open BoundaryCondition

/-- After `zero()` every cell of the frame, main rectangle and border alike, reads 0. -/
theorem zero_get {α : Type} [Zero α] (f : Field α) (x y : Int)
    (hx : -f.border ≤ x ∧ x < f.width + f.border)
    (hy : -f.border ≤ y ∧ y < f.height + f.border) : f.zero.get x y = 0 := by
  rw [get_eq_data]
  have hW : f.framew = 2 * f.border + f.width := rfl
  have hH : f.frameh = 2 * f.border + f.height := rfl
  have hc0 : 0 ≤ x + f.border := by omega
  have hcW : x + f.border < f.framew := by omega
  have h1 : 0 ≤ (x + f.border) + (y + f.border) * f.framew := by
    have := (le_idx hc0 hcW (r := y + f.border) (a := 0)).mpr (by omega)
    omega
  have h2 : (x + f.border) + (y + f.border) * f.framew < f.framesize := by
    have := (idx_lt hc0 hcW (r := y + f.border) (a := f.frameh)).mpr (by omega)
    show _ < f.framew * f.frameh
    rw [mul_comm f.framew f.frameh]
    exact this
  show (if 0 ≤ (x + f.border) + (y + f.border) * f.framew ∧
      (x + f.border) + (y + f.border) * f.framew < f.framesize then (0 : α) else _) = 0
  rw [if_pos ⟨h1, h2⟩]

end Schroedinger

/-! ## `add(t)` and the boundary condition -/

namespace Schroedinger
open BoundaryCondition

/-- C3: on the Zero grid of the unit test (width 5, height 3, border 2), freshly
created, `add(7)` runs `wrap()` and leaves 7 in the border cell `(-1, 0)`, where the
Zero boundary condition asks for 0. -/
theorem zero_border_overwritten_by_add (raw : Int → Int) :
    ∃ f : Field Int, Field.create raw 5 3 2 ZERO = some f ∧ (f.add 7).boundary = ZERO ∧
      (f.add 7).get (-1) 0 = 7 ∧ (f.addCells 7).fillBorder.get (-1) 0 = 0 := by
  refine ⟨Field.zero ⟨5, 3, 2, ZERO, raw⟩, rfl, rfl, ?_, ?_⟩
  · have hz : ∀ x y : Int, -2 ≤ x ∧ x < 5 + 2 → -2 ≤ y ∧ y < 3 + 2 →
        (Field.zero ⟨5, 3, 2, ZERO, raw⟩).get x y = 0 := fun x y hx hy => zero_get _ x y hx hy
    have h1 : (Field.zero ⟨5, 3, 2, ZERO, raw⟩).width = 5 := rfl
    have h2 : (Field.zero ⟨5, 3, 2, ZERO, raw⟩).height = 3 := rfl
    have h3 : (Field.zero ⟨5, 3, 2, ZERO, raw⟩).border = 2 := rfl
    generalize Field.zero ⟨5, 3, 2, ZERO, raw⟩ = f at hz h1 h2 h3 ⊢
    obtain ⟨a1, a2, a3, _⟩ := addCells_dims f 7
    show (f.addCells 7).wrap.get (-1) 0 = 7
    rw [wrap_get_cases _ (by omega) (by omega) (by omega) (-1) 0 (by omega) (by omega)]
    rw [if_pos (by omega), if_neg (by omega), if_neg (by omega)]
    rw [addCells_spec _ 7 (by omega) _ _ (by omega)]
    rw [if_pos (by omega), hz _ _ (by omega) (by omega)]
    rfl
  · have hz : ∀ x y : Int, -2 ≤ x ∧ x < 5 + 2 → -2 ≤ y ∧ y < 3 + 2 →
        (Field.zero ⟨5, 3, 2, ZERO, raw⟩).get x y = 0 := fun x y hx hy => zero_get _ x y hx hy
    have h1 : (Field.zero ⟨5, 3, 2, ZERO, raw⟩).width = 5 := rfl
    have h2 : (Field.zero ⟨5, 3, 2, ZERO, raw⟩).height = 3 := rfl
    have h3 : (Field.zero ⟨5, 3, 2, ZERO, raw⟩).border = 2 := rfl
    show ((Field.zero ⟨5, 3, 2, ZERO, raw⟩).addCells 7).get (-1) 0 = 0
    generalize Field.zero ⟨5, 3, 2, ZERO, raw⟩ = f at hz h1 h2 h3 ⊢
    rw [addCells_spec _ 7 (by omega) _ _ (by omega)]
    rw [if_neg (by omega), hz _ _ (by omega) (by omega)]

/-- C4: on the Mirror grid of the unit test with `(4, 0)` set to 500, `add(7)` leaves
the border cell `(5, 0)` at 7 (the wrapped cell `(0, 0)`), whereas adding 7 to the
main rectangle and calling `fillBorder()` leaves 507 (the mirrored cell `(4, 0)`). -/
theorem add_differs_from_fillBorder_mirror (raw : Int → Int) :
    ∃ f : Field Int, Field.create raw 5 3 2 MIRROR = some f ∧
      ((f.set 4 0 500).add 7).get 5 0 = 7 ∧
      ((f.set 4 0 500).addCells 7).fillBorder.get 5 0 = 507 := by
  have hz : ∀ x y : Int, -2 ≤ x ∧ x < 5 + 2 → -2 ≤ y ∧ y < 3 + 2 →
      (Field.zero ⟨5, 3, 2, MIRROR, raw⟩).get x y = 0 := fun x y hx hy => zero_get _ x y hx hy
  have h1 : (Field.zero ⟨5, 3, 2, MIRROR, raw⟩).width = 5 := rfl
  have h2 : (Field.zero ⟨5, 3, 2, MIRROR, raw⟩).height = 3 := rfl
  have h3 : (Field.zero ⟨5, 3, 2, MIRROR, raw⟩).border = 2 := rfl
  have h4 : (Field.zero ⟨5, 3, 2, MIRROR, raw⟩).boundary = MIRROR := rfl
  refine ⟨Field.zero ⟨5, 3, 2, MIRROR, raw⟩, rfl, ?_, ?_⟩
  · generalize Field.zero ⟨5, 3, 2, MIRROR, raw⟩ = f at hz h1 h2 h3 h4 ⊢
    have s1 : (f.set 4 0 500).width = f.width := rfl
    have s2 : (f.set 4 0 500).height = f.height := rfl
    have s3 : (f.set 4 0 500).border = f.border := rfl
    obtain ⟨a1, a2, a3, _⟩ := addCells_dims (f.set 4 0 500) 7
    show ((f.set 4 0 500).addCells 7).wrap.get 5 0 = 7
    rw [wrap_get_cases _ (by omega) (by omega) (by omega) 5 0 (by omega) (by omega)]
    rw [if_neg (by omega), if_pos (by omega), if_neg (by omega), if_neg (by omega)]
    rw [addCells_spec _ 7 (by omega) _ _ (by omega)]
    rw [if_pos (by omega), get_set _ _ _ _ _ _ (by omega) (by omega), if_neg (by omega),
      hz _ _ (by omega) (by omega)]
    rfl
  · generalize Field.zero ⟨5, 3, 2, MIRROR, raw⟩ = f at hz h1 h2 h3 h4 ⊢
    have s1 : (f.set 4 0 500).width = f.width := rfl
    have s2 : (f.set 4 0 500).height = f.height := rfl
    have s3 : (f.set 4 0 500).border = f.border := rfl
    have s4 : (f.set 4 0 500).boundary = f.boundary := rfl
    obtain ⟨a1, a2, a3, a4⟩ := addCells_dims (f.set 4 0 500) 7
    have e : ((f.set 4 0 500).addCells 7).fillBorder = ((f.set 4 0 500).addCells 7).mirror := by
      unfold Field.fillBorder
      rw [a4, s4, h4]
    rw [e, mirror_get_cases _ (by omega) (by omega) (by omega) 5 0 (by omega) (by omega)]
    rw [if_neg (by omega), if_pos (by omega), if_neg (by omega), if_neg (by omega)]
    rw [addCells_spec _ 7 (by omega) _ _ (by omega)]
    rw [if_pos (by omega), get_set _ _ _ _ _ _ (by omega) (by omega), if_pos (by omega)]
    rfl

end Schroedinger

namespace Schroedinger
open BoundaryCondition

section CalcV
variable {K : Type} [LinearOrderedField K]

/-- One round of the relaxation keeps the shape of `dynPotential_`. -/
theorem calcVBody_frame (M : MathLib K) (lap : Field K) (W : Wave K) (s : Wave.SweepState K)
    (w h : Int) (hW : W.width_ = w ∧ W.height_ = h ∧ W.dynPotential_.Shaped w h)
    (hs : Wave.calcVBody M lap W = some s) :
    s.wave.width_ = w ∧ s.wave.height_ = h ∧ s.wave.dynPotential_.Shaped w h := by
  unfold Wave.calcVBody at hs
  simp only [] at hs
  generalize hloop : forLoop 0 W.width_ _ _ = s1 at hs
  have inv : s1.wave.width_ = W.width_ ∧ s1.wave.height_ = W.height_ ∧
      s1.wave.dynPotential_ = W.dynPotential_ := by
    rw [← hloop]
    exact forLoop2_induction _ _ _ _
      (fun _ _ (s : Wave.SweepState K) => s.wave.width_ = W.width_ ∧
        s.wave.height_ = W.height_ ∧ s.wave.dynPotential_ = W.dynPotential_)
      ⟨rfl, rfl, rfl⟩ (fun _ _ _ _ _ h => h) (fun _ _ _ h => h)
  obtain ⟨i1, i2, i3⟩ := inv
  obtain ⟨w1, w2, d1, d2, d3, d4⟩ := hW
  unfold Field.assign at hs
  split at hs
  · cases hs
  · rename_i dyn heq
    split at heq
    · cases heq
      cases hs
      refine ⟨i1.trans w1, i2.trans w2, ?_⟩
      rw [i3] at *
      exact ⟨d1, d2, d3, d4⟩
    · cases heq

theorem calcVLoop_frame (M : MathLib K) (lap : Field K) (w h : Int) (fuel : Nat) :
    ∀ (W W1 : Wave K), (W.width_ = w ∧ W.height_ = h ∧ W.dynPotential_.Shaped w h) →
      Wave.calcVLoop M lap fuel W = some W1 →
      W1.width_ = w ∧ W1.height_ = h ∧ W1.dynPotential_.Shaped w h := by
  induction fuel with
  | zero =>
    intro W W1 _ hl
    cases hl
  | succ fuel ih =>
    intro W W1 hW hl
    unfold Wave.calcVLoop at hl
    split at hl
    · cases hl
    · rename_i s hs
      have hf := calcVBody_frame M lap W s w h hW hs
      split at hl
      · exact ih s.wave W1 hf hl
      · cases hl
        exact hf

end CalcV
end Schroedinger

namespace Schroedinger
open BoundaryCondition

/-- C6: on a wave with `width, height ≥ 1` whose grid `dynPotential_` is as constructed,
whenever `calcV` returns (within any bound on the rounds), the cells `get(x, y)` of the
returned `dynPotential_` sum to 0 over the main rectangle, each of these cells is the
cell of the last iterate minus the mean of the last iterate over the main rectangle, and
the border is the Wrap image of the main rectangle. -/
theorem calcV_sum_zero {K : Type} [LinearOrderedField K] (M : MathLib K) (fuel : Nat)
    (W W2 : Wave K) (lap : Field K)
    (hS : W.dynPotential_.Shaped W.width_ W.height_) (hw : 1 ≤ W.width_) (hh : 1 ≤ W.height_)
    (hret : Wave.calcV M fuel W lap = some W2) :
    (∑ x in Finset.range W.width_.toNat, ∑ y in Finset.range W.height_.toNat,
      W2.dynPotential_.get x y) = 0 ∧
    (∃ W1 : Wave K, Wave.calcVLoop M lap fuel W = some W1 ∧
      ∀ x y : Int, 0 ≤ x ∧ x < W.width_ → 0 ≤ y ∧ y < W.height_ →
        W2.dynPotential_.get x y = W1.dynPotential_.get x y -
          (∑ x in Finset.range W.width_.toNat, ∑ y in Finset.range W.height_.toNat,
            W1.dynPotential_.get x y) / ((W.width_ * W.height_ : Int) : K)) ∧
    W2.dynPotential_.WrapConsistent := by
  unfold Wave.calcV at hret
  split at hret
  · cases hret
  · rename_i W1 hl
    obtain ⟨f1, f2, f3⟩ := calcVLoop_frame M lap W.width_ W.height_ fuel W W1 ⟨rfl, rfl, hS⟩ hl
    cases hret
    obtain ⟨a1, a2, a3, a4⟩ := add_spec W1.dynPotential_ W.width_ W.height_
      (-W1.dynPotential_.sum / ((W1.width_ * W1.height_ : Int) : K)) f3 hw hh
    have hne : ((W.width_ * W.height_ : Int) : K) ≠ 0 := by
      have h1 : (0 : Int) < W.width_ * W.height_ := mul_pos (by omega) (by omega)
      exact_mod_cast ne_of_gt h1
    have hs1 : W1.dynPotential_.sum = ∑ x in Finset.range W.width_.toNat,
        ∑ y in Finset.range W.height_.toNat, W1.dynPotential_.get x y := by
      rw [sum_eq, f3.1, f3.2.1]
    refine ⟨?_, ⟨W1, hl, ?_⟩, a3⟩
    · have e := sum_eq (W1.dynPotential_.add
        (-W1.dynPotential_.sum / ((W1.width_ * W1.height_ : Int) : K)))
      rw [a1.1, a1.2.1] at e
      show (∑ x in Finset.range W.width_.toNat, ∑ y in Finset.range W.height_.toNat,
        (W1.dynPotential_.add _).get x y) = 0
      rw [← e, a4, f1, f2]
      field_simp
      ring
    · intro x y hx hy
      show (W1.dynPotential_.add _).get x y = _
      rw [a2 x y hx hy, f1, f2, ← hs1]
      ring

end Schroedinger

/-! ## `addBump` -/

namespace Schroedinger
open BoundaryCondition

section AddBump
variable {K : Type} [LinearOrderedField K]

/-- With `size` 0 the quotient `rr` is `0.0 / 0.0`, the test `rr < 1.0` fails and
`addBump` changes nothing. -/
theorem addBump_size_zero (M : MathLib K) (W : Wave K) (x y : Int) (c : Dcomp K) :
    Wave.addBump M W x y c 0 = W := by
  have h1 : ((0 : Int) + 1 - -0).toNat = 1 := by decide
  unfold Wave.addBump forLoop
  simp only [h1]
  rw [show (1 : Nat) = 0 + 1 from rfl]
  simp only [iterFrom_succ, iterFrom_zero]
  simp [fdiv]

end AddBump
end Schroedinger

namespace Schroedinger
open BoundaryCondition

section AddBump1
variable {K : Type} [LinearOrderedField K]

theorem tmod_add_self_of_range {x w : Int} (hx : 0 ≤ x ∧ x < w) : Int.tmod (x + w) w = x := by
  rw [Int.tmod_eq_emod (by omega) (by omega), Int.add_emod_self,
    Int.emod_eq_of_lt (by omega) (by omega)]

theorem Dcomp.scale_one (c : Dcomp K) : Dcomp.scale c 1 = c := by
  unfold Dcomp.scale
  rw [mul_one, mul_one]

/-- With `size` 1 only the offset `(0, 0)` passes the test `rr < 1.0`. -/
theorem addBump_size_one (M : MathLib K) (W : Wave K) (x y : Int) (c : Dcomp K)
    (hx : 0 ≤ x ∧ x < W.width_) (hy : 0 ≤ y ∧ y < W.height_) (h0 : M.sqrt 0 = 0) :
    (Wave.addBump M W x y c 1).psi_ =
      W.psi_.set x y (W.psi_.get x y + Dcomp.divReal c (Wave.sarea_ M)) := by
  have h1 : ((1 : Int) + 1 - -1).toNat = 3 := by decide
  unfold Wave.addBump forLoop
  simp only [h1]
  rw [show (3 : Nat) = 0 + 1 + 1 + 1 from rfl]
  simp only [iterFrom_succ, iterFrom_zero]
  norm_num [fdiv, h0, Dcomp.scale_one, tmod_add_self_of_range hx, tmod_add_self_of_range hy]

end AddBump1
end Schroedinger

namespace Schroedinger
open BoundaryCondition

/-- C7 as stated fails: on the 2 × 2 wave that is zero everywhere, over the reals,
after `addBump(0, 0, 1, 0)` the cell `(0, 0)` is not its old value plus
`1 / sqrt(area)`. -/
theorem addBump_zero_counterexample :
    ¬ ((Wave.addBump ⟨Real.sqrt, Real.pi, Real.cos, Real.sin⟩ (constWave 2 2 0) 0 0
        ⟨1, 0⟩ 0).psi_.get 0 0 =
      (constWave 2 2 (0 : Dcomp ℝ)).psi_.get 0 0 +
        Dcomp.divReal ⟨1, 0⟩ (Wave.sarea_ ⟨Real.sqrt, Real.pi, Real.cos, Real.sin⟩)) := by
  rw [addBump_size_zero]
  intro h
  have h1 : (0 : ℝ) = 0 + 1 / Real.sqrt 1 := congrArg Dcomp.re h
  rw [Real.sqrt_one] at h1
  norm_num at h1

/-- C7, amended: `addBump(x, y, c, 0)` changes nothing (`rr` is `0.0 / 0.0` and the test
`rr < 1.0` fails); for an in-range `(x, y)` and a square root with `sqrt 0 = 0` it is
`addBump(x, y, c, 1)` that changes only the wavefunction cell at `(x, y)`, increasing it
by `c / sqrt(area)`, every other cell of the frame and every other grid unchanged. -/
theorem addBump_point {K : Type} [LinearOrderedField K] (M : MathLib K) (W : Wave K)
    (x y : Int) (c : Dcomp K) (hS : W.psi_.Shaped W.width_ W.height_)
    (hx : 0 ≤ x ∧ x < W.width_) (hy : 0 ≤ y ∧ y < W.height_) (h0 : M.sqrt 0 = 0) :
    Wave.addBump M W x y c 0 = W ∧
    Wave.addBump M W x y c 1 =
      { W with psi_ := W.psi_.set x y (W.psi_.get x y + Dcomp.divReal c (Wave.sarea_ M)) } ∧
    ∀ x1 y1 : Int, -1 ≤ x1 ∧ x1 < W.width_ + 1 →
      (Wave.addBump M W x y c 1).psi_.get x1 y1 =
        if x1 = x ∧ y1 = y then W.psi_.get x y + Dcomp.divReal c (Wave.sarea_ M)
        else W.psi_.get x1 y1 := by
  obtain ⟨s1, s2, s3, s4⟩ := hS
  have h1 := addBump_size_one M W x y c hx hy h0
  refine ⟨addBump_size_zero M W x y c, ?_, ?_⟩
  · show ({ W with psi_ := (Wave.addBump M W x y c 1).psi_ } : Wave K) = _
    rw [h1]
  · intro x1 y1 hx1
    rw [h1, get_set _ _ _ _ _ _ (by rw [s3, s1]; omega) (by rw [s3, s1]; omega)]

theorem addBump_point_witness :
    Wave.addBump (⟨fun q => q, 3, fun q => q, fun q => q⟩ : MathLib ℚ)
      (constWave 2 2 0) 1 1 ⟨1, 0⟩ 0 = constWave 2 2 0 ∧
    (Wave.addBump (⟨fun q => q, 3, fun q => q, fun q => q⟩ : MathLib ℚ)
      (constWave 2 2 0) 1 1 ⟨1, 0⟩ 1).psi_.get 1 1 = ⟨1, 0⟩ := by
  have h := addBump_point (⟨fun q => q, 3, fun q => q, fun q => q⟩ : MathLib ℚ)
    (constWave 2 2 0) 1 1 ⟨1, 0⟩ ⟨rfl, rfl, rfl, rfl⟩ (by decide) (by decide) rfl
  refine ⟨h.1, ?_⟩
  rw [h.2.2 1 1 (by decide), if_pos ⟨rfl, rfl⟩]
  show (⟨0 + 1 / 1, 0 + 0 / 1⟩ : Dcomp ℚ) = ⟨1, 0⟩
  norm_num

end Schroedinger

namespace Schroedinger
open BoundaryCondition

/-- C8: on the 4 × 4 wave that is zero everywhere, `addBump(0, 0, 1, 6)` and
`addPotentialBump(0, 0, 1e36, 6)` reach the offset `(-5, 0)` with `rr = 25/36 < 1` and
`(0 - 5 + 4) % 4 = -1`: they write the border cell `(-1, 0)`, outside the main
rectangle.  (The square root taken here, the identity on rationals, does not affect
which cells are accessed.) -/
theorem addBump_leaves_main_rectangle :
    Int.tmod (0 + -5 + (constWave 4 4 (0 : Dcomp ℚ)).width_) (constWave 4 4 (0 : Dcomp ℚ)).width_
      = -1 ∧
    ((constWave 4 4 (0 : Dcomp ℚ)).psi_.get (-1) 0).re = 0 ∧
    ((Wave.addBump (⟨fun q => q, 3, fun q => q, fun q => q⟩ : MathLib ℚ)
      (constWave 4 4 0) 0 0 ⟨1, 0⟩ 6).psi_.get (-1) 0).re = 11 / 36 ∧
    (constWave 4 4 (0 : Dcomp ℚ)).potential_.get (-1) 0 = 0 ∧
    (Wave.addPotentialBump (⟨fun q => q, 3, fun q => q, fun q => q⟩ : MathLib ℚ)
      (constWave 4 4 0) 0 0 (10 ^ 36) 6).potential_.get (-1) 0 = 11 / 36 := by
  refine ⟨by decide, rfl, ?_, rfl, ?_⟩ <;> decide!

end Schroedinger

/-! ## `addPotentialBump` -/

namespace Schroedinger
open BoundaryCondition

/-- Loop invariants for a pair of nested loops with arbitrary lower bounds. -/
theorem forLoop2_induction_from {σ : Type} (lo1 hi1 lo2 hi2 : Int)
    (body : Int → Int → σ → σ) (s0 : σ)
    (Inv : Nat → Nat → σ → Prop) (h0 : Inv 0 0 s0)
    (hstep : ∀ (i j : Nat) (s : σ), lo1 + (i : Int) < hi1 → lo2 + (j : Int) < hi2 → Inv i j s →
      Inv i (j + 1) (body (lo1 + i) (lo2 + j) s))
    (hrow : ∀ (i : Nat) (s : σ), lo1 + (i : Int) < hi1 → Inv i (hi2 - lo2).toNat s →
      Inv (i + 1) 0 s) :
    Inv (hi1 - lo1).toNat 0
      (forLoop lo1 hi1 (fun x s => forLoop lo2 hi2 (fun y s => body x y s) s) s0) := by
  have inner : ∀ (i : Nat), lo1 + (i : Int) < hi1 → ∀ (j : Nat), j ≤ (hi2 - lo2).toNat →
      ∀ s, Inv i 0 s → Inv i j (iterFrom lo2 (fun y s => body (lo1 + i) y s) j s) := by
    intro i hi j
    induction j with
    | zero => intro _ s hs; exact hs
    | succ j ih =>
      intro hj s hs
      rw [iterFrom_succ]
      exact hstep i j _ hi (by omega) (ih (by omega) s hs)
  have outer : ∀ (i : Nat), i ≤ (hi1 - lo1).toNat →
      Inv i 0 (iterFrom lo1 (fun x s => forLoop lo2 hi2 (fun y s => body x y s) s) i s0) := by
    intro i
    induction i with
    | zero => intro _; exact h0
    | succ i ih =>
      intro hi
      rw [iterFrom_succ]
      apply hrow i _ (by omega)
      exact inner i (by omega) (hi2 - lo2).toNat le_rfl _ (ih (by omega))
  exact outer (hi1 - lo1).toNat le_rfl

section PotentialBump
variable {K : Type} [LinearOrderedField K]

theorem stdMax_eq_max (a b : K) : stdMax a b = max a b := by
  unfold stdMax
  split_ifs with h
  · exact (max_eq_right (le_of_lt h)).symm
  · exact (max_eq_left (not_lt.mp h)).symm

/-- The body of the loops of `addPotentialBump` is `maxAt` at the target of the offset. -/
theorem potentialBump_body (M : MathLib K) (W : Wave K) (x y size dx dy : Int) (c : K)
    (p : Field K) :
    (match fdiv ((dx * dx + dy * dy : Int) : K) ((size : K) * (size : K)) with
      | none => p
      | some rr =>
        if rr < 1 then
          p.set (Int.tmod (x + dx + W.width_) W.width_) (Int.tmod (y + dy + W.height_) W.height_)
            (stdMax (p.get (Int.tmod (x + dx + W.width_) W.width_)
              (Int.tmod (y + dy + W.height_) W.height_)) (c * (1 - M.sqrt rr)))
        else p) = maxAt p c (coneTarget M W x y size dx dy) := by
  unfold coneTarget
  cases fdiv ((dx * dx + dy * dy : Int) : K) ((size : K) * (size : K)) with
  | none => rfl
  | some rr =>
    by_cases h : rr < 1
    · simp only [if_pos h]
      rfl
    · simp only [if_neg h]
      rfl

theorem addPotentialBump_eq (M : MathLib K) (W : Wave K) (x y : Int) (c : K) (size : Int) :
    Wave.addPotentialBump M W x y c size =
      { W with potential_ := forLoop (-size) (size + 1) (fun dx p =>
          forLoop (-size) (size + 1) (fun dy p =>
            maxAt p (c / (Wave.POTENTIAL_UNIT * Wave.area_ * Wave.dt_))
              (coneTarget M W x y size dx dy)) p) W.potential_ } := by
  unfold Wave.addPotentialBump
  simp only [potentialBump_body]

/-- With an exact square root the factor of the cone is positive. -/
theorem coneTarget_pos (M : MathLib K)
    (hsqrt : ∀ s : K, 0 ≤ s → 0 ≤ M.sqrt s ∧ M.sqrt s * M.sqrt s = s) (W : Wave K)
    (x y size dx dy mx my : Int) (k : K)
    (ht : coneTarget M W x y size dx dy = some (mx, my, k)) : 0 < k := by
  unfold coneTarget fdiv at ht
  by_cases hz : (size : K) * (size : K) = 0
  · simp only [if_pos hz] at ht
    cases ht
  · simp only [if_neg hz] at ht
    split_ifs at ht with hlt
    cases ht
    have hden : 0 < (size : K) * (size : K) :=
      lt_of_le_of_ne (mul_self_nonneg _) (Ne.symm hz)
    have hnum : (0 : K) ≤ ((dx * dx + dy * dy : Int) : K) := by
      have : (0 : Int) ≤ dx * dx + dy * dy := add_nonneg (mul_self_nonneg _) (mul_self_nonneg _)
      exact_mod_cast this
    have hrr : 0 ≤ ((dx * dx + dy * dy : Int) : K) / ((size : K) * (size : K)) :=
      div_nonneg hnum (le_of_lt hden)
    obtain ⟨h1, h2⟩ := hsqrt _ hrr
    by_contra hk
    have h3 : 1 ≤ M.sqrt (((dx * dx + dy * dy : Int) : K) / ((size : K) * (size : K))) := by
      linarith
    have h4 := mul_le_mul h3 h3 zero_le_one h1
    rw [h2, one_mul] at h4
    linarith

end PotentialBump
end Schroedinger

namespace Schroedinger
open BoundaryCondition

section PotentialBump2
variable {K : Type} [LinearOrderedField K]

theorem maxAt_dims (p : Field K) (c : K) (t : Option (Int × Int × K)) :
    (maxAt p c t).width = p.width ∧ (maxAt p c t).height = p.height ∧
    (maxAt p c t).border = p.border ∧ (maxAt p c t).boundary = p.boundary := by
  cases t with
  | none => exact ⟨rfl, rfl, rfl, rfl⟩
  | some t => exact ⟨rfl, rfl, rfl, rfl⟩

theorem maxAt_data (p : Field K) (c : K) (t : Option (Int × Int × K)) (j : Int) :
    (maxAt p c t).data j =
      match t with
      | none => p.data j
      | some (mx, my, k) =>
        if j = p.cell0 + (mx + my * p.framew) then max (p.data j) (c * k) else p.data j := by
  cases t with
  | none => rfl
  | some t =>
    obtain ⟨mx, my, k⟩ := t
    show store p.data _ (stdMax (p.get mx my) (c * k)) j = _
    unfold store
    by_cases h : j = p.cell0 + (mx + my * p.framew)
    · simp only [if_pos h]
      rw [stdMax_eq_max]
      unfold Field.get
      rw [← h]
    · simp only [if_neg h]

/-- The cell at the offset `j` of the buffer after the loops of `addPotentialBump`: it is
the greatest of its old value and the contributions `c * k` of the offsets that reach it. -/
theorem bumpLoop_char (M : MathLib K) (W : Wave K) (x y size : Int) (c : K) (p0 : Field K)
    (j : Int) :
    (forLoop (-size) (size + 1) (fun dx p => forLoop (-size) (size + 1) (fun dy p =>
        maxAt p c (coneTarget M W x y size dx dy)) p) p0).width = p0.width ∧
    (forLoop (-size) (size + 1) (fun dx p => forLoop (-size) (size + 1) (fun dy p =>
        maxAt p c (coneTarget M W x y size dx dy)) p) p0).height = p0.height ∧
    (forLoop (-size) (size + 1) (fun dx p => forLoop (-size) (size + 1) (fun dy p =>
        maxAt p c (coneTarget M W x y size dx dy)) p) p0).border = p0.border ∧
    (forLoop (-size) (size + 1) (fun dx p => forLoop (-size) (size + 1) (fun dy p =>
        maxAt p c (coneTarget M W x y size dx dy)) p) p0).boundary = p0.boundary ∧
    p0.data j ≤ (forLoop (-size) (size + 1) (fun dx p => forLoop (-size) (size + 1) (fun dy p =>
        maxAt p c (coneTarget M W x y size dx dy)) p) p0).data j ∧
    (∀ (dx dy mx my : Int) (k : K), -size ≤ dx ∧ dx ≤ size → -size ≤ dy ∧ dy ≤ size →
      coneTarget M W x y size dx dy = some (mx, my, k) →
      j = p0.cell0 + (mx + my * p0.framew) →
      c * k ≤ (forLoop (-size) (size + 1) (fun dx p => forLoop (-size) (size + 1) (fun dy p =>
        maxAt p c (coneTarget M W x y size dx dy)) p) p0).data j) ∧
    ((forLoop (-size) (size + 1) (fun dx p => forLoop (-size) (size + 1) (fun dy p =>
        maxAt p c (coneTarget M W x y size dx dy)) p) p0).data j = p0.data j ∨
      ∃ (dx dy mx my : Int) (k : K), (-size ≤ dx ∧ dx ≤ size) ∧ (-size ≤ dy ∧ dy ≤ size) ∧
        coneTarget M W x y size dx dy = some (mx, my, k) ∧
        j = p0.cell0 + (mx + my * p0.framew) ∧
        (forLoop (-size) (size + 1) (fun dx p => forLoop (-size) (size + 1) (fun dy p =>
          maxAt p c (coneTarget M W x y size dx dy)) p) p0).data j = c * k) := by
  have key := forLoop2_induction_from (-size) (size + 1) (-size) (size + 1)
    (fun dx dy (p : Field K) => maxAt p c (coneTarget M W x y size dx dy)) p0
    (fun i j' p => (p.width = p0.width ∧ p.height = p0.height ∧ p.border = p0.border ∧
        p.boundary = p0.boundary) ∧
      p0.data j ≤ p.data j ∧
      (∀ (dx dy mx my : Int) (k : K), -size ≤ dx ∧ dx ≤ size → -size ≤ dy ∧ dy ≤ size →
        (dx < -size + (i : Int) ∨ (dx = -size + (i : Int) ∧ dy < -size + (j' : Int))) →
        coneTarget M W x y size dx dy = some (mx, my, k) →
        j = p0.cell0 + (mx + my * p0.framew) → c * k ≤ p.data j) ∧
      (p.data j = p0.data j ∨
        ∃ (dx dy mx my : Int) (k : K), (-size ≤ dx ∧ dx ≤ size) ∧ (-size ≤ dy ∧ dy ≤ size) ∧
          coneTarget M W x y size dx dy = some (mx, my, k) ∧
          j = p0.cell0 + (mx + my * p0.framew) ∧ p.data j = c * k))
    ?_ ?_ ?_
  · obtain ⟨⟨k1, k2, k3, k4⟩, k5, k6, k7⟩ := key
    refine ⟨k1, k2, k3, k4, k5, ?_, k7⟩
    intro dx dy mx my k hdx hdy ht hj
    exact k6 dx dy mx my k hdx hdy (by omega) ht hj
  · refine ⟨⟨rfl, rfl, rfl, rfl⟩, le_refl _, ?_, Or.inl rfl⟩
    intro dx dy mx my k hdx hdy hproc
    omega
  · intro i j' p hi hj' ⟨⟨d1, d2, d3, d4⟩, hle, hall, hex⟩
    have hc0 : p.cell0 = p0.cell0 := by unfold Field.cell0 Field.framew; rw [d1, d3]
    have hfw : p.framew = p0.framew := by unfold Field.framew; rw [d1, d3]
    obtain ⟨e1, e2, e3, e4⟩ := maxAt_dims p c (coneTarget M W x y size (-size + i) (-size + j'))
    have hdata := maxAt_data p c (coneTarget M W x y size (-size + i) (-size + j')) j
    refine ⟨⟨e1.trans d1, e2.trans d2, e3.trans d3, e4.trans d4⟩, ?_⟩
    cases ht : coneTarget M W x y size (-size + i) (-size + j') with
    | none =>
      rw [ht] at hdata
      simp only at hdata
      beta_reduce
      rw [ht, hdata]
      refine ⟨hle, ?_, hex⟩
      intro dx dy mx my k hdx hdy hproc ht' hj
      by_cases hnew : dx = -size + (i : Int) ∧ dy = -size + (j' : Int)
      · rw [hnew.1, hnew.2, ht] at ht'
        cases ht'
      · exact hall dx dy mx my k hdx hdy (by push_cast at hproc; omega) ht' hj
    | some t =>
      obtain ⟨mx0, my0, k0⟩ := t
      rw [ht] at hdata
      simp only at hdata
      beta_reduce
      rw [ht, hdata, hc0, hfw]
      by_cases hidx : j = p0.cell0 + (mx0 + my0 * p0.framew)
      · rw [if_pos hidx]
        refine ⟨le_trans hle (le_max_left _ _), ?_, ?_⟩
        · intro dx dy mx my k hdx hdy hproc ht' hj
          by_cases hnew : dx = -size + (i : Int) ∧ dy = -size + (j' : Int)
          · rw [hnew.1, hnew.2, ht] at ht'
            cases ht'
            exact le_max_right _ _
          · exact le_trans (hall dx dy mx my k hdx hdy (by push_cast at hproc; omega) ht' hj)
              (le_max_left _ _)
        · rcases le_total (p.data j) (c * k0) with hm | hm
          · right
            exact ⟨-size + i, -size + j', mx0, my0, k0, by omega, by omega, ht, hidx,
              max_eq_right hm⟩
          · rw [max_eq_left hm]
            exact hex
      · rw [if_neg hidx]
        refine ⟨hle, ?_, hex⟩
        intro dx dy mx my k hdx hdy hproc ht' hj
        by_cases hnew : dx = -size + (i : Int) ∧ dy = -size + (j' : Int)
        · rw [hnew.1, hnew.2, ht] at ht'
          cases ht'
          exact absurd hj hidx
        · exact hall dx dy mx my k hdx hdy (by push_cast at hproc; omega) ht' hj
  · intro i p hi ⟨hd, hle, hall, hex⟩
    refine ⟨hd, hle, ?_, hex⟩
    intro dx dy mx my k hdx hdy hproc ht' hj
    exact hall dx dy mx my k hdx hdy (by push_cast at hproc; omega) ht' hj

end PotentialBump2
end Schroedinger

namespace Schroedinger
open BoundaryCondition

theorem field_ext {α : Type} (p q : Field α) (h1 : p.width = q.width)
    (h2 : p.height = q.height) (h3 : p.border = q.border) (h4 : p.boundary = q.boundary)
    (h5 : ∀ j, p.data j = q.data j) : p = q := by
  cases p
  cases q
  simp only at h1 h2 h3 h4 h5
  subst h1 h2 h3 h4
  congr
  funext j
  exact h5 j

section PotentialBump3
variable {K : Type} [LinearOrderedField K]

theorem idx_inj {W c r c1 r1 : Int} (hc : 0 ≤ c ∧ c < W) (hc1 : 0 ≤ c1 ∧ c1 < W)
    (h : c + r * W = c1 + r1 * W) : c = c1 ∧ r = r1 := by
  have h1 : r1 * W ≤ c + r * W := by omega
  have h2 : c + r * W < (r1 + 1) * W := by rw [add_mul, one_mul]; omega
  have h3 := (le_idx hc.1 hc.2).mp h1
  have h4 := (idx_lt hc.1 hc.2).mp h2
  have hr : r = r1 := by omega
  subst hr
  exact ⟨by omega, rfl⟩

theorem coneTarget_congr (M : MathLib K) (W W1 : Wave K) (x y size dx dy : Int)
    (h1 : W1.width_ = W.width_) (h2 : W1.height_ = W.height_) :
    coneTarget M W1 x y size dx dy = coneTarget M W x y size dx dy := by
  unfold coneTarget
  rw [h1, h2]

/-- The cells that `addPotentialBump` updates lie in the main rectangle when
`x - size ≥ -width` and `y - size ≥ -height`. -/
theorem coneTarget_range (M : MathLib K) (W : Wave K) (x y size dx dy mx my : Int) (k : K)
    (hw : 1 ≤ W.width_) (hh : 1 ≤ W.height_) (hx : size ≤ x + W.width_)
    (hy : size ≤ y + W.height_) (hdx : -size ≤ dx) (hdy : -size ≤ dy)
    (ht : coneTarget M W x y size dx dy = some (mx, my, k)) :
    (0 ≤ mx ∧ mx < W.width_) ∧ (0 ≤ my ∧ my < W.height_) := by
  unfold coneTarget at ht
  split at ht
  · cases ht
  · split_ifs at ht
    cases ht
    exact ⟨⟨Int.tmod_nonneg _ (by omega), Int.tmod_lt_of_pos _ (by omega)⟩,
      ⟨Int.tmod_nonneg _ (by omega), Int.tmod_lt_of_pos _ (by omega)⟩⟩

/-- Two runs of the loops of `addPotentialBump` with the weights `a` and `b` leave what one
run with `max a b` leaves. -/
theorem bumpLoop_twice (M : MathLib K)
    (hsqrt : ∀ s : K, 0 ≤ s → 0 ≤ M.sqrt s ∧ M.sqrt s * M.sqrt s = s)
    (W : Wave K) (x y size : Int) (a b : K) (p0 : Field K) :
    forLoop (-size) (size + 1) (fun dx p => forLoop (-size) (size + 1) (fun dy p =>
        maxAt p b (coneTarget M W x y size dx dy)) p)
      (forLoop (-size) (size + 1) (fun dx p => forLoop (-size) (size + 1) (fun dy p =>
        maxAt p a (coneTarget M W x y size dx dy)) p) p0) =
    forLoop (-size) (size + 1) (fun dx p => forLoop (-size) (size + 1) (fun dy p =>
        maxAt p (max a b) (coneTarget M W x y size dx dy)) p) p0 := by
  generalize hP1 : forLoop (-size) (size + 1) (fun dx p => forLoop (-size) (size + 1)
    (fun dy p => maxAt p a (coneTarget M W x y size dx dy)) p) p0 = P1
  obtain ⟨a1, a2, a3, a4, _, _, _⟩ := bumpLoop_char M W x y size a p0 0
  rw [hP1] at a1 a2 a3 a4
  obtain ⟨b1, b2, b3, b4, _, _, _⟩ := bumpLoop_char M W x y size b P1 0
  obtain ⟨m1, m2, m3, m4, _, _, _⟩ := bumpLoop_char M W x y size (max a b) p0 0
  have hc0 : P1.cell0 = p0.cell0 := by unfold Field.cell0 Field.framew; rw [a1, a3]
  have hfw : P1.framew = p0.framew := by unfold Field.framew; rw [a1, a3]
  apply field_ext _ _ (b1.trans (a1.trans m1.symm)) (b2.trans (a2.trans m2.symm))
    (b3.trans (a3.trans m3.symm)) (b4.trans (a4.trans m4.symm))
  intro j
  obtain ⟨_, _, _, _, a5, a6, a7⟩ := bumpLoop_char M W x y size a p0 j
  rw [hP1] at a5 a6 a7
  obtain ⟨_, _, _, _, b5, b6, b7⟩ := bumpLoop_char M W x y size b P1 j
  obtain ⟨_, _, _, _, m5, m6, m7⟩ := bumpLoop_char M W x y size (max a b) p0 j
  rw [hc0, hfw] at b6 b7
  apply le_antisymm
  · rcases b7 with h | ⟨dx, dy, mx, my, k, hdx, hdy, ht, hj, h⟩
    · rw [h]
      rcases a7 with h' | ⟨dx, dy, mx, my, k, hdx, hdy, ht, hj, h'⟩
      · rw [h']
        exact m5
      · rw [h']
        have hk := coneTarget_pos M hsqrt W x y size dx dy mx my k ht
        exact le_trans (mul_le_mul_of_nonneg_right (le_max_left a b) (le_of_lt hk))
          (m6 dx dy mx my k hdx hdy ht hj)
    · rw [h]
      have hk := coneTarget_pos M hsqrt W x y size dx dy mx my k ht
      exact le_trans (mul_le_mul_of_nonneg_right (le_max_right a b) (le_of_lt hk))
        (m6 dx dy mx my k hdx hdy ht hj)
  · rcases m7 with h | ⟨dx, dy, mx, my, k, hdx, hdy, ht, hj, h⟩
    · rw [h]
      exact le_trans a5 b5
    · rw [h]
      rcases max_choice a b with hm | hm
      · rw [hm]
        exact le_trans (a6 dx dy mx my k hdx hdy ht hj) b5
      · rw [hm]
        exact b6 dx dy mx my k hdx hdy ht hj

end PotentialBump3
end Schroedinger

namespace Schroedinger
open BoundaryCondition

section PotentialBump4
variable {K : Type} [LinearOrderedField K]

theorem potentialScale_pos : (0 : K) < Wave.POTENTIAL_UNIT * Wave.area_ * Wave.dt_ := by
  unfold Wave.POTENTIAL_UNIT Wave.area_ Wave.dt_
  norm_num

theorem coneTarget_addPotentialBump (M : MathLib K) (W : Wave K) (x1 y1 : Int) (c : K)
    (size1 : Int) :
    coneTarget M (Wave.addPotentialBump M W x1 y1 c size1) = coneTarget M W := by
  funext x y size dx dy
  exact coneTarget_congr M W _ x y size dx dy rfl rfl

theorem potentialBump_two_calls (M : MathLib K)
    (hsqrt : ∀ s : K, 0 ≤ s → 0 ≤ M.sqrt s ∧ M.sqrt s * M.sqrt s = s)
    (W : Wave K) (x y size : Int) (c1 c2 : K) :
    Wave.addPotentialBump M (Wave.addPotentialBump M W x y c1 size) x y c2 size =
      Wave.addPotentialBump M W x y (max c1 c2) size := by
  rw [addPotentialBump_eq M (Wave.addPotentialBump M W x y c1 size),
    coneTarget_addPotentialBump, addPotentialBump_eq M W x y (max c1 c2)]
  have e : (Wave.addPotentialBump M W x y c1 size).potential_ =
      forLoop (-size) (size + 1) (fun dx p => forLoop (-size) (size + 1) (fun dy p =>
        maxAt p (c1 / (Wave.POTENTIAL_UNIT * Wave.area_ * Wave.dt_))
          (coneTarget M W x y size dx dy)) p) W.potential_ := by
    rw [addPotentialBump_eq]
  rw [e, bumpLoop_twice M hsqrt,
    max_div_div_right (le_of_lt (potentialScale_pos (K := K)))]
  rw [addPotentialBump_eq]

end PotentialBump4
end Schroedinger

namespace Schroedinger
open BoundaryCondition

section PotentialBump5
variable {K : Type} [LinearOrderedField K]

/-- One call of `addPotentialBump` whose cone stays within one period of the grid: a
cell of the frame holds the greatest of its old value and the contributions of the
offsets that reach it. -/
theorem addPotentialBump_get_char (M : MathLib K) (W : Wave K) (x y size : Int) (c : K)
    (hS : W.potential_.Shaped W.width_ W.height_) (hw : 1 ≤ W.width_) (hh : 1 ≤ W.height_)
    (hx : size ≤ x + W.width_) (hy : size ≤ y + W.height_) (u v : Int)
    (hu : -1 ≤ u ∧ u < W.width_ + 1) :
    W.potential_.get u v ≤ (Wave.addPotentialBump M W x y c size).potential_.get u v ∧
    (∀ (dx dy : Int) (k : K), -size ≤ dx ∧ dx ≤ size → -size ≤ dy ∧ dy ≤ size →
      coneTarget M W x y size dx dy = some (u, v, k) →
      c / (Wave.POTENTIAL_UNIT * Wave.area_ * Wave.dt_) * k ≤
        (Wave.addPotentialBump M W x y c size).potential_.get u v) ∧
    ((Wave.addPotentialBump M W x y c size).potential_.get u v = W.potential_.get u v ∨
      ∃ (dx dy : Int) (k : K), (-size ≤ dx ∧ dx ≤ size) ∧ (-size ≤ dy ∧ dy ≤ size) ∧
        coneTarget M W x y size dx dy = some (u, v, k) ∧
        (Wave.addPotentialBump M W x y c size).potential_.get u v =
          c / (Wave.POTENTIAL_UNIT * Wave.area_ * Wave.dt_) * k) := by
  obtain ⟨s1, s2, s3, s4⟩ := hS
  obtain ⟨d1, d2, d3, d4, h5, h6, h7⟩ := bumpLoop_char M W x y size
    (c / (Wave.POTENTIAL_UNIT * Wave.area_ * Wave.dt_)) W.potential_
    (W.potential_.cell0 + (u + v * W.potential_.framew))
  have hfw : W.potential_.framew = 2 * 1 + W.width_ := by
    unfold Field.framew; rw [s3, s1]
  have hget : ∀ (a b : Int), (Wave.addPotentialBump M W x y c size).potential_.get a b =
      (forLoop (-size) (size + 1) (fun dx p => forLoop (-size) (size + 1) (fun dy p =>
        maxAt p (c / (Wave.POTENTIAL_UNIT * Wave.area_ * Wave.dt_))
          (coneTarget M W x y size dx dy)) p) W.potential_).data
        (W.potential_.cell0 + (a + b * W.potential_.framew)) := by
    intro a b
    rw [addPotentialBump_eq]
    show Field.get _ a b = _
    unfold Field.get Field.cell0 Field.framew
    rw [d1, d3]
  rw [hget]
  refine ⟨h5, ?_, ?_⟩
  · intro dx dy k hdx hdy ht
    exact h6 dx dy u v k hdx hdy ht rfl
  · rcases h7 with h | ⟨dx, dy, mx, my, k, hdx, hdy, ht, hj, h⟩
    · left
      exact h
    · right
      obtain ⟨hmx, hmy⟩ := coneTarget_range M W x y size dx dy mx my k hw hh hx hy hdx.1 hdy.1 ht
      have hidx : (u + 1) + (v + 1) * W.potential_.framew =
          (mx + 1) + (my + 1) * W.potential_.framew := by
        have := hj
        linarith
      obtain ⟨e1, e2⟩ := idx_inj (W := W.potential_.framew) (by omega) (by omega) hidx
      have eu : mx = u := by omega
      have ev : my = v := by omega
      subst eu ev
      exact ⟨dx, dy, k, hdx, hdy, ht, h⟩

end PotentialBump5
end Schroedinger

namespace Schroedinger
open BoundaryCondition

/-- C9: with an exact square root, `addPotentialBump(x, y, c1, size)` followed by
`addPotentialBump(x, y, c2, size)` leaves the wave that the single call with
`max c1 c2` leaves, in either order of the two calls; and on a wave as constructed, when
the cone stays within one period of the grid (`x - size ≥ -width`, `y - size ≥ -height`),
every cell `(u, v)` of the frame then holds the greatest of its original value and the
cone contributions `c1' * (1 - sqrt rr)` and `c2' * (1 - sqrt rr)` of the offsets that
reach it, where `c' = c / (POTENTIAL_UNIT * area * dt)`: it is at least each of them and
equal to one of them. -/
theorem addPotentialBump_twice {K : Type} [LinearOrderedField K] (M : MathLib K)
    (hsqrt : ∀ s : K, 0 ≤ s → 0 ≤ M.sqrt s ∧ M.sqrt s * M.sqrt s = s)
    (W : Wave K) (x y size : Int) (c1 c2 : K) :
    Wave.addPotentialBump M (Wave.addPotentialBump M W x y c1 size) x y c2 size =
      Wave.addPotentialBump M W x y (max c1 c2) size ∧
    Wave.addPotentialBump M (Wave.addPotentialBump M W x y c1 size) x y c2 size =
      Wave.addPotentialBump M (Wave.addPotentialBump M W x y c2 size) x y c1 size ∧
    (W.potential_.Shaped W.width_ W.height_ → 1 ≤ W.width_ → 1 ≤ W.height_ →
      size ≤ x + W.width_ → size ≤ y + W.height_ →
      ∀ u v : Int, -1 ≤ u ∧ u < W.width_ + 1 →
        W.potential_.get u v ≤
          (Wave.addPotentialBump M (Wave.addPotentialBump M W x y c1 size)
            x y c2 size).potential_.get u v ∧
        (∀ (dx dy : Int) (k : K), -size ≤ dx ∧ dx ≤ size → -size ≤ dy ∧ dy ≤ size →
          coneTarget M W x y size dx dy = some (u, v, k) →
          c1 / (Wave.POTENTIAL_UNIT * Wave.area_ * Wave.dt_) * k ≤
            (Wave.addPotentialBump M (Wave.addPotentialBump M W x y c1 size)
              x y c2 size).potential_.get u v ∧
          c2 / (Wave.POTENTIAL_UNIT * Wave.area_ * Wave.dt_) * k ≤
            (Wave.addPotentialBump M (Wave.addPotentialBump M W x y c1 size)
              x y c2 size).potential_.get u v) ∧
        ((Wave.addPotentialBump M (Wave.addPotentialBump M W x y c1 size)
            x y c2 size).potential_.get u v = W.potential_.get u v ∨
          ∃ (dx dy : Int) (k : K), (-size ≤ dx ∧ dx ≤ size) ∧ (-size ≤ dy ∧ dy ≤ size) ∧
            coneTarget M W x y size dx dy = some (u, v, k) ∧
            ((Wave.addPotentialBump M (Wave.addPotentialBump M W x y c1 size)
                x y c2 size).potential_.get u v =
              c1 / (Wave.POTENTIAL_UNIT * Wave.area_ * Wave.dt_) * k ∨
             (Wave.addPotentialBump M (Wave.addPotentialBump M W x y c1 size)
                x y c2 size).potential_.get u v =
              c2 / (Wave.POTENTIAL_UNIT * Wave.area_ * Wave.dt_) * k))) := by
  have hA := potentialBump_two_calls M hsqrt W x y size c1 c2
  have hB := potentialBump_two_calls M hsqrt W x y size c2 c1
  refine ⟨hA, ?_, ?_⟩
  · rw [hA, hB, max_comm]
  · intro hS hw hh hx hy u v hu
    rw [hA]
    obtain ⟨g1, g2, g3⟩ := addPotentialBump_get_char M W x y size (max c1 c2) hS hw hh hx hy u v hu
    have hd : (0 : K) < Wave.POTENTIAL_UNIT * Wave.area_ * Wave.dt_ := potentialScale_pos
    have hmax : max c1 c2 / (Wave.POTENTIAL_UNIT * Wave.area_ * Wave.dt_) =
        max (c1 / (Wave.POTENTIAL_UNIT * Wave.area_ * Wave.dt_))
          (c2 / (Wave.POTENTIAL_UNIT * Wave.area_ * Wave.dt_)) :=
      (max_div_div_right (le_of_lt hd) c1 c2).symm
    refine ⟨g1, ?_, ?_⟩
    · intro dx dy k hdx hdy ht
      have hk := coneTarget_pos M hsqrt W x y size dx dy u v k ht
      have h := g2 dx dy k hdx hdy ht
      rw [hmax] at h
      exact ⟨le_trans (mul_le_mul_of_nonneg_right (le_max_left _ _) (le_of_lt hk)) h,
        le_trans (mul_le_mul_of_nonneg_right (le_max_right _ _) (le_of_lt hk)) h⟩
    · rcases g3 with h | ⟨dx, dy, k, hdx, hdy, ht, h⟩
      · left
        exact h
      · right
        refine ⟨dx, dy, k, hdx, hdy, ht, ?_⟩
        rw [h, hmax]
        rcases max_choice (c1 / (Wave.POTENTIAL_UNIT * Wave.area_ * Wave.dt_))
          (c2 / (Wave.POTENTIAL_UNIT * Wave.area_ * Wave.dt_)) with hm | hm
        · left; rw [hm]
        · right; rw [hm]

theorem addPotentialBump_twice_witness :
    Wave.addPotentialBump ⟨Real.sqrt, Real.pi, Real.cos, Real.sin⟩
      (Wave.addPotentialBump ⟨Real.sqrt, Real.pi, Real.cos, Real.sin⟩
        (constWave 8 8 (0 : Dcomp ℝ)) 3 3 2 2) 3 3 5 2 =
    Wave.addPotentialBump ⟨Real.sqrt, Real.pi, Real.cos, Real.sin⟩
      (constWave 8 8 (0 : Dcomp ℝ)) 3 3 (max 2 5) 2 ∧
    (constWave 8 8 (0 : Dcomp ℝ)).potential_.get 3 3 ≤
      (Wave.addPotentialBump ⟨Real.sqrt, Real.pi, Real.cos, Real.sin⟩
        (Wave.addPotentialBump ⟨Real.sqrt, Real.pi, Real.cos, Real.sin⟩
          (constWave 8 8 (0 : Dcomp ℝ)) 3 3 2 2) 3 3 5 2).potential_.get 3 3 :=
  ⟨(addPotentialBump_twice ⟨Real.sqrt, Real.pi, Real.cos, Real.sin⟩
    (fun s hs => ⟨Real.sqrt_nonneg s, Real.mul_self_sqrt hs⟩)
    (constWave 8 8 (0 : Dcomp ℝ)) 3 3 2 2 5).1,
   ((addPotentialBump_twice ⟨Real.sqrt, Real.pi, Real.cos, Real.sin⟩
    (fun s hs => ⟨Real.sqrt_nonneg s, Real.mul_self_sqrt hs⟩)
    (constWave 8 8 (0 : Dcomp ℝ)) 3 3 2 2 5).2.2 ⟨rfl, rfl, rfl, rfl⟩ (by decide) (by decide)
    (by decide) (by decide) 3 3 (by decide)).1⟩

end Schroedinger

/-! ## The static potential is only written by `addPotentialBump` -/

namespace Schroedinger
open BoundaryCondition

section StaticPotential
variable {K : Type} [LinearOrderedField K]

end StaticPotential

end Schroedinger

/-! ## `mod`, `mirrorMod`, `safeGet` and `safeSet` -/

namespace Schroedinger
open BoundaryCondition

theorem emod_unique {a m r : Int} (h0 : 0 ≤ r) (h1 : r < m) (hd : m ∣ a - r) : a % m = r := by
  obtain ⟨c, hc⟩ := hd
  have e : a = r + m * c := by omega
  rw [e, Int.add_mul_emod_self_left, Int.emod_eq_of_lt h0 h1]

theorem tmod_bounds (a m : Int) (hm : 0 < m) : -m < Int.tmod a m ∧ Int.tmod a m < m := by
  refine ⟨?_, Int.tmod_lt_of_pos a hm⟩
  cases a with
  | ofNat k =>
    have h : 0 ≤ Int.tmod (Int.ofNat k) m := Int.tmod_nonneg m (Int.ofNat_nonneg k)
    exact lt_of_lt_of_le (by omega) h
  | negSucc k =>
    obtain ⟨n, rfl⟩ := Int.eq_ofNat_of_zero_le (le_of_lt hm)
    show -(n : Int) < -(((k + 1) % n : Nat) : Int)
    have h : (k + 1) % n < n := Nat.mod_lt _ (by omega)
    omega

/-- The function `mod(a, m)` yields the non-negative remainder, although `%` truncates
toward zero. -/
theorem mod_eq_emod (a m : Int) (hm : 0 < m) : Field.mod a m = a % m := by
  obtain ⟨h1, h2⟩ := tmod_bounds a m hm
  have hd : a = Int.tmod a m + m * a.tdiv m := (Int.tmod_add_tdiv a m).symm
  unfold Field.mod
  simp only []
  split_ifs with h
  · symm
    apply emod_unique (by omega) (by omega)
    exact ⟨a.tdiv m - 1, by rw [mul_sub, mul_one]; omega⟩
  · symm
    apply emod_unique (by omega) (by omega)
    exact ⟨a.tdiv m, by omega⟩

theorem mirrorMod_eq (a m : Int) (hm : 0 < m) :
    Field.mirrorMod a m =
      if a % (2 * m) ≥ m then 2 * m - 1 - a % (2 * m) else a % (2 * m) := by
  unfold Field.mirrorMod
  simp only []
  rw [mod_eq_emod a (2 * m) (by omega)]

theorem emod_reflect (a n : Int) (hn : 0 < n) : (-1 - a) % n = n - 1 - a % n := by
  have h1 := Int.emod_nonneg a (ne_of_gt hn)
  have h2 := Int.emod_lt_of_pos a hn
  have h3 := Int.emod_add_ediv a n
  apply emod_unique (by omega) (by omega)
  exact ⟨-(a / n) - 1, by rw [mul_sub, mul_neg, mul_one]; omega⟩

theorem mirrorMod_props (a m : Int) (hm : 1 ≤ m) :
    (0 ≤ Field.mirrorMod a m ∧ Field.mirrorMod a m < m) ∧
    (0 ≤ a → a < m → Field.mirrorMod a m = a) ∧
    Field.mirrorMod (a + 2 * m) m = Field.mirrorMod a m ∧
    Field.mirrorMod (-1 - a) m = Field.mirrorMod a m ∧
    Field.mirrorMod (2 * m - 1 - a) m = Field.mirrorMod a m := by
  have h1 := Int.emod_nonneg a (show (2 * m) ≠ 0 by omega)
  have h2 := Int.emod_lt_of_pos a (show 0 < 2 * m by omega)
  have hr := emod_reflect a (2 * m) (by omega)
  have hper : (a + 2 * m) % (2 * m) = a % (2 * m) := Int.add_emod_self
  have hr2 : (2 * m - 1 - a) % (2 * m) = 2 * m - 1 - a % (2 * m) := by
    have e : 2 * m - 1 - a = (-1 - a) + 2 * m := by ring
    rw [e, Int.add_emod_self, hr]
  rw [mirrorMod_eq _ m (by omega), mirrorMod_eq _ m (by omega), mirrorMod_eq _ m (by omega),
    mirrorMod_eq _ m (by omega), hper, hr, hr2]
  refine ⟨?_, ?_, rfl, ?_, ?_⟩
  · split_ifs <;> omega
  · intro h3 h4
    rw [Int.emod_eq_of_lt h3 (by omega), if_neg (by omega)]
  · split_ifs <;> omega
  · split_ifs <;> omega

end Schroedinger

namespace Schroedinger
open BoundaryCondition

theorem remap_wrap (a dim : Int) (hd : 1 ≤ dim) : Field.remap WRAP a dim = some (a % dim) := by
  unfold Field.remap
  split_ifs with h
  · simp only []
    rw [mod_eq_emod a dim (by omega)]
  · rw [Int.emod_eq_of_lt (by omega) (by omega)]

theorem remap_mirror (a dim : Int) (hd : 1 ≤ dim) :
    Field.remap MIRROR a dim = some (Field.mirrorMod a dim) := by
  unfold Field.remap
  split_ifs with h
  · rfl
  · rw [(mirrorMod_props a dim hd).2.1 (by omega) (by omega)]

theorem remap_zero (a dim : Int) :
    Field.remap ZERO a dim = if a < 0 ∨ a ≥ dim then none else some a := by
  unfold Field.remap
  split_ifs <;> rfl

theorem safeGet_of_remap {α : Type} [Zero α] (f : Field α) (x y x1 y1 : Int)
    (hx : Field.remap f.boundary x f.width = some x1)
    (hy : Field.remap f.boundary y f.height = some y1) : f.safeGet x y = f.get x1 y1 := by
  unfold Field.safeGet
  rw [hx]
  simp only []
  rw [hy]
  rfl

theorem safeSet_of_remap {α : Type} (f : Field α) (x y x1 y1 : Int) (v : α)
    (hx : Field.remap f.boundary x f.width = some x1)
    (hy : Field.remap f.boundary y f.height = some y1) : f.safeSet x y v = f.set x1 y1 v := by
  unfold Field.safeSet
  rw [hx]
  simp only []
  rw [hy]
  rfl

theorem get_set_same {α : Type} (f : Field α) (x y : Int) (v : α) :
    (f.set x y v).get x y = v := by
  show store f.data (f.cell0 + (x + y * f.framew)) v (f.cell0 + (x + y * f.framew)) = v
  unfold store
  rw [if_pos rfl]

/-- C11: on a Zero grid, for `(x, y)` outside the main rectangle `safeGet(x, y)` is 0 and
`safeSet(x, y, v)` leaves the grid as it is; for `(x, y)` inside, `safeGet` returns the
stored cell and `safeSet` is `set(x, y, v)`, which writes the one cell of the buffer at
`cell0 + x + y * framew`. -/
theorem safe_zero {α : Type} [Zero α] (f : Field α) (hB : f.boundary = ZERO) (x y : Int)
    (v : α) :
    (¬(0 ≤ x ∧ x < f.width ∧ 0 ≤ y ∧ y < f.height) →
      f.safeGet x y = 0 ∧ f.safeSet x y v = f) ∧
    ((0 ≤ x ∧ x < f.width ∧ 0 ≤ y ∧ y < f.height) →
      f.safeGet x y = f.get x y ∧ f.safeSet x y v = f.set x y v ∧
      (f.safeSet x y v).get x y = v ∧
      ∀ j : Int, j ≠ f.cell0 + (x + y * f.framew) → (f.safeSet x y v).data j = f.data j) := by
  constructor
  · intro hout
    unfold Field.safeGet Field.safeSet
    rw [hB, remap_zero, remap_zero]
    by_cases hx : x < 0 ∨ x ≥ f.width
    · rw [if_pos hx]
      exact ⟨rfl, rfl⟩
    · have hy : y < 0 ∨ y ≥ f.height := by omega
      rw [if_neg hx]
      simp only []
      rw [if_pos hy]
      exact ⟨rfl, rfl⟩
  · intro hin
    have hx : Field.remap f.boundary x f.width = some x := by
      rw [hB, remap_zero, if_neg (by omega)]
    have hy : Field.remap f.boundary y f.height = some y := by
      rw [hB, remap_zero, if_neg (by omega)]
    rw [safeGet_of_remap f x y x y hx hy, safeSet_of_remap f x y x y v hx hy]
    refine ⟨rfl, rfl, get_set_same f x y v, ?_⟩
    intro j hj
    show store f.data _ v j = _
    unfold store
    rw [if_neg hj]

theorem safe_zero_witness :
    (((Field.zero ⟨5, 3, 2, ZERO, fun _ => (0 : Int)⟩).set 1 2 300).safeGet 6 2 = 0) ∧
    (((Field.zero ⟨5, 3, 2, ZERO, fun _ => (0 : Int)⟩).set 1 2 300).safeGet 1 2 =
      ((Field.zero ⟨5, 3, 2, ZERO, fun _ => (0 : Int)⟩).set 1 2 300).get 1 2) :=
  ⟨((safe_zero ((Field.zero ⟨5, 3, 2, ZERO, fun _ => (0 : Int)⟩).set 1 2 300) rfl 6 2 7).1
      (by decide)).1,
   ((safe_zero ((Field.zero ⟨5, 3, 2, ZERO, fun _ => (0 : Int)⟩).set 1 2 300) rfl 1 2 7).2
      (by decide)).1⟩

/-- C12: on a Wrap grid with `width, height ≥ 1`, for all integers `x, y`: `mod` yields
the non-negative remainders, `safeGet(x, y)` reads and `safeSet(x, y, v)` writes the
main-rectangle cell `(x mod width, y mod height)`; `safeGet` has the period `width` in
`x` and `height` in `y`, and `safeGet(x, y)` after `safeSet(x, y, v)` returns `v`. -/
theorem safe_wrap {α : Type} [Zero α] (f : Field α) (hB : f.boundary = WRAP)
    (hw : 1 ≤ f.width) (hh : 1 ≤ f.height) (x y : Int) (v : α) :
    (Field.mod x f.width = x % f.width ∧ Field.mod y f.height = y % f.height) ∧
    (0 ≤ x % f.width ∧ x % f.width < f.width ∧ 0 ≤ y % f.height ∧ y % f.height < f.height) ∧
    f.safeGet x y = f.get (x % f.width) (y % f.height) ∧
    f.safeSet x y v = f.set (x % f.width) (y % f.height) v ∧
    f.safeGet (x + f.width) y = f.safeGet x y ∧
    f.safeGet x (y + f.height) = f.safeGet x y ∧
    (f.safeSet x y v).safeGet x y = v := by
  have rx : ∀ a : Int, Field.remap f.boundary a f.width = some (a % f.width) := by
    intro a; rw [hB]; exact remap_wrap a f.width hw
  have ry : ∀ a : Int, Field.remap f.boundary a f.height = some (a % f.height) := by
    intro a; rw [hB]; exact remap_wrap a f.height hh
  have hg : ∀ a b : Int, f.safeGet a b = f.get (a % f.width) (b % f.height) :=
    fun a b => safeGet_of_remap f a b _ _ (rx a) (ry b)
  have hs : f.safeSet x y v = f.set (x % f.width) (y % f.height) v :=
    safeSet_of_remap f x y _ _ v (rx x) (ry y)
  refine ⟨⟨mod_eq_emod x _ (by omega), mod_eq_emod y _ (by omega)⟩,
    ⟨Int.emod_nonneg _ (by omega), Int.emod_lt_of_pos _ (by omega),
      Int.emod_nonneg _ (by omega), Int.emod_lt_of_pos _ (by omega)⟩,
    hg x y, hs, ?_, ?_, ?_⟩
  · rw [hg, hg, Int.add_emod_self]
  · rw [hg, hg, Int.add_emod_self]
  · rw [hs, safeGet_of_remap (f.set (x % f.width) (y % f.height) v) x y _ _ (rx x) (ry y)]
    exact get_set_same f _ _ v

theorem safe_wrap_witness :
    (((Field.zero ⟨5, 3, 2, WRAP, fun _ => (0 : Int)⟩).set 4 0 500).safeGet (-1) 3 =
      ((Field.zero ⟨5, 3, 2, WRAP, fun _ => (0 : Int)⟩).set 4 0 500).get (-1 % 5) (3 % 3)) :=
  (safe_wrap ((Field.zero ⟨5, 3, 2, WRAP, fun _ => (0 : Int)⟩).set 4 0 500) rfl
    (by decide) (by decide) (-1) 3 0).2.2.1

/-- C13: for `m ≥ 1` and every integer `a`, `mirrorMod(a, m)` lies in `[0, m)`, is `a` for
`0 ≤ a < m`, has the period `2m`, and is invariant under the reflections `a ↦ -1 - a` and
`a ↦ 2m - 1 - a`; on a Mirror grid with `width, height ≥ 1`, `safeGet(x, y)` reads the
main-rectangle cell `(mirrorMod(x, width), mirrorMod(y, height))` for all integers. -/
theorem mirrorMod_reflection {α : Type} [Zero α] (a m : Int) (hm : 1 ≤ m) (f : Field α)
    (hB : f.boundary = MIRROR) (hw : 1 ≤ f.width) (hh : 1 ≤ f.height) (x y : Int) :
    (0 ≤ Field.mirrorMod a m ∧ Field.mirrorMod a m < m) ∧
    (0 ≤ a → a < m → Field.mirrorMod a m = a) ∧
    Field.mirrorMod (a + 2 * m) m = Field.mirrorMod a m ∧
    Field.mirrorMod (-1 - a) m = Field.mirrorMod a m ∧
    Field.mirrorMod (2 * m - 1 - a) m = Field.mirrorMod a m ∧
    f.safeGet x y = f.get (Field.mirrorMod x f.width) (Field.mirrorMod y f.height) ∧
    (0 ≤ Field.mirrorMod x f.width ∧ Field.mirrorMod x f.width < f.width ∧
      0 ≤ Field.mirrorMod y f.height ∧ Field.mirrorMod y f.height < f.height) := by
  obtain ⟨p1, p2, p3, p4, p5⟩ := mirrorMod_props a m hm
  refine ⟨p1, p2, p3, p4, p5, ?_, ?_⟩
  · apply safeGet_of_remap
    · rw [hB]; exact remap_mirror x f.width hw
    · rw [hB]; exact remap_mirror y f.height hh
  · exact ⟨(mirrorMod_props x f.width hw).1.1, (mirrorMod_props x f.width hw).1.2,
      (mirrorMod_props y f.height hh).1.1, (mirrorMod_props y f.height hh).1.2⟩

theorem mirrorMod_reflection_witness :
    Field.mirrorMod (-1 - 7) 5 = Field.mirrorMod 7 5 ∧
    (((Field.zero ⟨5, 3, 2, MIRROR, fun _ => (0 : Int)⟩).set 1 2 300).safeGet (-2) 2 =
      ((Field.zero ⟨5, 3, 2, MIRROR, fun _ => (0 : Int)⟩).set 1 2 300).get
        (Field.mirrorMod (-2) 5) (Field.mirrorMod 2 3)) :=
  ⟨(mirrorMod_reflection 7 5 (by decide)
      ((Field.zero ⟨5, 3, 2, MIRROR, fun _ => (0 : Int)⟩).set 1 2 300) rfl
      (by decide) (by decide) (-2) 2).2.2.2.1,
   (mirrorMod_reflection 7 5 (by decide)
      ((Field.zero ⟨5, 3, 2, MIRROR, fun _ => (0 : Int)⟩).set 1 2 300) rfl
      (by decide) (by decide) (-2) 2).2.2.2.2.2.1⟩

/-- C16: whatever the buffer that `new T[framesize]` returns holds, the constructor
`Field(width, height, border, boundary)` fails exactly when the boundary is Wrap or
Mirror and `width < border` or `height < border` (so never for Zero); when it succeeds
the grid has the given members, `zero()` has put 0 in each of the `framesize` cells of
the buffer, and every cell `(x, y)` of the frame, main rectangle and border alike,
reads 0. -/
theorem create_fails_iff {α : Type} [Zero α] (raw : Int → α) (w h b : Int)
    (B : BoundaryCondition) :
    ((Field.create raw w h b B : Option (Field α)) = none ↔
      (B = WRAP ∨ B = MIRROR) ∧ (w < b ∨ h < b)) ∧
    (B = ZERO → (Field.create raw w h b B : Option (Field α)) ≠ none) ∧
    ∀ f : Field α, Field.create raw w h b B = some f →
      (f.width = w ∧ f.height = h ∧ f.border = b ∧ f.boundary = B) ∧
      (∀ j : Int, 0 ≤ j ∧ j < (2 * b + w) * (2 * b + h) → f.data j = 0) ∧
      ∀ x y : Int, -b ≤ x ∧ x < w + b → -b ≤ y ∧ y < h + b → f.get x y = 0 := by
  unfold Field.create
  refine ⟨?_, ?_, ?_⟩
  · cases B <;> simp <;> omega
  · intro hz
    subst hz
    simp
  · intro f hf
    split_ifs at hf
    cases hf
    refine ⟨⟨rfl, rfl, rfl, rfl⟩, ?_, ?_⟩
    · intro j hj
      show (if 0 ≤ j ∧ j < (2 * b + w) * (2 * b + h) then (0 : α) else raw j) = 0
      rw [if_pos hj]
    · intro x y hx hy
      exact zero_get _ x y hx hy

end Schroedinger

/-! ## `sum()` and `add(t)` on the main rectangle -/

namespace Schroedinger
open BoundaryCondition

/-- The row loop of `wrap()` writes border columns only. -/
theorem wrap_rows_main {α : Type} (f : Field α) (hb : 0 ≤ f.border) (hw : 0 ≤ f.width)
    (n : Nat) :
    ∀ (d : Int → α) (c r : Int), f.border ≤ c → c < f.border + f.width →
    iterFrom f.border (fun y d =>
      memcpy (memcpy d (y * f.framew) (y * f.framew + f.width) f.border)
        (y * f.framew + f.border + f.width) (y * f.framew + f.border) f.border) n d
      (c + r * f.framew) = d (c + r * f.framew) := by
  have hW : f.framew = 2 * f.border + f.width := rfl
  induction n with
  | zero =>
    intro d c r _ _
    rfl
  | succ n ih =>
    intro d c r hc0 hc1
    rw [iterFrom_succ]
    rw [memcpy_row _ f.framew (f.border + f.width) f.border (f.border + (n : Int))
      (by ring) (by ring) (by omega) (by omega) (by omega) (by omega)]
    have c1 : ¬(r = f.border + (n : Int) ∧ f.border + f.width ≤ c ∧
        c < f.border + f.width + f.border) := by omega
    rw [if_neg c1]
    rw [memcpy_row _ f.framew 0 f.width (f.border + (n : Int))
      (by ring) (by ring) (by omega) (by omega) (by omega) (by omega)]
    have c2 : ¬(r = f.border + (n : Int) ∧ 0 ≤ c ∧ c < 0 + f.border) := by omega
    rw [if_neg c2]
    exact ih d c r hc0 hc1

/-- For every grid with non-negative members `wrap()` leaves the main rectangle as it
is: the four regions it writes are border strips. -/
theorem wrap_get_main_any {α : Type} (f : Field α) (hb : 0 ≤ f.border) (hw : 0 ≤ f.width)
    (x y : Int) (hx : 0 ≤ x ∧ x < f.width) (hy : 0 ≤ y ∧ y < f.height) :
    f.wrap.get x y = f.get x y := by
  have hW : f.framew = 2 * f.border + f.width := rfl
  have hfw : f.wrap.framew = f.framew := rfl
  have hfb : f.wrap.border = f.border := rfl
  rw [get_eq_data, get_eq_data, hfw, hfb]
  show memcpy (memcpy (forLoop f.border (f.height + f.border) _ f.data) 0
      (0 + f.framew * f.height) (f.framew * f.border))
      (f.framew * f.border + f.framew * f.height) (f.framew * f.border)
      (f.framew * f.border) (x + f.border + (y + f.border) * f.framew) = _
  rw [memcpy_block _ f.framew (f.border + f.height) f.border f.border
    (by ring) (by ring) (by ring) (by omega) (by omega)]
  have c1 : ¬(f.border + f.height ≤ y + f.border ∧
      y + f.border < f.border + f.height + f.border) := by omega
  rw [if_neg c1]
  rw [memcpy_block _ f.framew 0 f.height f.border
    (by ring) (by ring) (by ring) (by omega) (by omega)]
  have c2 : ¬(0 ≤ y + f.border ∧ y + f.border < 0 + f.border) := by omega
  rw [if_neg c2]
  unfold forLoop
  exact wrap_rows_main f hb hw _ f.data _ _ (by omega) (by omega)

theorem sum_congr_main {α : Type} [AddCommMonoid α] (f g : Field α)
    (hw : g.width = f.width) (hh : g.height = f.height)
    (hc : ∀ x y : Int, 0 ≤ x ∧ x < f.width → 0 ≤ y ∧ y < f.height → g.get x y = f.get x y) :
    g.sum = f.sum := by
  rw [sum_eq, sum_eq, hw, hh]
  apply Finset.sum_congr rfl
  intro x hx
  apply Finset.sum_congr rfl
  intro y hy
  rw [Finset.mem_range] at hx hy
  exact hc x y (by omega) (by omega)

theorem fillBorder_get_main_any {α : Type} (f : Field α) (hb : 0 ≤ f.border)
    (hB : f.boundary = ZERO ∨ (f.border ≤ f.width ∧ f.border ≤ f.height))
    (x y : Int) (hx : 0 ≤ x ∧ x < f.width) (hy : 0 ≤ y ∧ y < f.height) :
    f.fillBorder.get x y = f.get x y := by
  unfold Field.fillBorder
  cases hb1 : f.boundary with
  | WRAP =>
    simp only []
    exact wrap_get_main_any f hb (by omega) x y hx hy
  | MIRROR =>
    simp only []
    rcases hB with h | h
    · rw [hb1] at h
      cases h
    · rw [mirror_get_cases f hb h.1 h.2 x y (by omega) (by omega)]
      rw [if_neg (by omega), if_neg (by omega), if_neg (by omega), if_neg (by omega)]
  | ZERO => rfl

theorem fillBorder_dims {α : Type} (f : Field α) :
    f.fillBorder.width = f.width ∧ f.fillBorder.height = f.height := by
  unfold Field.fillBorder
  cases f.boundary <;> exact ⟨rfl, rfl⟩

/-- The main-rectangle cells and the sum after `add(t)`, for any boundary condition. -/
theorem add_main_sum {K : Type} [CommRing K] (f : Field K) (t : K) (hb : 0 ≤ f.border)
    (hw : 0 ≤ f.width) (hh : 0 ≤ f.height) :
    (∀ x y : Int, 0 ≤ x ∧ x < f.width → 0 ≤ y ∧ y < f.height →
      (f.add t).get x y = f.get x y + t) ∧
    (f.add t).sum = f.sum + ((f.width * f.height : Int) : K) * t := by
  obtain ⟨a1, a2, a3, a4⟩ := addCells_dims f t
  have a5 := addCells_spec f t hb
  have hmain : ∀ x y : Int, 0 ≤ x ∧ x < f.width → 0 ≤ y ∧ y < f.height →
      (f.add t).get x y = f.get x y + t := by
    intro x y hx hy
    unfold Field.add
    rw [wrap_get_main_any _ (by omega) (by omega) x y (by omega) (by omega)]
    rw [a5 x y (by omega), if_pos (by omega)]
  refine ⟨hmain, ?_⟩
  rw [sum_eq, sum_eq]
  have e1 : (f.add t).width = f.width := a1
  have e2 : (f.add t).height = f.height := a2
  rw [e1, e2]
  have hcell : ∀ x ∈ Finset.range f.width.toNat, ∀ y ∈ Finset.range f.height.toNat,
      (f.add t).get (x : Int) (y : Int) = f.get x y + t := by
    intro x hx y hy
    rw [Finset.mem_range] at hx hy
    exact hmain x y (by omega) (by omega)
  rw [Finset.sum_congr rfl (fun x hx => Finset.sum_congr rfl (hcell x hx))]
  simp only [Finset.sum_add_distrib, Finset.sum_const, Finset.card_range, smul_add,
    nsmul_eq_mul]
  have hwc : ((f.width.toNat : Nat) : K) = ((f.width : Int) : K) := by
    rw [← Int.cast_natCast, Int.toNat_of_nonneg hw]
  have hhc : ((f.height.toNat : Nat) : K) = ((f.height : Int) : K) := by
    rw [← Int.cast_natCast, Int.toNat_of_nonneg hh]
  rw [hwc, hhc]
  push_cast
  ring

/-- C14: `sum()` is the sum of `get(x, y)` over `0 ≤ x < width`, `0 ≤ y < height`; a grid
of the same extents that agrees with it on the main rectangle, whatever its border holds,
has the same `sum()`; and on a grid with `border ≥ 0` that is Zero or has
`border ≤ width, height`, `fillBorder()` does not change `sum()`. -/
theorem sum_main_only {α : Type} [AddCommMonoid α] (f : Field α) (hb : 0 ≤ f.border)
    (hB : f.boundary = ZERO ∨ (f.border ≤ f.width ∧ f.border ≤ f.height)) :
    f.sum = (∑ x in Finset.range f.width.toNat, ∑ y in Finset.range f.height.toNat,
      f.get x y) ∧
    (∀ g : Field α, g.width = f.width → g.height = f.height →
      (∀ x y : Int, 0 ≤ x ∧ x < f.width → 0 ≤ y ∧ y < f.height → g.get x y = f.get x y) →
      g.sum = f.sum) ∧
    f.fillBorder.sum = f.sum :=
  ⟨sum_eq f, fun g h1 h2 h3 => sum_congr_main f g h1 h2 h3,
    sum_congr_main f f.fillBorder (fillBorder_dims f).1 (fillBorder_dims f).2
      (fun x y hx hy => fillBorder_get_main_any f hb hB x y hx hy)⟩

theorem sum_main_only_witness :
    (((Field.zero ⟨5, 3, 2, WRAP, fun _ => (0 : Int)⟩).set 1 2 300).set 4 0 500).fillBorder.sum =
      (((Field.zero ⟨5, 3, 2, WRAP, fun _ => (0 : Int)⟩).set 1 2 300).set 4 0 500).sum :=
  (sum_main_only (((Field.zero ⟨5, 3, 2, WRAP, fun _ => (0 : Int)⟩).set 1 2 300).set 4 0 500)
    (by decide) (Or.inr ⟨by decide, by decide⟩)).2.2

/-- C15: for every grid with non-negative members and every `t`, after `add(t)` each
main-rectangle cell holds its previous value plus `t`, and `sum()` has increased by
`width * height * t`. -/
theorem add_main_cells {K : Type} [CommRing K] (f : Field K) (t : K) (hb : 0 ≤ f.border)
    (hw : 0 ≤ f.width) (hh : 0 ≤ f.height) :
    (∀ x y : Int, 0 ≤ x ∧ x < f.width → 0 ≤ y ∧ y < f.height →
      (f.add t).get x y = f.get x y + t) ∧
    (f.add t).sum = f.sum + ((f.width * f.height : Int) : K) * t :=
  add_main_sum f t hb hw hh

theorem add_main_cells_witness :
    (((Field.zero ⟨5, 3, 2, MIRROR, fun _ => (0 : Int)⟩).set 4 0 500).add 7).sum =
      ((Field.zero ⟨5, 3, 2, MIRROR, fun _ => (0 : Int)⟩).set 4 0 500).sum +
        (((5 * 3 : Int) : Int)) * 7 :=
  (add_main_cells ((Field.zero ⟨5, 3, 2, MIRROR, fun _ => (0 : Int)⟩).set 4 0 500) 7
    (by decide) (by decide) (by decide)).2

end Schroedinger

/-! ## The constructor of `Wave` and the border of `psi_` -/

namespace Schroedinger
open BoundaryCondition

theorem field_create_wrap {α : Type} [Zero α] (raw : Int → α) (w h : Int) :
    (Field.create raw w h 1 Wave.boundary_ : Option (Field α)) =
      if 1 ≤ w ∧ 1 ≤ h then some (Field.zero ⟨w, h, 1, WRAP, raw⟩) else none := by
  unfold Field.create Wave.boundary_
  by_cases hc : 1 ≤ w ∧ 1 ≤ h
  · rw [if_pos hc, if_pos ⟨Or.inr hc.1, Or.inr hc.2⟩]
  · rw [if_neg hc, if_neg]
    intro ⟨h1, h2⟩
    apply hc
    constructor
    · rcases h1 with h1 | h1
      · cases h1
      · exact h1
    · rcases h2 with h2 | h2
      · cases h2
      · exact h2

/-- What the constructor `Wave(width, height)` returns. -/
theorem wave_create_spec {K : Type} [LinearOrderedField K] (M : MathLib K)
    (rawC : Nat → Int → Dcomp K) (rawR : Nat → Int → K) (w h : Int) :
    ((w < 1 ∨ h < 1) → Wave.create M rawC rawR w h = none) ∧
    (1 ≤ w → 1 ≤ h → ∃ W : Wave K, Wave.create M rawC rawR w h = some W ∧
      W.width_ = w ∧ W.height_ = h ∧
      W.psi_.Shaped w h ∧ W.psi_.WrapConsistent ∧ W.potential_.Shaped w h ∧
      W.dynPotential_.Shaped w h ∧ W.tmpPotential_.Shaped w h ∧ W.tmpReal_.Shaped w h ∧
      W.tmpPsi0.Shaped w h ∧ W.tmpPsi1.Shaped w h ∧ W.tmpPsi2.Shaped w h ∧
      W.tmpPsi3.Shaped w h) := by
  constructor
  · intro hlt
    unfold Wave.create
    simp only [field_create_wrap, if_neg (show ¬(1 ≤ w ∧ 1 ≤ h) by omega)]
  · intro hw hh
    unfold Wave.create
    simp only [field_create_wrap, if_pos (show 1 ≤ w ∧ 1 ≤ h from ⟨hw, hh⟩)]
    have hz : ∀ {α : Type} [Zero α] (raw : Int → α),
        (Field.zero ⟨w, h, 1, WRAP, raw⟩).Shaped w h :=
      fun {_} _ _ => ⟨rfl, rfl, rfl, rfl⟩
    obtain ⟨m1, m2, m3, m4⟩ := mapLoop_dims
      (Field.zero ⟨w, h, 1, WRAP, rawC 4⟩) w h
      (fun x _ _ => Dcomp.polar M 1 (2 * M.pi * (x : K) / (w : K)))
    have hS : (forLoop 0 w (fun x psi => forLoop 0 h (fun y (psi : Field (Dcomp K)) =>
        psi.set x y (Dcomp.polar M 1 (2 * M.pi * (x : K) / (w : K)))) psi)
        (Field.zero ⟨w, h, 1, WRAP, rawC 4⟩)).Shaped w h :=
      ⟨m1, m2, m3, m4⟩
    refine ⟨_, rfl, rfl, rfl, fillBorder_shaped _ w h hS, ?_, fillBorder_shaped _ w h (hz _),
      hz _, hz _, hz _, hz _, hz _, hz _, hz _⟩
    have e : ∀ f : Field (Dcomp K), f.Shaped w h → f.fillBorder = f.wrap := by
      intro f hf
      unfold Field.fillBorder
      rw [hf.2.2.2]
    show (Field.fillBorder _).WrapConsistent
    rw [e _ hS]
    obtain ⟨s1, s2, s3, s4⟩ := hS
    exact wrap_wrapConsistent _ (by omega) (by omega) (by omega)

/-- C17: the constructor `Wave(width, height)` fails exactly when `width < 1` or
`height < 1`; for `width, height ≥ 1` it returns a wave of these extents whose grids all
have border 1 and the Wrap boundary condition. -/
theorem wave_create_iff {K : Type} [LinearOrderedField K] (M : MathLib K)
    (rawC : Nat → Int → Dcomp K) (rawR : Nat → Int → K) (w h : Int) :
    (Wave.create M rawC rawR w h = none ↔ (w < 1 ∨ h < 1)) ∧
    (1 ≤ w → 1 ≤ h → ∃ W : Wave K, Wave.create M rawC rawR w h = some W ∧
      W.width_ = w ∧ W.height_ = h ∧
      W.psi_.Shaped w h ∧ W.potential_.Shaped w h ∧
      W.dynPotential_.Shaped w h ∧ W.tmpPotential_.Shaped w h ∧ W.tmpReal_.Shaped w h ∧
      W.tmpPsi0.Shaped w h ∧ W.tmpPsi1.Shaped w h ∧ W.tmpPsi2.Shaped w h ∧
      W.tmpPsi3.Shaped w h) := by
  obtain ⟨h1, h2⟩ := wave_create_spec M rawC rawR w h
  refine ⟨⟨?_, h1⟩, ?_⟩
  · intro hn
    by_contra hc
    obtain ⟨W, hW, _⟩ := h2 (by omega) (by omega)
    rw [hn] at hW
    cases hW
  · intro hw hh
    obtain ⟨W, a1, a2, a3, a4, _, a5, a6, a7, a8, a9, a10, a11, a12⟩ := h2 hw hh
    exact ⟨W, a1, a2, a3, a4, a5, a6, a7, a8, a9, a10, a11, a12⟩

theorem Dcomp.add_right_eq_self {K : Type} [LinearOrderedField K] (a c : Dcomp K)
    (h : a = a + c) : c = 0 := by
  have h1 : a.re = a.re + c.re := congrArg Dcomp.re h
  have h2 : a.im = a.im + c.im := congrArg Dcomp.im h
  cases c with
  | mk cr ci =>
    have e1 : cr = 0 := by simp only at h1; linarith
    have e2 : ci = 0 := by simp only at h2; linarith
    subst e1 e2
    rfl

/-- After `addBump(0, 0, c, 1)` on a wave whose `psi_` had a consistent border, the
border cell `(width, 0)` still holds the old value of the cell `(0, 0)`. -/
theorem addBump_border_stale {K : Type} [LinearOrderedField K] (M : MathLib K) (W : Wave K)
    (c : Dcomp K) (hS : W.psi_.Shaped W.width_ W.height_) (hw : 1 ≤ W.width_)
    (hh : 1 ≤ W.height_) (h0 : M.sqrt 0 = 0) (hc : Dcomp.divReal c (Wave.sarea_ M) ≠ 0)
    (hcons : W.psi_.WrapConsistent) :
    ¬ (Wave.addBump M W 0 0 c 1).psi_.WrapConsistent := by
  intro hbad
  obtain ⟨s1, s2, s3, s4⟩ := hS
  have h1 := addBump_size_one M W 0 0 c (by omega) (by omega) h0
  rw [h1] at hbad
  have e2 : (W.psi_.set 0 0 (W.psi_.get 0 0 + Dcomp.divReal c (Wave.sarea_ M))).width =
      W.width_ := s1
  have e3 : (W.psi_.set 0 0 (W.psi_.get 0 0 + Dcomp.divReal c (Wave.sarea_ M))).height =
      W.height_ := s2
  have e5 : (W.psi_.set 0 0 (W.psi_.get 0 0 + Dcomp.divReal c (Wave.sarea_ M))).border =
      1 := s3
  have e1 := hbad W.width_ 0 (by rw [e5, e2]; omega) (by rw [e5, e3]; omega)
  rw [e2, e3, Int.emod_self, Int.zero_emod] at e1
  rw [get_set _ _ _ _ _ _ (by rw [s3, s1]; omega) (by rw [s3, s1]; omega),
    get_set _ _ _ _ _ _ (by rw [s3, s1]; omega) (by rw [s3, s1]; omega)] at e1
  rw [if_neg (by omega), if_pos ⟨rfl, rfl⟩] at e1
  have e4 := hcons W.width_ 0 (by rw [s3, s1]; omega) (by rw [s3, s2]; omega)
  rw [s1, s2, Int.emod_self, Int.zero_emod] at e4
  rw [e4] at e1
  exact hc (Dcomp.add_right_eq_self _ _ e1)

/-- C18: over the reals, the wave constructed by `Wave(4, 4)` has a `psi_` whose border
is the Wrap image of its main rectangle, and after `addBump(0, 0, 1, 1)` it has not:
`addBump` writes the cell `(0, 0)` and does not refresh the border. -/
theorem addBump_leaves_border_stale (rawC : Nat → Int → Dcomp ℝ) (rawR : Nat → Int → ℝ) :
    ∃ W : Wave ℝ,
      Wave.create ⟨Real.sqrt, Real.pi, Real.cos, Real.sin⟩ rawC rawR 4 4 = some W ∧
      W.psi_.WrapConsistent ∧
      ¬ (Wave.addBump ⟨Real.sqrt, Real.pi, Real.cos, Real.sin⟩ W 0 0 ⟨1, 0⟩ 1).psi_.WrapConsistent := by
  obtain ⟨W, a1, a2, a3, a4, a5, _⟩ :=
    (wave_create_spec (⟨Real.sqrt, Real.pi, Real.cos, Real.sin⟩ : MathLib ℝ) rawC rawR 4 4).2
      (by decide) (by decide)
  refine ⟨W, a1, a5, ?_⟩
  apply addBump_border_stale _ W ⟨1, 0⟩ (by rw [a2, a3]; exact a4) (by rw [a2]; decide)
    (by rw [a3]; decide) Real.sqrt_zero _ a5
  intro h
  have h1 : (1 : ℝ) / Real.sqrt 1 = 0 := congrArg Dcomp.re h
  rw [Real.sqrt_one] at h1
  norm_num at h1

end Schroedinger

/-! ## `calcK` and the time derivative of the specification -/

namespace Schroedinger
open BoundaryCondition

theorem Dcomp.ext_re_im {K : Type} (a b : Dcomp K) (h1 : a.re = b.re) (h2 : a.im = b.im) :
    a = b := by
  cases a
  cases b
  simp only at h1 h2
  subst h1 h2
  rfl

section CalcK
variable {K : Type} [LinearOrderedField K]

theorem Dcomp.add_re (a b : Dcomp K) : (a + b).re = a.re + b.re := rfl

theorem Dcomp.add_im (a b : Dcomp K) : (a + b).im = a.im + b.im := rfl

theorem Dcomp.sub_re (a b : Dcomp K) : (a - b).re = a.re - b.re := rfl

theorem Dcomp.sub_im (a b : Dcomp K) : (a - b).im = a.im - b.im := rfl

theorem Dcomp.mul_re (a b : Dcomp K) : (a * b).re = a.re * b.re - a.im * b.im := rfl

theorem Dcomp.mul_im (a b : Dcomp K) : (a * b).im = a.re * b.im + a.im * b.re := rfl

theorem Dcomp.neg_re (a : Dcomp K) : (-a).re = -a.re := rfl

theorem Dcomp.neg_im (a : Dcomp K) : (-a).im = -a.im := rfl

/-- The Laplacian is linear: what `calcK` adds up is the Laplacian of the perturbed
field. -/
theorem laplace_linear (M : MathLib K) (W : Wave K) (psi k : Field (Dcomp K)) (factor : K)
    (x y : Int) :
    Wave.laplace M W psi x y + Dcomp.scale (Wave.laplace M W k x y) factor =
      specLaplacian (M.sqrt 2) (Wave.dr_ M W)
        (fun a b => psi.get a b + Dcomp.scale (k.get a b) factor) x y := by
  unfold Wave.laplace specLaplacian Wave.qdrdr_
  apply Dcomp.ext_re_im
  · simp only [Dcomp.add_re, Dcomp.sub_re, Dcomp.scale, Dcomp.divReal]
    ring
  · simp only [Dcomp.add_im, Dcomp.sub_im, Dcomp.scale, Dcomp.divReal]
    ring

theorem calcDPsiXY_eq (M : MathLib K) (L phi : Dcomp K) (V : K) :
    Wave.calcDPsiXY M L phi (Dcomp.ofReal V) =
      specTimeDerivative M.pi Wave.PLANCK_CONST Wave.m_ V phi L := by
  unfold Wave.calcDPsiXY specTimeDerivative
  apply Dcomp.ext_re_im
  · simp only [Dcomp.mul_re, Dcomp.mul_im, Dcomp.sub_re, Dcomp.sub_im, Dcomp.neg_re,
      Dcomp.neg_im, Dcomp.scale, Dcomp.ofReal, Dcomp.I]
    ring
  · simp only [Dcomp.mul_re, Dcomp.mul_im, Dcomp.sub_re, Dcomp.sub_im, Dcomp.neg_re,
      Dcomp.neg_im, Dcomp.scale, Dcomp.ofReal, Dcomp.I]
    ring

/-- The main-rectangle cells and the border of the grid that `calcK` returns. -/
theorem calcK_spec (M : MathLib K) (W : Wave K) (newk oldk : Field (Dcomp K)) (factor : K)
    (hS : newk.Shaped W.width_ W.height_) (hw : 1 ≤ W.width_) (hh : 1 ≤ W.height_) :
    (Wave.calcK M W newk oldk factor).Shaped W.width_ W.height_ ∧
    (Wave.calcK M W newk oldk factor).WrapConsistent ∧
    ∀ x y : Int, 0 ≤ x ∧ x < W.width_ → 0 ≤ y ∧ y < W.height_ →
      (Wave.calcK M W newk oldk factor).get x y =
        Wave.calcDPsiXY M
          (Wave.laplace M W W.psi_ x y + Dcomp.scale (Wave.laplace M W oldk x y) factor)
          (W.psi_.get x y + Dcomp.scale (oldk.get x y) factor)
          (Dcomp.ofReal (W.potential_.get x y + W.dynPotential_.get x y)) := by
  obtain ⟨s1, s2, s3, s4⟩ := hS
  obtain ⟨m1, m2, m3, m4⟩ := mapLoop_dims newk W.width_ W.height_
    (fun x y _ => Wave.calcDPsiXY M
      (Wave.laplace M W W.psi_ x y + Dcomp.scale (Wave.laplace M W oldk x y) factor)
      (W.psi_.get x y + Dcomp.scale (oldk.get x y) factor)
      (Dcomp.ofReal (W.potential_.get x y + W.dynPotential_.get x y)))
  have m5 := mapLoop_spec newk W.width_ W.height_
    (fun x y _ => Wave.calcDPsiXY M
      (Wave.laplace M W W.psi_ x y + Dcomp.scale (Wave.laplace M W oldk x y) factor)
      (W.psi_.get x y + Dcomp.scale (oldk.get x y) factor)
      (Dcomp.ofReal (W.potential_.get x y + W.dynPotential_.get x y)))
    (by omega) (by omega)
  have hSl := (⟨m1.trans s1, m2.trans s2, m3.trans s3, m4.trans s4⟩ :
    Field.Shaped _ W.width_ W.height_)
  refine ⟨fillBorder_shaped _ _ _ hSl, ?_, ?_⟩
  · have e : ∀ f : Field (Dcomp K), f.Shaped W.width_ W.height_ → f.fillBorder = f.wrap := by
      intro f hf
      unfold Field.fillBorder
      rw [hf.2.2.2]
    show (Field.fillBorder _).WrapConsistent
    rw [e _ hSl]
    obtain ⟨t1, t2, t3, t4⟩ := hSl
    exact wrap_wrapConsistent _ (by omega) (by omega) (by omega)
  · intro x y hx hy
    show (Field.fillBorder _).get x y = _
    rw [fillBorder_get_main _ W.width_ W.height_ hSl hw hh x y hx hy]
    rw [m5 x y (by omega), if_pos (by omega)]

end CalcK

/-- C19: on a wave with `width, height ≥ 1`, for a grid `newk` as constructed, any grid
`k` and any `factor`: `calcK(newk, k, factor)` sets each main-rectangle cell of `newk` to
the time derivative of the specification at the perturbed field
`φ = psi + factor * k`, with `V = potential_ + dynPotential_` and the 9-point Laplacian
of `φ`; the sum `laplace(psi) + factor * laplace(k)` the code forms is that Laplacian;
with `factor` 0 and `k = psi` the field is `psi` itself; and the border of the result is
the Wrap image of its main rectangle. -/
theorem calcK_refines {K : Type} [LinearOrderedField K] (M : MathLib K) (W : Wave K)
    (newk k : Field (Dcomp K)) (factor : K)
    (hS : newk.Shaped W.width_ W.height_) (hw : 1 ≤ W.width_) (hh : 1 ≤ W.height_) :
    (∀ x y : Int, 0 ≤ x ∧ x < W.width_ → 0 ≤ y ∧ y < W.height_ →
      (Wave.calcK M W newk k factor).get x y =
        specTimeDerivative M.pi Wave.PLANCK_CONST Wave.m_
          (W.potential_.get x y + W.dynPotential_.get x y)
          (W.psi_.get x y + Dcomp.scale (k.get x y) factor)
          (specLaplacian (M.sqrt 2) (Wave.dr_ M W)
            (fun a b => W.psi_.get a b + Dcomp.scale (k.get a b) factor) x y)) ∧
    (∀ x y : Int,
      Wave.laplace M W W.psi_ x y + Dcomp.scale (Wave.laplace M W k x y) factor =
        specLaplacian (M.sqrt 2) (Wave.dr_ M W)
          (fun a b => W.psi_.get a b + Dcomp.scale (k.get a b) factor) x y) ∧
    (∀ x y : Int, 0 ≤ x ∧ x < W.width_ → 0 ≤ y ∧ y < W.height_ →
      (Wave.calcK M W newk W.psi_ 0).get x y =
        specTimeDerivative M.pi Wave.PLANCK_CONST Wave.m_
          (W.potential_.get x y + W.dynPotential_.get x y) (W.psi_.get x y)
          (specLaplacian (M.sqrt 2) (Wave.dr_ M W) (fun a b => W.psi_.get a b) x y)) ∧
    (Wave.calcK M W newk k factor).WrapConsistent := by
  obtain ⟨_, c2, c3⟩ := calcK_spec M W newk k factor hS hw hh
  obtain ⟨_, _, d3⟩ := calcK_spec M W newk W.psi_ 0 hS hw hh
  have hz : ∀ c : Dcomp K, c + Dcomp.scale c 0 = c := by
    intro c
    apply Dcomp.ext_re_im
    · simp only [Dcomp.add_re, Dcomp.scale, mul_zero, add_zero]
    · simp only [Dcomp.add_im, Dcomp.scale, mul_zero, add_zero]
  refine ⟨?_, fun x y => laplace_linear M W W.psi_ k factor x y, ?_, c2⟩
  · intro x y hx hy
    rw [c3 x y hx hy, calcDPsiXY_eq, laplace_linear]
  · intro x y hx hy
    rw [d3 x y hx hy, calcDPsiXY_eq, laplace_linear]
    simp only [hz]

theorem calcK_refines_witness :
    (Wave.calcK (⟨fun q => q, 3, fun q => q, fun q => q⟩ : MathLib ℚ)
      (constWave 2 2 ⟨1, 2⟩) (constField 2 2 0) (constField 2 2 ⟨3, 1⟩) 5).get 0 1 =
      specTimeDerivative 3 Wave.PLANCK_CONST Wave.m_
        ((constWave 2 2 (⟨1, 2⟩ : Dcomp ℚ)).potential_.get 0 1 +
          (constWave 2 2 (⟨1, 2⟩ : Dcomp ℚ)).dynPotential_.get 0 1)
        ((constWave 2 2 (⟨1, 2⟩ : Dcomp ℚ)).psi_.get 0 1 +
          Dcomp.scale ((constField 2 2 (⟨3, 1⟩ : Dcomp ℚ)).get 0 1) 5)
        (specLaplacian 2
          (Wave.dr_ (⟨fun q => q, 3, fun q => q, fun q => q⟩ : MathLib ℚ)
            (constWave 2 2 ⟨1, 2⟩))
          (fun a b => (constWave 2 2 (⟨1, 2⟩ : Dcomp ℚ)).psi_.get a b +
            Dcomp.scale ((constField 2 2 (⟨3, 1⟩ : Dcomp ℚ)).get a b) 5) 0 1) :=
  (calcK_refines (⟨fun q => q, 3, fun q => q, fun q => q⟩ : MathLib ℚ)
    (constWave 2 2 ⟨1, 2⟩) (constField 2 2 0) (constField 2 2 ⟨3, 1⟩) 5
    ⟨rfl, rfl, rfl, rfl⟩ (by decide) (by decide)).1 0 1 (by decide) (by decide)

end Schroedinger

/-! ## The Jacobi sweep of `calcV` -/

namespace Schroedinger
open BoundaryCondition

section Jacobi
variable {K : Type} [LinearOrderedField K]

/-- Reading a frame cell after `set(const Field&)`. -/
theorem assign_get {α : Type} (f g : Field α) (w h : Int) (hf : f.Shaped w h)
    (hg : g.Shaped w h) :
    ∃ f1 : Field α, f.assign g = some f1 ∧ f1.Shaped w h ∧
      ∀ x y : Int, -1 ≤ x ∧ x < w + 1 → -1 ≤ y ∧ y < h + 1 → f1.get x y = g.get x y := by
  obtain ⟨f1, f2, f3, f4⟩ := hf
  obtain ⟨g1, g2, g3, g4⟩ := hg
  unfold Field.assign
  rw [if_pos ⟨g1.trans f1.symm, g2.trans f2.symm, g3.trans f3.symm⟩]
  refine ⟨_, rfl, ⟨f1, f2, f3, f4⟩, ?_⟩
  intro x y hx hy
  have hfw : f.framew = 2 * 1 + w := by unfold Field.framew; rw [f3, f1]
  have hgw : g.framew = 2 * 1 + w := by unfold Field.framew; rw [g3, g1]
  have hfh : f.frameh = 2 * 1 + h := by unfold Field.frameh; rw [f3, f2]
  rw [get_eq_data, get_eq_data]
  show memcpyFrom f.data 0 g.data 0 f.framesize (x + f.border + (y + f.border) * f.framew) = _
  unfold memcpyFrom Field.framesize
  have h1 : (0 : Int) * f.framew ≤ x + f.border + (y + f.border) * f.framew :=
    (le_idx (by omega) (by omega)).mpr (by omega)
  have h2 : x + f.border + (y + f.border) * f.framew < f.frameh * f.framew :=
    (idx_lt (by omega) (by omega)).mpr (by omega)
  rw [if_pos ⟨by omega, by rw [mul_comm f.framew f.frameh]; omega⟩]
  congr 1
  rw [f3, g3, hfw, hgw]
  ring

/-- One round of the body of the loop of `calcV`: it returns, and what it leaves. -/
theorem calcVBody_spec (M : MathLib K) (lap : Field K) (W : Wave K)
    (hD : W.dynPotential_.Shaped W.width_ W.height_)
    (hT : W.tmpPotential_.Shaped W.width_ W.height_)
    (hw : 1 ≤ W.width_) (hh : 1 ≤ W.height_) :
    ∃ s : Wave.SweepState K, Wave.calcVBody M lap W = some s ∧
      s.wave.width_ = W.width_ ∧ s.wave.height_ = W.height_ ∧
      s.wave.dynPotential_.Shaped W.width_ W.height_ ∧
      s.wave.tmpPotential_.Shaped W.width_ W.height_ ∧
      (∀ x y : Int, 0 ≤ x ∧ x < W.width_ → 0 ≤ y ∧ y < W.height_ →
        s.wave.dynPotential_.get x y = specJacobi (Wave.dr_ M W) W.dynPotential_ lap x y) ∧
      s.wave.dynPotential_.WrapConsistent ∧
      s.sqrerr = (∑ x in Finset.range W.width_.toNat, ∑ y in Finset.range W.height_.toNat,
        (W.dynPotential_.get x y - specJacobi (Wave.dr_ M W) W.dynPotential_ lap x y) *
        (W.dynPotential_.get x y - specJacobi (Wave.dr_ M W) W.dynPotential_ lap x y)) ∧
      s.norm = (∑ x in Finset.range W.width_.toNat, ∑ y in Finset.range W.height_.toNat,
        specJacobi (Wave.dr_ M W) W.dynPotential_ lap x y *
        specJacobi (Wave.dr_ M W) W.dynPotential_ lap x y) := by
  have key := forLoop2_induction W.width_ W.height_
    (fun x y (s : Wave.SweepState K) =>
      (⟨s.sqrerr + (s.wave.dynPotential_.get x y -
          (1 / 4) * (s.wave.dynPotential_.get (x - 1) y +
            s.wave.dynPotential_.get (x + 1) y + s.wave.dynPotential_.get x (y - 1) +
            s.wave.dynPotential_.get x (y + 1) -
            lap.get x y * Wave.dr_ M W * Wave.dr_ M W)) *
          (s.wave.dynPotential_.get x y -
          (1 / 4) * (s.wave.dynPotential_.get (x - 1) y +
            s.wave.dynPotential_.get (x + 1) y + s.wave.dynPotential_.get x (y - 1) +
            s.wave.dynPotential_.get x (y + 1) -
            lap.get x y * Wave.dr_ M W * Wave.dr_ M W)),
        s.norm + (1 / 4) * (s.wave.dynPotential_.get (x - 1) y +
            s.wave.dynPotential_.get (x + 1) y + s.wave.dynPotential_.get x (y - 1) +
            s.wave.dynPotential_.get x (y + 1) -
            lap.get x y * Wave.dr_ M W * Wave.dr_ M W) *
          ((1 / 4) * (s.wave.dynPotential_.get (x - 1) y +
            s.wave.dynPotential_.get (x + 1) y + s.wave.dynPotential_.get x (y - 1) +
            s.wave.dynPotential_.get x (y + 1) -
            lap.get x y * Wave.dr_ M W * Wave.dr_ M W)),
        { s.wave with tmpPotential_ := (s.wave.tmpPotential_.set x y
            ((1 / 4) * (s.wave.dynPotential_.get (x - 1) y +
              s.wave.dynPotential_.get (x + 1) y + s.wave.dynPotential_.get x (y - 1) +
              s.wave.dynPotential_.get x (y + 1) -
              lap.get x y * Wave.dr_ M W * Wave.dr_ M W))) }⟩ : Wave.SweepState K))
    ⟨0, 0, W⟩
    (fun i j s => s.wave.width_ = W.width_ ∧ s.wave.height_ = W.height_ ∧
      s.wave.dynPotential_ = W.dynPotential_ ∧
      s.wave.tmpPotential_.Shaped W.width_ W.height_ ∧
      (∀ x y : Int, 0 ≤ x ∧ 0 ≤ y ∧ y < W.height_ ∧ (x < i ∨ (x = i ∧ y < j)) →
        s.wave.tmpPotential_.get x y = specJacobi (Wave.dr_ M W) W.dynPotential_ lap x y) ∧
      s.sqrerr = (∑ x in Finset.range i, ∑ y in Finset.range W.height_.toNat,
          (W.dynPotential_.get x y - specJacobi (Wave.dr_ M W) W.dynPotential_ lap x y) *
          (W.dynPotential_.get x y - specJacobi (Wave.dr_ M W) W.dynPotential_ lap x y)) +
        (∑ y in Finset.range j,
          (W.dynPotential_.get i y - specJacobi (Wave.dr_ M W) W.dynPotential_ lap i y) *
          (W.dynPotential_.get i y - specJacobi (Wave.dr_ M W) W.dynPotential_ lap i y)) ∧
      s.norm = (∑ x in Finset.range i, ∑ y in Finset.range W.height_.toNat,
          specJacobi (Wave.dr_ M W) W.dynPotential_ lap x y *
          specJacobi (Wave.dr_ M W) W.dynPotential_ lap x y) +
        (∑ y in Finset.range j,
          specJacobi (Wave.dr_ M W) W.dynPotential_ lap i y *
          specJacobi (Wave.dr_ M W) W.dynPotential_ lap i y))
    ?_ ?_ ?_
  · obtain ⟨k1, k2, k3, k4, k5, k6, k7⟩ := key
    unfold Wave.calcVBody
    simp only []
    generalize hloop : forLoop 0 W.width_ _ _ = s1 at k1 k2 k3 k4 k5 k6 k7
    have hT1 := fillBorder_shaped _ _ _ k4
    obtain ⟨dyn, hd1, hd2, hd3⟩ := assign_get s1.wave.dynPotential_
      s1.wave.tmpPotential_.fillBorder W.width_ W.height_ (by rw [k3]; exact hD) hT1
    rw [hd1]
    refine ⟨_, rfl, k1, k2, hd2, hT1, ?_, ?_, ?_, ?_⟩
    · intro x y hx hy
      show dyn.get x y = _
      rw [hd3 x y (by omega) (by omega),
        fillBorder_get_main _ W.width_ W.height_ k4 hw hh x y hx hy]
      exact k5 x y (by omega)
    · intro x y hx hy
      obtain ⟨t1, t2, t3, t4⟩ := k4
      obtain ⟨u1, u2, u3, u4⟩ := hd2
      have hx' : -1 ≤ x ∧ x < W.width_ + 1 := by
        have := hx; rw [u3, u1] at this; omega
      have hy' : -1 ≤ y ∧ y < W.height_ + 1 := by
        have := hy; rw [u3, u2] at this; omega
      have e : s1.wave.tmpPotential_.fillBorder = s1.wave.tmpPotential_.wrap := by
        unfold Field.fillBorder; rw [t4]
      have hcons := wrap_wrapConsistent s1.wave.tmpPotential_ (by omega) (by omega) (by omega)
      have hm1 := Int.emod_nonneg x (show W.width_ ≠ 0 by omega)
      have hm2 := Int.emod_lt_of_pos x (show 0 < W.width_ by omega)
      have hm3 := Int.emod_nonneg y (show W.height_ ≠ 0 by omega)
      have hm4 := Int.emod_lt_of_pos y (show 0 < W.height_ by omega)
      show dyn.get x y = dyn.get (x % dyn.width) (y % dyn.height)
      rw [u1, u2, hd3 x y hx' hy', hd3 _ _ (by omega) (by omega), e]
      have := hcons x y (by show -s1.wave.tmpPotential_.border ≤ x ∧
                              x < s1.wave.tmpPotential_.width + s1.wave.tmpPotential_.border
                            rw [t3, t1]; omega)
        (by show -s1.wave.tmpPotential_.border ≤ y ∧
              y < s1.wave.tmpPotential_.height + s1.wave.tmpPotential_.border
            rw [t3, t2]; omega)
      rw [this]
      show _ = s1.wave.tmpPotential_.wrap.get (x % W.width_) (y % W.height_)
      rw [show s1.wave.tmpPotential_.wrap.width = W.width_ from t1,
        show s1.wave.tmpPotential_.wrap.height = W.height_ from t2]
    · show s1.sqrerr = _
      rw [k6]
      simp
    · show s1.norm = _
      rw [k7]
      simp
  · refine ⟨rfl, rfl, rfl, hT, ?_, by simp, by simp⟩
    intro x y hxy
    omega
  · intro i j s hi hj ⟨h1, h2, h3, h4, h5, h6, h7⟩
    have hJ : (1 / 4 : K) * (s.wave.dynPotential_.get ((i : Int) - 1) j +
        s.wave.dynPotential_.get ((i : Int) + 1) j + s.wave.dynPotential_.get i ((j : Int) - 1) +
        s.wave.dynPotential_.get i ((j : Int) + 1) -
        lap.get i j * Wave.dr_ M W * Wave.dr_ M W) =
        specJacobi (Wave.dr_ M W) W.dynPotential_ lap i j := by
      rw [h3]
      unfold specJacobi
      ring
    beta_reduce
    rw [hJ, h3]
    obtain ⟨t1, t2, t3, t4⟩ := h4
    refine ⟨h1, h2, rfl, ⟨t1, t2, t3, t4⟩, ?_, ?_, ?_⟩
    · intro x y hxy
      show (s.wave.tmpPotential_.set i j _).get x y = _
      rw [get_set _ _ _ _ _ _ (by rw [t3, t1]; omega) (by rw [t3, t1]; omega)]
      by_cases hc : x = (i : Int) ∧ y = (j : Int)
      · rw [if_pos hc, hc.1, hc.2]
      · rw [if_neg hc]
        exact h5 x y (by push_cast at hxy; omega)
    · show s.sqrerr + _ = _
      rw [h6, Finset.sum_range_succ, add_assoc]
    · show s.norm + _ = _
      rw [h7, Finset.sum_range_succ, add_assoc]
  · intro i s hi ⟨h1, h2, h3, h4, h5, h6, h7⟩
    refine ⟨h1, h2, h3, h4, ?_, ?_, ?_⟩
    · intro x y hxy
      exact h5 x y (by push_cast at hxy; omega)
    · rw [h6, Finset.sum_range_succ]
      simp
    · rw [h7, Finset.sum_range_succ]
      simp

end Jacobi
end Schroedinger

namespace Schroedinger
open BoundaryCondition

section JacobiLoop
variable {K : Type} [LinearOrderedField K]

/-- The loop of `calcV` returns after the first round whose test
`sqrerr > norm * 0.0001` fails, when the bound on the rounds allows that many. -/
theorem calcVLoop_stops (M : MathLib K) (lap : Field K) (n : Nat) :
    ∀ (W : Wave K) (s : Wave.SweepState K),
      (∀ i : Nat, i < n → ∃ si : Wave.SweepState K, sweepN M lap i W = some si ∧
        si.sqrerr > si.norm * (1 / 10000)) →
      sweepN M lap n W = some s → ¬ (s.sqrerr > s.norm * (1 / 10000)) →
      ∀ fuel : Nat, Wave.calcVLoop M lap fuel W = if n < fuel then some s.wave else none := by
  induction n with
  | zero =>
    intro W s _ hs hstop fuel
    cases fuel with
    | zero => rfl
    | succ f =>
      rw [if_pos (by omega)]
      unfold Wave.calcVLoop
      have hb : Wave.calcVBody M lap W = some s := hs
      rw [hb]
      simp only []
      rw [if_neg hstop]
  | succ n ih =>
    intro W s hgo hs hstop fuel
    obtain ⟨s0, hs0, htest⟩ := hgo 0 (by omega)
    have hb : Wave.calcVBody M lap W = some s0 := hs0
    have hshift : ∀ i : Nat, sweepN M lap (i + 1) W = sweepN M lap i s0.wave := by
      intro i
      show (match Wave.calcVBody M lap W with
        | none => none
        | some s => sweepN M lap i s.wave) = _
      rw [hb]
    cases fuel with
    | zero => rfl
    | succ f =>
      unfold Wave.calcVLoop
      rw [hb]
      simp only []
      rw [if_pos htest]
      rw [ih s0.wave s (fun i hi => by rw [← hshift]; exact hgo (i + 1) (by omega))
        (by rw [← hshift]; exact hs) hstop f]
      by_cases hc : n < f
      · rw [if_pos hc, if_pos (by omega)]
      · rw [if_neg hc, if_neg (by omega)]

/-- With a zero potential and a zero source the first round leaves `sqrerr = norm = 0`. -/
theorem calcVBody_zero (M : MathLib K) (lap : Field K) (W : Wave K)
    (hD : W.dynPotential_.Shaped W.width_ W.height_)
    (hT : W.tmpPotential_.Shaped W.width_ W.height_)
    (hw : 1 ≤ W.width_) (hh : 1 ≤ W.height_)
    (hV : ∀ x y : Int, -1 ≤ x ∧ x < W.width_ + 1 → -1 ≤ y ∧ y < W.height_ + 1 →
      W.dynPotential_.get x y = 0)
    (hL : ∀ x y : Int, 0 ≤ x ∧ x < W.width_ → 0 ≤ y ∧ y < W.height_ → lap.get x y = 0) :
    ∃ s : Wave.SweepState K, Wave.calcVBody M lap W = some s ∧ s.sqrerr = 0 ∧ s.norm = 0 ∧
      ∀ x y : Int, 0 ≤ x ∧ x < W.width_ → 0 ≤ y ∧ y < W.height_ →
        s.wave.dynPotential_.get x y = 0 := by
  obtain ⟨s, h1, _, _, _, _, h6, _, h8, h9⟩ := calcVBody_spec M lap W hD hT hw hh
  have hJ : ∀ x y : Int, 0 ≤ x ∧ x < W.width_ → 0 ≤ y ∧ y < W.height_ →
      specJacobi (Wave.dr_ M W) W.dynPotential_ lap x y = 0 := by
    intro x y hx hy
    unfold specJacobi
    rw [hV _ _ (by omega) (by omega), hV _ _ (by omega) (by omega),
      hV _ _ (by omega) (by omega), hV _ _ (by omega) (by omega), hL x y hx hy]
    ring
  refine ⟨s, h1, ?_, ?_, ?_⟩
  · rw [h8]
    apply Finset.sum_eq_zero
    intro x hx
    apply Finset.sum_eq_zero
    intro y hy
    rw [Finset.mem_range] at hx hy
    rw [hJ x y (by omega) (by omega), hV x y (by omega) (by omega)]
    ring
  · rw [h9]
    apply Finset.sum_eq_zero
    intro x hx
    apply Finset.sum_eq_zero
    intro y hy
    rw [Finset.mem_range] at hx hy
    rw [hJ x y (by omega) (by omega)]
    ring
  · intro x y hx hy
    rw [h6 x y hx hy, hJ x y hx hy]

end JacobiLoop

/-- C20: on a wave with `width, height ≥ 1` whose grids `dynPotential_` and
`tmpPotential_` are as constructed, one round of the loop of `calcV` returns; it sets
every main-rectangle cell of `dynPotential_` to the Jacobi value
`1/4 * (V(x-1,y) + V(x+1,y) + V(x,y-1) + V(x,y+1) - laplaceV(x,y) * dr²)` of the previous
iterate `V`, leaves the border the Wrap image of the main rectangle, and leaves in
`sqrerr` and `norm` the sums of the squared differences and of the squares of the new
values; the loop returns the state of the first round whose test
`sqrerr > norm * 0.0001` fails; and with `dynPotential_` zero on the frame and a zero
source that is the first round. -/
theorem calcV_is_jacobi {K : Type} [LinearOrderedField K] (M : MathLib K) (lap : Field K)
    (W : Wave K) (hD : W.dynPotential_.Shaped W.width_ W.height_)
    (hT : W.tmpPotential_.Shaped W.width_ W.height_)
    (hw : 1 ≤ W.width_) (hh : 1 ≤ W.height_) :
    (∃ s : Wave.SweepState K, Wave.calcVBody M lap W = some s ∧
      s.wave.width_ = W.width_ ∧ s.wave.height_ = W.height_ ∧
      s.wave.dynPotential_.Shaped W.width_ W.height_ ∧
      s.wave.tmpPotential_.Shaped W.width_ W.height_ ∧
      (∀ x y : Int, 0 ≤ x ∧ x < W.width_ → 0 ≤ y ∧ y < W.height_ →
        s.wave.dynPotential_.get x y = specJacobi (Wave.dr_ M W) W.dynPotential_ lap x y) ∧
      s.wave.dynPotential_.WrapConsistent ∧
      s.sqrerr = (∑ x in Finset.range W.width_.toNat, ∑ y in Finset.range W.height_.toNat,
        (W.dynPotential_.get x y - specJacobi (Wave.dr_ M W) W.dynPotential_ lap x y) *
        (W.dynPotential_.get x y - specJacobi (Wave.dr_ M W) W.dynPotential_ lap x y)) ∧
      s.norm = (∑ x in Finset.range W.width_.toNat, ∑ y in Finset.range W.height_.toNat,
        specJacobi (Wave.dr_ M W) W.dynPotential_ lap x y *
        specJacobi (Wave.dr_ M W) W.dynPotential_ lap x y)) ∧
    (∀ (n : Nat) (s : Wave.SweepState K),
      (∀ i : Nat, i < n → ∃ si : Wave.SweepState K, sweepN M lap i W = some si ∧
        si.sqrerr > si.norm * (1 / 10000)) →
      sweepN M lap n W = some s → s.sqrerr ≤ s.norm * (1 / 10000) →
      ∀ fuel : Nat, Wave.calcVLoop M lap fuel W = if n < fuel then some s.wave else none) ∧
    ((∀ x y : Int, -1 ≤ x ∧ x < W.width_ + 1 → -1 ≤ y ∧ y < W.height_ + 1 →
        W.dynPotential_.get x y = 0) →
      (∀ x y : Int, 0 ≤ x ∧ x < W.width_ → 0 ≤ y ∧ y < W.height_ → lap.get x y = 0) →
      ∃ s : Wave.SweepState K, Wave.calcVBody M lap W = some s ∧
        ∀ fuel : Nat, Wave.calcVLoop M lap (fuel + 1) W = some s.wave) := by
  refine ⟨calcVBody_spec M lap W hD hT hw hh, ?_, ?_⟩
  · intro n s hgo hs hstop fuel
    exact calcVLoop_stops M lap n W s hgo hs (not_lt.mpr hstop) fuel
  · intro hV hL
    obtain ⟨s, h1, h2, h3, _⟩ := calcVBody_zero M lap W hD hT hw hh hV hL
    refine ⟨s, h1, ?_⟩
    intro fuel
    rw [calcVLoop_stops M lap 0 W s (fun i hi => absurd hi (Nat.not_lt_zero i)) h1
      (by rw [h2, h3, zero_mul]; exact lt_irrefl 0) (fuel + 1)]
    rw [if_pos (by omega)]

theorem calcV_is_jacobi_witness :
    ∃ s : Wave.SweepState ℚ,
      Wave.calcVBody (⟨fun q => q, 3, fun q => q, fun q => q⟩ : MathLib ℚ)
        (constField 2 2 0) (constWave 2 2 0) = some s ∧
      ∀ fuel : Nat, Wave.calcVLoop (⟨fun q => q, 3, fun q => q, fun q => q⟩ : MathLib ℚ)
        (constField 2 2 0) (fuel + 1) (constWave 2 2 0) = some s.wave :=
  (calcV_is_jacobi (⟨fun q => q, 3, fun q => q, fun q => q⟩ : MathLib ℚ)
    (constField 2 2 0) (constWave 2 2 0) ⟨rfl, rfl, rfl, rfl⟩ ⟨rfl, rfl, rfl, rfl⟩
    (by decide) (by decide)).2.2 (fun _ _ _ _ => rfl) (fun _ _ _ _ => rfl)

end Schroedinger

/-! ## `draw` -/

namespace Schroedinger
open BoundaryCondition

/-- A pair of nested loops that stores `g x y` in the slot `x + w * y`: every slot of a
cell of the rectangle holds the value of its cell, every other slot is left alone. -/
theorem storeLoop_spec {γ : Type} (w h : Int) (g : Int → Int → γ) (p0 : Int → γ) :
    (∀ x y : Int, 0 ≤ x ∧ x < w → 0 ≤ y ∧ y < h →
      forLoop 0 w (fun x p => forLoop 0 h (fun y p => store p (x + w * y) (g x y)) p) p0
        (x + w * y) = g x y) ∧
    (∀ k : Int, (∀ x y : Int, 0 ≤ x ∧ x < w → 0 ≤ y ∧ y < h → k ≠ x + w * y) →
      forLoop 0 w (fun x p => forLoop 0 h (fun y p => store p (x + w * y) (g x y)) p) p0 k
        = p0 k) := by
  have key := forLoop2_induction w h (fun x y (p : Int → γ) => store p (x + w * y) (g x y)) p0
    (fun i j p =>
      (∀ x y : Int, 0 ≤ x ∧ x < w → 0 ≤ y ∧ y < h → (x < i ∨ (x = i ∧ y < j)) →
        p (x + w * y) = g x y) ∧
      (∀ k : Int, (∀ x y : Int, 0 ≤ x ∧ x < w → 0 ≤ y ∧ y < h → k ≠ x + w * y) → p k = p0 k))
    ⟨fun x y hx hy hc => by omega, fun _ _ => rfl⟩
    (by
      intro i j s hi hj ⟨h1, h2⟩
      refine ⟨?_, ?_⟩
      · intro x y hx hy hc
        by_cases hxy : x = i ∧ y = j
        · rw [hxy.1, hxy.2]
          show (if _ then _ else _) = _
          rw [if_pos rfl]
        · have hne : x + w * y ≠ (i : Int) + w * (j : Int) := by
            intro he
            have he2 : x + y * w = (i : Int) + (j : Int) * w := by
              rw [mul_comm y w, mul_comm (j : Int) w]; exact he
            exact hxy (idx_inj hx ⟨by omega, hi⟩ he2)
          show (if _ then _ else _) = _
          rw [if_neg hne]
          exact h1 x y hx hy (by omega)
      · intro k hk
        have hne : k ≠ (i : Int) + w * (j : Int) := hk i j ⟨by omega, hi⟩ ⟨by omega, hj⟩
        show (if _ then _ else _) = _
        rw [if_neg hne]
        exact h2 k hk)
    (by
      intro i s hi ⟨h1, h2⟩
      refine ⟨?_, h2⟩
      intro x y hx hy hc
      exact h1 x y hx hy (by omega))
  refine ⟨?_, key.2⟩
  intro x y hx hy
  exact key.1 x y hx hy (by omega)

/-- The slots `x + w * y` of the cells of the rectangle are those from `0` to `w * h - 1`. -/
theorem slot_range (w h x y : Int) (hx : 0 ≤ x ∧ x < w) (hy : 0 ≤ y ∧ y < h) :
    0 ≤ x + w * y ∧ x + w * y < w * h := by
  have h1 : 0 ≤ w * y := mul_nonneg (by omega) hy.1
  have h2 : w * (y + 1) ≤ w * h := mul_le_mul_of_nonneg_left (by omega) (by omega)
  rw [mul_add, mul_one] at h2
  omega

/-- Every slot from `0` to `w * h - 1` is the slot of a cell of the rectangle. -/
theorem slot_cell (w h k : Int) (hw : 0 ≤ w) (hk : 0 ≤ k ∧ k < w * h) :
    ∃ x y : Int, (0 ≤ x ∧ x < w) ∧ (0 ≤ y ∧ y < h) ∧ k = x + w * y := by
  have hw0 : w ≠ 0 := by
    intro h0
    rw [h0, zero_mul] at hk
    omega
  have hwpos : 0 < w := lt_of_le_of_ne hw (Ne.symm hw0)
  refine ⟨k % w, k / w, ⟨Int.emod_nonneg k hw0, Int.emod_lt_of_pos k hwpos⟩,
    ⟨Int.ediv_nonneg hk.1 hw, ?_⟩, (Int.emod_add_ediv k w).symm⟩
  rw [Int.ediv_lt_iff_lt_mul hwpos, mul_comm]
  exact hk.2

end Schroedinger

namespace Schroedinger
open BoundaryCondition

/-- C21 as stated fails: on a 2 x 1 wave whose dynamic potential is `1` and `-1` in the two
main cells and whose static potential is zero, `draw` hands the colour function the
scaled static potential `0` at the cell `(0, 0)`, not the scaled sum
`staticPotential + dynPotential`. -/
theorem draw_combined_counterexample :
    Wave.draw (⟨fun q => q, 3, fun q => q, fun q => q⟩ : MathLib ℚ)
        { constWave 2 1 (⟨1, 0⟩ : Dcomp ℚ) with
          dynPotential_ := (((constField 2 1 (0 : ℚ)).set 0 0 1).set 1 0 (-1)).fillBorder }
        (fun _ => 0) (fun _ p => p) (0 + 2 * 0) ≠
      (fun (_ : Dcomp ℚ) (p : ℚ) => p)
        (Dcomp.scale ((constWave 2 1 (⟨1, 0⟩ : Dcomp ℚ)).psi_.get 0 0)
          (Wave.sarea_ (⟨fun q => q, 3, fun q => q, fun q => q⟩ : MathLib ℚ)))
        (Wave.POTENTIAL_UNIT *
          ((constWave 2 1 (⟨1, 0⟩ : Dcomp ℚ)).potential_.get 0 0 +
            ((((constField 2 1 (0 : ℚ)).set 0 0 1).set 1 0 (-1)).fillBorder).get 0 0) *
          Wave.sarea_ (⟨fun q => q, 3, fun q => q, fun q => q⟩ : MathLib ℚ) * Wave.dt_) := by
  decide!

/-- C21, amended: with `width_ ≥ 0`, `draw` leaves in the slot `x + width_ * y` of every
main-rectangle cell `(x, y)` the colour `toColor(psi_(x, y) * sarea_,
POTENTIAL_UNIT * potential_(x, y) * sarea_ * dt_)` of the static potential alone; it
leaves every slot outside `0 .. width_ * height_ - 1` as it was; every slot in that
range is the slot of a main-rectangle cell and of one only; and the buffer does not
depend on `dynPotential_`.  The method is `const`: the buffer is all it returns. -/
theorem draw_static_potential {K : Type} [LinearOrderedField K] {γ : Type} (M : MathLib K)
    (W : Wave K) (pixels : Int → γ) (toColor : Dcomp K → K → γ) (hw : 0 ≤ W.width_) :
    (∀ x y : Int, 0 ≤ x ∧ x < W.width_ → 0 ≤ y ∧ y < W.height_ →
      Wave.draw M W pixels toColor (x + W.width_ * y) =
        toColor (Dcomp.scale (W.psi_.get x y) (Wave.sarea_ M))
          (Wave.POTENTIAL_UNIT * W.potential_.get x y * Wave.sarea_ M * Wave.dt_)) ∧
    (∀ k : Int, k < 0 ∨ W.width_ * W.height_ ≤ k →
      Wave.draw M W pixels toColor k = pixels k) ∧
    (∀ k : Int, 0 ≤ k ∧ k < W.width_ * W.height_ →
      ∃ x y : Int, (0 ≤ x ∧ x < W.width_) ∧ (0 ≤ y ∧ y < W.height_) ∧ k = x + W.width_ * y) ∧
    (∀ x y x1 y1 : Int, 0 ≤ x ∧ x < W.width_ → 0 ≤ y ∧ y < W.height_ →
      0 ≤ x1 ∧ x1 < W.width_ → 0 ≤ y1 ∧ y1 < W.height_ →
      x + W.width_ * y = x1 + W.width_ * y1 → x = x1 ∧ y = y1) ∧
    (∀ d : Field K, Wave.draw M { W with dynPotential_ := d } pixels toColor =
      Wave.draw M W pixels toColor) := by
  have key := storeLoop_spec W.width_ W.height_
    (fun x y => toColor (Dcomp.scale (W.psi_.get x y) (Wave.sarea_ M))
      (Wave.POTENTIAL_UNIT * W.potential_.get x y * Wave.sarea_ M * Wave.dt_)) pixels
  refine ⟨key.1, ?_, ?_, ?_, fun _ => rfl⟩
  · intro k hk
    apply key.2 k
    intro x y hx hy he
    have := slot_range W.width_ W.height_ x y hx hy
    omega
  · intro k hk
    exact slot_cell W.width_ W.height_ k hw hk
  · intro x y x1 y1 hx _ hx1 _ he
    apply idx_inj hx hx1
    rw [mul_comm y, mul_comm y1]
    exact he

theorem draw_static_potential_witness :
    Wave.draw (⟨fun q => q, 3, fun q => q, fun q => q⟩ : MathLib ℚ)
        (constWave 2 2 (⟨1, 2⟩ : Dcomp ℚ)) (fun _ => (0 : ℚ)) (fun c p => c.re + p)
        (1 + (constWave 2 2 (⟨1, 2⟩ : Dcomp ℚ)).width_ * 1) =
      (fun (c : Dcomp ℚ) (p : ℚ) => c.re + p)
        (Dcomp.scale ((constWave 2 2 (⟨1, 2⟩ : Dcomp ℚ)).psi_.get 1 1)
          (Wave.sarea_ (⟨fun q => q, 3, fun q => q, fun q => q⟩ : MathLib ℚ)))
        (Wave.POTENTIAL_UNIT * (constWave 2 2 (⟨1, 2⟩ : Dcomp ℚ)).potential_.get 1 1 *
          Wave.sarea_ (⟨fun q => q, 3, fun q => q, fun q => q⟩ : MathLib ℚ) * Wave.dt_) :=
  (draw_static_potential (⟨fun q => q, 3, fun q => q, fun q => q⟩ : MathLib ℚ)
    (constWave 2 2 (⟨1, 2⟩ : Dcomp ℚ)) (fun _ => (0 : ℚ)) (fun c p => c.re + p)
    (by decide)).1 1 1 (by decide) (by decide)

end Schroedinger

/-! ## The total of the potential under a Jacobi sweep -/

namespace Schroedinger
open BoundaryCondition

/-- A sum over one period of a sequence that repeats, read one place to the left. -/
theorem sum_range_shift_down {α : Type} [AddCommMonoid α] (f : Int → α) (m : Nat)
    (hwrap : f (-1) = f m) :
    (∑ i in Finset.range (m + 1), f ((i : Int) - 1)) = ∑ i in Finset.range (m + 1), f i := by
  rw [Finset.sum_range_succ', Finset.sum_range_succ]
  have e0 : ((0 : Nat) : Int) - 1 = -1 := by omega
  rw [e0, hwrap]
  congr 1
  apply Finset.sum_congr rfl
  intro i _
  congr 1
  omega

/-- A sum over one period of a sequence that repeats, read one place to the right. -/
theorem sum_range_shift_up {α : Type} [AddCommMonoid α] (f : Int → α) (m : Nat)
    (hwrap : f ((m : Int) + 1) = f 0) :
    (∑ i in Finset.range (m + 1), f ((i : Int) + 1)) = ∑ i in Finset.range (m + 1), f i := by
  rw [Finset.sum_range_succ, Finset.sum_range_succ' (fun i : Nat => f (i : Int))]
  rw [hwrap]
  congr 1

/-- On a grid of the integrator whose border is the Wrap image of the main rectangle, a
frame cell reads the main-rectangle cell it wraps to. -/
theorem wrapConsistent_get {α : Type} (f : Field α) (w h : Int) (hS : f.Shaped w h)
    (hWC : f.WrapConsistent) (hw : 1 ≤ w) (hh : 1 ≤ h) (x y : Int)
    (hx : -1 ≤ x ∧ x < w + 1) (hy : -1 ≤ y ∧ y < h + 1) :
    f.get x y = f.get (if x < 0 then x + w else if w ≤ x then x - w else x)
      (if y < 0 then y + h else if h ≤ y then y - h else y) := by
  obtain ⟨s1, s2, s3, _⟩ := hS
  rw [hWC x y (by rw [s3, s1]; exact hx) (by rw [s3, s2]; exact hy), s1, s2,
    emod_wrap hw hx, emod_wrap hh hy]

section JacobiSum
variable {K : Type} [LinearOrderedField K]

/-- The sum of the Jacobi values over the main rectangle: the four neighbour sums are
each the sum of the iterate, because its border wraps. -/
theorem specJacobi_sum (dr : K) (V lap : Field K) (w h : Int) (hS : V.Shaped w h)
    (hWC : V.WrapConsistent) (hw : 1 ≤ w) (hh : 1 ≤ h) :
    (∑ x in Finset.range w.toNat, ∑ y in Finset.range h.toNat, specJacobi dr V lap x y) =
      (∑ x in Finset.range w.toNat, ∑ y in Finset.range h.toNat, V.get x y) -
        dr * dr / 4 * ∑ x in Finset.range w.toNat, ∑ y in Finset.range h.toNat, lap.get x y := by
  obtain ⟨m, hm⟩ : ∃ m : Nat, w.toNat = m + 1 := ⟨w.toNat - 1, by omega⟩
  obtain ⟨n, hn⟩ : ∃ n : Nat, h.toNat = n + 1 := ⟨h.toNat - 1, by omega⟩
  have hA : (∑ x in Finset.range w.toNat, ∑ y in Finset.range h.toNat, V.get ((x : Int) - 1) y) =
      ∑ x in Finset.range w.toNat, ∑ y in Finset.range h.toNat, V.get x y := by
    rw [Finset.sum_comm, Finset.sum_comm (f := fun (x y : Nat) => V.get x y)]
    apply Finset.sum_congr rfl
    intro y hy
    rw [Finset.mem_range] at hy
    rw [hm]
    apply sum_range_shift_down (fun x => V.get x y) m
    show V.get (-1) y = V.get m y
    rw [wrapConsistent_get V w h hS hWC hw hh (-1) y (by omega) (by omega)]
    rw [if_pos (by omega), if_neg (by omega), if_neg (by omega)]
    congr 1
    omega
  have hB : (∑ x in Finset.range w.toNat, ∑ y in Finset.range h.toNat, V.get ((x : Int) + 1) y) =
      ∑ x in Finset.range w.toNat, ∑ y in Finset.range h.toNat, V.get x y := by
    rw [Finset.sum_comm, Finset.sum_comm (f := fun (x y : Nat) => V.get x y)]
    apply Finset.sum_congr rfl
    intro y hy
    rw [Finset.mem_range] at hy
    rw [hm]
    apply sum_range_shift_up (fun x => V.get x y) m
    show V.get ((m : Int) + 1) y = V.get 0 y
    rw [wrapConsistent_get V w h hS hWC hw hh ((m : Int) + 1) y (by omega) (by omega)]
    rw [if_neg (by omega), if_pos (by omega), if_neg (by omega), if_neg (by omega)]
    congr 1
    omega
  have hC : (∑ x in Finset.range w.toNat, ∑ y in Finset.range h.toNat, V.get x ((y : Int) - 1)) =
      ∑ x in Finset.range w.toNat, ∑ y in Finset.range h.toNat, V.get x y := by
    apply Finset.sum_congr rfl
    intro x hx
    rw [Finset.mem_range] at hx
    rw [hn]
    apply sum_range_shift_down (fun y => V.get x y) n
    show V.get x (-1) = V.get x n
    rw [wrapConsistent_get V w h hS hWC hw hh x (-1) (by omega) (by omega)]
    rw [if_neg (by omega), if_neg (by omega), if_pos (by omega)]
    congr 1
    omega
  have hD : (∑ x in Finset.range w.toNat, ∑ y in Finset.range h.toNat, V.get x ((y : Int) + 1)) =
      ∑ x in Finset.range w.toNat, ∑ y in Finset.range h.toNat, V.get x y := by
    apply Finset.sum_congr rfl
    intro x hx
    rw [Finset.mem_range] at hx
    rw [hn]
    apply sum_range_shift_up (fun y => V.get x y) n
    show V.get x ((n : Int) + 1) = V.get x 0
    rw [wrapConsistent_get V w h hS hWC hw hh x ((n : Int) + 1) (by omega) (by omega)]
    rw [if_neg (by omega), if_neg (by omega), if_neg (by omega), if_pos (by omega)]
    congr 1
    omega
  unfold specJacobi
  simp only [← Finset.mul_sum, Finset.sum_add_distrib, Finset.sum_sub_distrib, ← Finset.sum_mul]
  rw [hA, hB, hC, hD]
  ring

end JacobiSum

end Schroedinger

namespace Schroedinger
open BoundaryCondition

section SweepTotal
variable {K : Type} [LinearOrderedField K]

/-- One round of the loop of `calcV` on a potential whose border wraps: the sum of the new
potential is the sum of the old one minus `dr² / 4` times the sum of the source. -/
theorem calcVBody_sum (M : MathLib K) (lap : Field K) (W : Wave K)
    (hD : W.dynPotential_.Shaped W.width_ W.height_)
    (hT : W.tmpPotential_.Shaped W.width_ W.height_)
    (hWC : W.dynPotential_.WrapConsistent)
    (hL : lap.Shaped W.width_ W.height_)
    (hw : 1 ≤ W.width_) (hh : 1 ≤ W.height_) :
    ∃ s : Wave.SweepState K, Wave.calcVBody M lap W = some s ∧
      s.wave.dynPotential_.sum =
        W.dynPotential_.sum - Wave.dr_ M W * Wave.dr_ M W / 4 * lap.sum ∧
      ((∀ x y : Int, 0 ≤ x ∧ x < W.width_ → 0 ≤ y ∧ y < W.height_ →
        s.wave.dynPotential_.get x y = W.dynPotential_.get x y) →
        Wave.dr_ M W * Wave.dr_ M W / 4 * lap.sum = 0) := by
  obtain ⟨s, h1, _, _, h4, _, h6, _, _, _⟩ := calcVBody_spec M lap W hD hT hw hh
  have hsum : s.wave.dynPotential_.sum =
      W.dynPotential_.sum - Wave.dr_ M W * Wave.dr_ M W / 4 * lap.sum := by
    rw [sum_eq, sum_eq W.dynPotential_, sum_eq lap, h4.1, h4.2.1, hD.1, hD.2.1, hL.1, hL.2.1,
      ← specJacobi_sum (Wave.dr_ M W) W.dynPotential_ lap W.width_ W.height_ hD hWC hw hh]
    apply Finset.sum_congr rfl
    intro x hx
    apply Finset.sum_congr rfl
    intro y hy
    rw [Finset.mem_range] at hx hy
    exact h6 x y (by omega) (by omega)
  refine ⟨s, h1, hsum, ?_⟩
  intro hfix
  have e : s.wave.dynPotential_.sum = W.dynPotential_.sum :=
    sum_congr_main W.dynPotential_ s.wave.dynPotential_ (h4.1.trans hD.1.symm)
      (h4.2.1.trans hD.2.1.symm)
      (fun x y hx hy => hfix x y (by rw [← hD.1]; exact hx) (by rw [← hD.2.1]; exact hy))
  rw [e] at hsum
  linarith

/-- What `calcLaplaceV` leaves in the grid: `4π G m |psi(x, y)|` in every main-rectangle
cell. -/
theorem calcLaplaceV_spec (M : MathLib K) (W : Wave K) (L : Field K)
    (hS : L.Shaped W.width_ W.height_) (hw : 1 ≤ W.width_) (hh : 1 ≤ W.height_) :
    (Wave.calcLaplaceV M W L).Shaped W.width_ W.height_ ∧
    ∀ x y : Int, 0 ≤ x ∧ x < W.width_ → 0 ≤ y ∧ y < W.height_ →
      (Wave.calcLaplaceV M W L).get x y =
        4 * M.pi * Wave.GRAVITATIONAL_CONST * Wave.m_ * Dcomp.abs M (W.psi_.get x y) := by
  obtain ⟨s1, s2, s3, s4⟩ := hS
  obtain ⟨m1, m2, m3, m4⟩ := mapLoop_dims L W.width_ W.height_
    (fun x y _ => 4 * M.pi * Wave.GRAVITATIONAL_CONST * Wave.m_ * Dcomp.abs M (W.psi_.get x y))
  have m5 := mapLoop_spec L W.width_ W.height_
    (fun x y _ => 4 * M.pi * Wave.GRAVITATIONAL_CONST * Wave.m_ * Dcomp.abs M (W.psi_.get x y))
    (by omega) (by omega)
  have hSl := (⟨m1.trans s1, m2.trans s2, m3.trans s3, m4.trans s4⟩ :
    Field.Shaped _ W.width_ W.height_)
  refine ⟨fillBorder_shaped _ _ _ hSl, ?_⟩
  intro x y hx hy
  show (Field.fillBorder _).get x y = _
  rw [fillBorder_get_main _ W.width_ W.height_ hSl hw hh x y hx hy]
  rw [m5 x y (by omega), if_pos (by omega)]

/-- The source `calcLaplaceV` computes from a wavefunction that is not zero everywhere
sums to a positive number. -/
theorem calcLaplaceV_sum_pos (M : MathLib K)
    (hsqrt : ∀ s : K, 0 ≤ s → 0 ≤ M.sqrt s ∧ M.sqrt s * M.sqrt s = s) (hpi : 0 < M.pi)
    (W : Wave K) (L : Field K)
    (hS : L.Shaped W.width_ W.height_) (hw : 1 ≤ W.width_) (hh : 1 ≤ W.height_)
    (hne : ∃ x y : Int, (0 ≤ x ∧ x < W.width_) ∧ (0 ≤ y ∧ y < W.height_) ∧ W.psi_.get x y ≠ 0) :
    0 < (Wave.calcLaplaceV M W L).sum := by
  obtain ⟨hSh, hget⟩ := calcLaplaceV_spec M W L hS hw hh
  have hfac : (0 : K) < 4 * M.pi * Wave.GRAVITATIONAL_CONST * Wave.m_ := by
    unfold Wave.GRAVITATIONAL_CONST Wave.m_
    positivity
  have habs : ∀ c : Dcomp K, 0 ≤ Dcomp.abs M c := fun c => (hsqrt _ (Dcomp.norm_nonneg c)).1
  rw [sum_eq, hSh.1, hSh.2.1]
  obtain ⟨x0, y0, hx0, hy0, hc⟩ := hne
  have hterm : ∀ x y : Nat, x ∈ Finset.range W.width_.toNat → y ∈ Finset.range W.height_.toNat →
      (Wave.calcLaplaceV M W L).get x y =
        4 * M.pi * Wave.GRAVITATIONAL_CONST * Wave.m_ * Dcomp.abs M (W.psi_.get x y) := by
    intro x y hx hy
    rw [Finset.mem_range] at hx hy
    exact hget x y (by omega) (by omega)
  have hnn : ∀ x : Nat, x ∈ Finset.range W.width_.toNat →
      0 ≤ ∑ y in Finset.range W.height_.toNat, (Wave.calcLaplaceV M W L).get x y := by
    intro x hx
    apply Finset.sum_nonneg
    intro y hy
    rw [hterm x y hx hy]
    exact mul_nonneg (le_of_lt hfac) (habs _)
  have hx0m : x0.toNat ∈ Finset.range W.width_.toNat := by rw [Finset.mem_range]; omega
  have hy0m : y0.toNat ∈ Finset.range W.height_.toNat := by rw [Finset.mem_range]; omega
  have hx0c : ((x0.toNat : Nat) : Int) = x0 := Int.toNat_of_nonneg hx0.1
  have hy0c : ((y0.toNat : Nat) : Int) = y0 := Int.toNat_of_nonneg hy0.1
  have hpos : 0 < (Wave.calcLaplaceV M W L).get (x0.toNat : Nat) (y0.toNat : Nat) := by
    rw [hterm _ _ hx0m hy0m, hx0c, hy0c]
    apply mul_pos hfac
    apply sqrt_pos_of_pos M hsqrt
    rcases eq_or_lt_of_le (Dcomp.norm_nonneg (W.psi_.get x0 y0)) with h | h
    · exact absurd ((Dcomp.norm_eq_zero_iff _).mp h.symm) hc
    · exact h
  have hrow : 0 < ∑ y in Finset.range W.height_.toNat,
      (Wave.calcLaplaceV M W L).get (x0.toNat : Nat) y := by
    apply lt_of_lt_of_le hpos
    apply Finset.single_le_sum
      (f := fun y : Nat => (Wave.calcLaplaceV M W L).get (x0.toNat : Nat) y) ?_ hy0m
    intro y hy
    show 0 ≤ (Wave.calcLaplaceV M W L).get (x0.toNat : Nat) y
    rw [hterm _ y hx0m hy]
    exact mul_nonneg (le_of_lt hfac) (habs _)
  apply lt_of_lt_of_le hrow
  exact Finset.single_le_sum
    (f := fun x : Nat => ∑ y in Finset.range W.height_.toNat,
      (Wave.calcLaplaceV M W L).get x y) hnn hx0m

end SweepTotal

end Schroedinger

namespace Schroedinger
open BoundaryCondition

/-- C22: on a wave with `width, height ≥ 1` whose grids are as constructed and whose
`dynPotential_` has its border filled (the Wrap image of the main rectangle), one round of
the loop of `calcV` returns and leaves `sum(V_new) = sum(V_old) - (dr² / 4) * sum(laplaceV)`,
the sums taken over the main rectangle; with an exact square root the round can leave
every main-rectangle cell as it was only if the source sums to zero; and with `π > 0` the
source `calcLaplaceV` computes, `4π G m |psi|`, has a positive sum whenever some
main-rectangle cell of `psi_` is non-zero, so the round that `evolve` then runs changes
some main-rectangle cell. -/
theorem jacobi_sweep_total {K : Type} [LinearOrderedField K] (M : MathLib K) (lap : Field K)
    (W : Wave K) (hD : W.dynPotential_.Shaped W.width_ W.height_)
    (hT : W.tmpPotential_.Shaped W.width_ W.height_)
    (hR : W.tmpReal_.Shaped W.width_ W.height_)
    (hL : lap.Shaped W.width_ W.height_)
    (hWC : W.dynPotential_.WrapConsistent)
    (hw : 1 ≤ W.width_) (hh : 1 ≤ W.height_) :
    (∃ s : Wave.SweepState K, Wave.calcVBody M lap W = some s ∧
      s.wave.dynPotential_.sum =
        W.dynPotential_.sum - Wave.dr_ M W * Wave.dr_ M W / 4 * lap.sum ∧
      ((∀ s : K, 0 ≤ s → 0 ≤ M.sqrt s ∧ M.sqrt s * M.sqrt s = s) →
        (∀ x y : Int, 0 ≤ x ∧ x < W.width_ → 0 ≤ y ∧ y < W.height_ →
          s.wave.dynPotential_.get x y = W.dynPotential_.get x y) →
        lap.sum = 0)) ∧
    ((∀ s : K, 0 ≤ s → 0 ≤ M.sqrt s ∧ M.sqrt s * M.sqrt s = s) → 0 < M.pi →
      (∃ x y : Int, (0 ≤ x ∧ x < W.width_) ∧ (0 ≤ y ∧ y < W.height_) ∧ W.psi_.get x y ≠ 0) →
      0 < (Wave.calcLaplaceV M W W.tmpReal_).sum ∧
      ∃ s : Wave.SweepState K,
        Wave.calcVBody M (Wave.calcLaplaceV M W W.tmpReal_)
          { W with tmpReal_ := Wave.calcLaplaceV M W W.tmpReal_ } = some s ∧
        ¬ ∀ x y : Int, 0 ≤ x ∧ x < W.width_ → 0 ≤ y ∧ y < W.height_ →
          s.wave.dynPotential_.get x y = W.dynPotential_.get x y) := by
  refine ⟨?_, ?_⟩
  · obtain ⟨s, h1, h2, h3⟩ := calcVBody_sum M lap W hD hT hWC hL hw hh
    refine ⟨s, h1, h2, ?_⟩
    intro hsqrt hfix
    have hdr := dr_pos M hsqrt W hw hh
    have hpos : 0 < Wave.dr_ M W * Wave.dr_ M W / 4 := by positivity
    rcases mul_eq_zero.mp (h3 hfix) with h | h
    · exact absurd h (ne_of_gt hpos)
    · exact h
  · intro hsqrt hpi hne
    have hpos := calcLaplaceV_sum_pos M hsqrt hpi W W.tmpReal_ hR hw hh hne
    refine ⟨hpos, ?_⟩
    obtain ⟨s, h1, _, h3⟩ := calcVBody_sum M (Wave.calcLaplaceV M W W.tmpReal_)
      { W with tmpReal_ := Wave.calcLaplaceV M W W.tmpReal_ } hD hT hWC
      (calcLaplaceV_spec M W W.tmpReal_ hR hw hh).1 hw hh
    refine ⟨s, h1, ?_⟩
    intro hfix
    have hdr := dr_pos M hsqrt W hw hh
    have hpos2 : 0 < Wave.dr_ M W * Wave.dr_ M W / 4 := by positivity
    rcases mul_eq_zero.mp (h3 hfix) with h | h
    · exact absurd h (ne_of_gt hpos2)
    · exact absurd h (ne_of_gt hpos)

theorem jacobi_sweep_total_witness :
    ∃ s : Wave.SweepState ℝ,
      Wave.calcVBody ⟨Real.sqrt, Real.pi, Real.cos, Real.sin⟩
        (Wave.calcLaplaceV ⟨Real.sqrt, Real.pi, Real.cos, Real.sin⟩
          (constWave 2 2 (⟨1, 0⟩ : Dcomp ℝ)) (constWave 2 2 (⟨1, 0⟩ : Dcomp ℝ)).tmpReal_)
        { constWave 2 2 (⟨1, 0⟩ : Dcomp ℝ) with
          tmpReal_ := Wave.calcLaplaceV ⟨Real.sqrt, Real.pi, Real.cos, Real.sin⟩
            (constWave 2 2 (⟨1, 0⟩ : Dcomp ℝ)) (constWave 2 2 (⟨1, 0⟩ : Dcomp ℝ)).tmpReal_ }
        = some s ∧
      ¬ ∀ x y : Int, 0 ≤ x ∧ x < (constWave 2 2 (⟨1, 0⟩ : Dcomp ℝ)).width_ →
        0 ≤ y ∧ y < (constWave 2 2 (⟨1, 0⟩ : Dcomp ℝ)).height_ →
        s.wave.dynPotential_.get x y = (constWave 2 2 (⟨1, 0⟩ : Dcomp ℝ)).dynPotential_.get x y :=
  ((jacobi_sweep_total ⟨Real.sqrt, Real.pi, Real.cos, Real.sin⟩ (constField 2 2 1)
    (constWave 2 2 (⟨1, 0⟩ : Dcomp ℝ)) ⟨rfl, rfl, rfl, rfl⟩ ⟨rfl, rfl, rfl, rfl⟩
    ⟨rfl, rfl, rfl, rfl⟩ ⟨rfl, rfl, rfl, rfl⟩ (fun _ _ _ _ => rfl) (by decide) (by decide)).2
    (fun s hs => ⟨Real.sqrt_nonneg s, Real.mul_self_sqrt hs⟩) Real.pi_pos
    ⟨0, 0, by decide, by decide,
      fun h => one_ne_zero (congrArg Dcomp.re h : (1 : ℝ) = 0)⟩).2

end Schroedinger

/-! ## The Poisson relaxation on a uniform source -/

namespace Schroedinger
open BoundaryCondition

section Uniform
variable {K : Type} [LinearOrderedField K]

/-- A sum of a constant over the main rectangle. -/
theorem sum_const_rect (w h : Int) (hw : 0 ≤ w) (hh : 0 ≤ h) (c : K) :
    (∑ _x in Finset.range w.toNat, ∑ _y in Finset.range h.toNat, c) = ((w * h : Int) : K) * c := by
  rw [Finset.sum_const, Finset.sum_const, Finset.card_range, Finset.card_range,
    nsmul_eq_mul, nsmul_eq_mul]
  have e1 : ((w.toNat : Nat) : K) = ((w : Int) : K) := by
    rw [← Int.cast_natCast, Int.toNat_of_nonneg hw]
  have e2 : ((h.toNat : Nat) : K) = ((h : Int) : K) := by
    rw [← Int.cast_natCast, Int.toNat_of_nonneg hh]
  rw [e1, e2]
  push_cast
  ring

/-- One round of the loop of `calcV` on a potential that is `v` in every cell of the frame
and a source that is `L` in every main-rectangle cell: the new potential is
`v - L dr² / 4` in every cell of the frame. -/
theorem calcVBody_uniform (M : MathLib K) (lap : Field K) (W : Wave K) (w h : Int) (d v L : K)
    (hW : W.width_ = w) (hH : W.height_ = h) (hd : Wave.dr_ M W = d)
    (hD : W.dynPotential_.Shaped w h) (hT : W.tmpPotential_.Shaped w h)
    (hw : 1 ≤ w) (hh : 1 ≤ h)
    (hV : ∀ x y : Int, -1 ≤ x ∧ x < w + 1 → -1 ≤ y ∧ y < h + 1 → W.dynPotential_.get x y = v)
    (hL : ∀ x y : Int, 0 ≤ x ∧ x < w → 0 ≤ y ∧ y < h → lap.get x y = L) :
    ∃ s : Wave.SweepState K, Wave.calcVBody M lap W = some s ∧
      s.wave.width_ = w ∧ s.wave.height_ = h ∧ Wave.dr_ M s.wave = d ∧
      s.wave.dynPotential_.Shaped w h ∧ s.wave.tmpPotential_.Shaped w h ∧
      (∀ x y : Int, -1 ≤ x ∧ x < w + 1 → -1 ≤ y ∧ y < h + 1 →
        s.wave.dynPotential_.get x y = v - L * (d * d) / 4) ∧
      s.sqrerr = ((w * h : Int) : K) * ((L * (d * d) / 4) * (L * (d * d) / 4)) ∧
      s.norm = ((w * h : Int) : K) * ((v - L * (d * d) / 4) * (v - L * (d * d) / 4)) := by
  subst hW hH hd
  obtain ⟨s, h1, h2, h3, h4, h5, h6, h7, h8, h9⟩ := calcVBody_spec M lap W hD hT hw hh
  have hJ : ∀ x y : Int, 0 ≤ x ∧ x < W.width_ → 0 ≤ y ∧ y < W.height_ →
      specJacobi (Wave.dr_ M W) W.dynPotential_ lap x y =
        v - L * (Wave.dr_ M W * Wave.dr_ M W) / 4 := by
    intro x y hx hy
    unfold specJacobi
    rw [hV _ _ (by omega) (by omega), hV _ _ (by omega) (by omega),
      hV _ _ (by omega) (by omega), hV _ _ (by omega) (by omega), hL x y hx hy]
    ring
  refine ⟨s, h1, h2, h3, ?_, h4, h5, ?_, ?_, ?_⟩
  · unfold Wave.dr_
    rw [h2, h3]
  · intro x y hx hy
    rw [wrapConsistent_get _ _ _ h4 h7 hw hh x y hx hy]
    rw [h6 _ _ (by split_ifs <;> omega) (by split_ifs <;> omega)]
    exact hJ _ _ (by split_ifs <;> omega) (by split_ifs <;> omega)
  · rw [h8, ← sum_const_rect W.width_ W.height_ (by omega) (by omega)]
    apply Finset.sum_congr rfl
    intro x hx
    apply Finset.sum_congr rfl
    intro y hy
    rw [Finset.mem_range] at hx hy
    rw [hJ x y (by omega) (by omega), hV x y (by omega) (by omega)]
    ring
  · rw [h9, ← sum_const_rect W.width_ W.height_ (by omega) (by omega)]
    apply Finset.sum_congr rfl
    intro x hx
    apply Finset.sum_congr rfl
    intro y hy
    rw [Finset.mem_range] at hx hy
    rw [hJ x y (by omega) (by omega)]

/-- The state after `n + 1` rounds on a uniform potential and a uniform source. -/
theorem sweepN_uniform (M : MathLib K) (lap : Field K) (w h : Int) (d L : K)
    (hw : 1 ≤ w) (hh : 1 ≤ h)
    (hL : ∀ x y : Int, 0 ≤ x ∧ x < w → 0 ≤ y ∧ y < h → lap.get x y = L) (n : Nat) :
    ∀ (W : Wave K) (v : K), W.width_ = w → W.height_ = h → Wave.dr_ M W = d →
      W.dynPotential_.Shaped w h → W.tmpPotential_.Shaped w h →
      (∀ x y : Int, -1 ≤ x ∧ x < w + 1 → -1 ≤ y ∧ y < h + 1 → W.dynPotential_.get x y = v) →
      ∃ s : Wave.SweepState K, sweepN M lap n W = some s ∧
        s.wave.width_ = w ∧ s.wave.height_ = h ∧
        s.wave.dynPotential_.Shaped w h ∧
        (∀ x y : Int, -1 ≤ x ∧ x < w + 1 → -1 ≤ y ∧ y < h + 1 →
          s.wave.dynPotential_.get x y = v - ((n : K) + 1) * (L * (d * d) / 4)) ∧
        s.sqrerr = ((w * h : Int) : K) * ((L * (d * d) / 4) * (L * (d * d) / 4)) ∧
        s.norm = ((w * h : Int) : K) * ((v - ((n : K) + 1) * (L * (d * d) / 4)) *
          (v - ((n : K) + 1) * (L * (d * d) / 4))) := by
  induction n with
  | zero =>
    intro W v hW hH hd hD hT hV
    obtain ⟨s, h1, h2, h3, _, h5, _, h7, h8, h9⟩ :=
      calcVBody_uniform M lap W w h d v L hW hH hd hD hT hw hh hV hL
    refine ⟨s, h1, h2, h3, h5, ?_, h8, ?_⟩
    · intro x y hx hy
      rw [h7 x y hx hy]
      push_cast
      ring
    · rw [h9]
      push_cast
      ring
  | succ n ih =>
    intro W v hW hH hd hD hT hV
    obtain ⟨s0, h1, h2, h3, h4, h5, h6, h7, _, _⟩ :=
      calcVBody_uniform M lap W w h d v L hW hH hd hD hT hw hh hV hL
    obtain ⟨s, g1, g2, g3, g4, g5, g6, g7⟩ :=
      ih s0.wave (v - L * (d * d) / 4) h2 h3 h4 h5 h6 h7
    have hshift : sweepN M lap (n + 1) W = sweepN M lap n s0.wave := by
      show (match Wave.calcVBody M lap W with
        | none => none
        | some s => sweepN M lap n s.wave) = _
      rw [h1]
    refine ⟨s, hshift.trans g1, g2, g3, g4, ?_, g6, ?_⟩
    · intro x y hx hy
      rw [g5 x y hx hy]
      push_cast
      ring
    · rw [g7]
      push_cast
      ring

/-- The loop test after a round on a zero potential: with `P > 0` the error sum and
`P (n + 1)²` the norm sum, the test `sqrerr > norm * 0.0001` holds exactly when
`n + 1 < 100`. -/
theorem uniform_test (P : K) (hP : 0 < P) (n : Nat) :
    P > P * (((n : K) + 1) * ((n : K) + 1)) * (1 / 10000) ↔ n + 1 < 100 := by
  constructor
  · intro ht
    by_contra hge
    have h1 : (100 : K) ≤ (n : K) + 1 := by
      have : (100 : Nat) ≤ n + 1 := by omega
      exact_mod_cast this
    have h2 : (10000 : K) ≤ ((n : K) + 1) * ((n : K) + 1) := by nlinarith
    have h3 : P * 10000 ≤ P * (((n : K) + 1) * ((n : K) + 1)) :=
      mul_le_mul_of_nonneg_left h2 (le_of_lt hP)
    linarith
  · intro hlt
    have h1 : (n : K) + 1 ≤ 99 := by
      have : n + 1 ≤ 99 := by omega
      exact_mod_cast this
    have h0 : (0 : K) ≤ (n : K) := Nat.cast_nonneg n
    have h2 : ((n : K) + 1) * ((n : K) + 1) ≤ 9801 := by nlinarith
    have h3 : P * (((n : K) + 1) * ((n : K) + 1)) ≤ P * 9801 :=
      mul_le_mul_of_nonneg_left h2 (le_of_lt hP)
    show P * (((n : K) + 1) * ((n : K) + 1)) * (1 / 10000) < P
    linarith

end Uniform

end Schroedinger

namespace Schroedinger
open BoundaryCondition

section UniformRun
variable {K : Type} [LinearOrderedField K]

/-- In exact arithmetic, the Poisson relaxation on a zero potential and a uniform non-zero
source `L`: the state after `n + 1` rounds is uniform with the value
`-(n + 1) L dr² / 4`, the loop test holds after it exactly when `n + 1 < 100`, and
`calcV` returns exactly when the bound allows 100 rounds, with `dynPotential_` zero in
every cell of the frame. -/
theorem calcV_uniform (M : MathLib K)
    (hsqrt : ∀ s : K, 0 ≤ s → 0 ≤ M.sqrt s ∧ M.sqrt s * M.sqrt s = s)
    (lap : Field K) (W : Wave K) (L : K)
    (hD : W.dynPotential_.Shaped W.width_ W.height_)
    (hT : W.tmpPotential_.Shaped W.width_ W.height_)
    (hw : 1 ≤ W.width_) (hh : 1 ≤ W.height_)
    (hV : ∀ x y : Int, -1 ≤ x ∧ x < W.width_ + 1 → -1 ≤ y ∧ y < W.height_ + 1 →
      W.dynPotential_.get x y = 0)
    (hL : ∀ x y : Int, 0 ≤ x ∧ x < W.width_ → 0 ≤ y ∧ y < W.height_ → lap.get x y = L)
    (hL0 : L ≠ 0) :
    (∀ n : Nat, ∃ s : Wave.SweepState K, sweepN M lap n W = some s ∧
      (∀ x y : Int, -1 ≤ x ∧ x < W.width_ + 1 → -1 ≤ y ∧ y < W.height_ + 1 →
        s.wave.dynPotential_.get x y =
          -((n : K) + 1) * L * (Wave.dr_ M W * Wave.dr_ M W) / 4) ∧
      (s.sqrerr > s.norm * (1 / 10000) ↔ n + 1 < 100)) ∧
    (∀ fuel : Nat, fuel < 100 → Wave.calcV M fuel W lap = none) ∧
    (∀ fuel : Nat, 100 ≤ fuel → ∃ W2 : Wave K, Wave.calcV M fuel W lap = some W2 ∧
      ∀ x y : Int, -1 ≤ x ∧ x < W.width_ + 1 → -1 ≤ y ∧ y < W.height_ + 1 →
        W2.dynPotential_.get x y = 0) := by
  have hd := dr_pos M hsqrt W hw hh
  have hc : L * (Wave.dr_ M W * Wave.dr_ M W) / 4 ≠ 0 := by
    have : Wave.dr_ M W ≠ 0 := ne_of_gt hd
    positivity
  have hN : (0 : K) < ((W.width_ * W.height_ : Int) : K) := by
    have h1 : (0 : Int) < W.width_ * W.height_ := mul_pos (by omega) (by omega)
    exact_mod_cast h1
  have hP : 0 < ((W.width_ * W.height_ : Int) : K) *
      ((L * (Wave.dr_ M W * Wave.dr_ M W) / 4) * (L * (Wave.dr_ M W * Wave.dr_ M W) / 4)) :=
    mul_pos hN (mul_self_pos.mpr hc)
  have hS := fun n : Nat => sweepN_uniform M lap W.width_ W.height_ (Wave.dr_ M W) L hw hh hL n
    W 0 rfl rfl rfl hD hT hV
  have part1 : ∀ n : Nat, ∃ s : Wave.SweepState K, sweepN M lap n W = some s ∧
      (∀ x y : Int, -1 ≤ x ∧ x < W.width_ + 1 → -1 ≤ y ∧ y < W.height_ + 1 →
        s.wave.dynPotential_.get x y =
          -((n : K) + 1) * L * (Wave.dr_ M W * Wave.dr_ M W) / 4) ∧
      (s.sqrerr > s.norm * (1 / 10000) ↔ n + 1 < 100) := by
    intro n
    obtain ⟨s, g1, _, _, _, g5, g6, g7⟩ := hS n
    refine ⟨s, g1, ?_, ?_⟩
    · intro x y hx hy
      rw [g5 x y hx hy]
      ring
    · rw [← uniform_test _ hP n, g6, g7]
      have e : ((W.width_ * W.height_ : Int) : K) *
          ((0 - ((n : K) + 1) * (L * (Wave.dr_ M W * Wave.dr_ M W) / 4)) *
            (0 - ((n : K) + 1) * (L * (Wave.dr_ M W * Wave.dr_ M W) / 4))) =
          ((W.width_ * W.height_ : Int) : K) *
            ((L * (Wave.dr_ M W * Wave.dr_ M W) / 4) * (L * (Wave.dr_ M W * Wave.dr_ M W) / 4)) *
            (((n : K) + 1) * ((n : K) + 1)) := by ring
      rw [e]
  obtain ⟨s, g1, g2, g3, g4, g5, _, _⟩ := hS 99
  obtain ⟨s1, k1, _, k3⟩ := part1 99
  have hss : s1 = s := Option.some.inj (k1.symm.trans g1)
  rw [hss] at k3
  have hloop := calcVLoop_stops M lap 99 W s
    (fun i hi => by
      obtain ⟨si, a1, _, a3⟩ := part1 i
      exact ⟨si, a1, a3.mpr (by omega)⟩)
    g1 (fun ht => absurd (k3.mp ht) (by omega))
  refine ⟨part1, ?_, ?_⟩
  · intro fuel hf
    unfold Wave.calcV
    rw [hloop fuel, if_neg (by omega)]
  · intro fuel hf
    unfold Wave.calcV
    rw [hloop fuel, if_pos (by omega)]
    refine ⟨_, rfl, ?_⟩
    intro x y hx hy
    show (s.wave.dynPotential_.add
      (-s.wave.dynPotential_.sum / ((s.wave.width_ * s.wave.height_ : Int) : K))).get x y = 0
    obtain ⟨a1, a2, a3, _⟩ := add_spec s.wave.dynPotential_ W.width_ W.height_
      (-s.wave.dynPotential_.sum / ((s.wave.width_ * s.wave.height_ : Int) : K)) g4 hw hh
    have hsum : s.wave.dynPotential_.sum = ((W.width_ * W.height_ : Int) : K) *
        (0 - (((99 : Nat) : K) + 1) * (L * (Wave.dr_ M W * Wave.dr_ M W) / 4)) := by
      rw [sum_eq, g4.1, g4.2.1, ← sum_const_rect W.width_ W.height_ (by omega) (by omega)]
      apply Finset.sum_congr rfl
      intro x hx
      apply Finset.sum_congr rfl
      intro y hy
      rw [Finset.mem_range] at hx hy
      exact g5 x y (by omega) (by omega)
    rw [wrapConsistent_get _ _ _ a1 a3 hw hh x y hx hy]
    rw [a2 _ _ (by split_ifs <;> omega) (by split_ifs <;> omega)]
    rw [g5 _ _ (by split_ifs <;> omega) (by split_ifs <;> omega), hsum, g2, g3]
    field_simp
    ring

/-- On a zero potential and a uniform source the two sides of the loop test are equal
after round 100: `sqrerr = norm * 0.0001` exactly, so that the test `sqrerr > norm * 0.0001`
fails there by a tie. -/
theorem calcV_uniform_tie (M : MathLib K) (lap : Field K) (W : Wave K) (L : K)
    (hD : W.dynPotential_.Shaped W.width_ W.height_)
    (hT : W.tmpPotential_.Shaped W.width_ W.height_)
    (hw : 1 ≤ W.width_) (hh : 1 ≤ W.height_)
    (hV : ∀ x y : Int, -1 ≤ x ∧ x < W.width_ + 1 → -1 ≤ y ∧ y < W.height_ + 1 →
      W.dynPotential_.get x y = 0)
    (hL : ∀ x y : Int, 0 ≤ x ∧ x < W.width_ → 0 ≤ y ∧ y < W.height_ → lap.get x y = L) :
    ∃ s : Wave.SweepState K, sweepN M lap 99 W = some s ∧
      s.sqrerr = s.norm * (1 / 10000) := by
  obtain ⟨s, g1, _, _, _, _, g6, g7⟩ :=
    sweepN_uniform M lap W.width_ W.height_ (Wave.dr_ M W) L hw hh hL 99 W 0 rfl rfl rfl hD hT hV
  refine ⟨s, g1, ?_⟩
  rw [g6, g7]
  push_cast
  ring

end UniformRun

end Schroedinger

namespace Schroedinger
open BoundaryCondition

section Initial
variable {K : Type} [LinearOrderedField K]

/-- The state the constructor `Wave(width, height)` leaves: `dynPotential_` is zero in
every cell and `psi_` is `polar(1, 2π x / width)` in every main-rectangle cell. -/
theorem wave_create_initial (M : MathLib K) (rawC : Nat → Int → Dcomp K)
    (rawR : Nat → Int → K) (w h : Int) (hw : 1 ≤ w) (hh : 1 ≤ h) :
    ∃ W : Wave K, Wave.create M rawC rawR w h = some W ∧ W.width_ = w ∧ W.height_ = h ∧
      W.dynPotential_.Shaped w h ∧ W.tmpPotential_.Shaped w h ∧ W.tmpReal_.Shaped w h ∧
      (∀ x y : Int, -1 ≤ x ∧ x < w + 1 → -1 ≤ y ∧ y < h + 1 →
        W.dynPotential_.get x y = 0) ∧
      (∀ x y : Int, 0 ≤ x ∧ x < w → 0 ≤ y ∧ y < h →
        W.psi_.get x y = Dcomp.polar M 1 (2 * M.pi * (x : K) / (w : K))) := by
  unfold Wave.create
  simp only [field_create_wrap, if_pos (show 1 ≤ w ∧ 1 ≤ h from ⟨hw, hh⟩)]
  have hz : ∀ {α : Type} [Zero α] (raw : Int → α),
      (Field.zero ⟨w, h, 1, WRAP, raw⟩).Shaped w h :=
    fun {_} _ _ => ⟨rfl, rfl, rfl, rfl⟩
  obtain ⟨m1, m2, m3, m4⟩ := mapLoop_dims
    (Field.zero ⟨w, h, 1, WRAP, rawC 4⟩) w h
    (fun x _ _ => Dcomp.polar M 1 (2 * M.pi * (x : K) / (w : K)))
  have m5 := mapLoop_spec
    (Field.zero ⟨w, h, 1, WRAP, rawC 4⟩) w h
    (fun x _ _ => Dcomp.polar M 1 (2 * M.pi * (x : K) / (w : K)))
    (show (0 : Int) ≤ 1 by omega) (show w ≤ w + 1 by omega)
  have hS : (forLoop 0 w (fun x psi => forLoop 0 h (fun y (psi : Field (Dcomp K)) =>
      psi.set x y (Dcomp.polar M 1 (2 * M.pi * (x : K) / (w : K)))) psi)
      (Field.zero ⟨w, h, 1, WRAP, rawC 4⟩)).Shaped w h :=
    ⟨m1, m2, m3, m4⟩
  refine ⟨_, rfl, rfl, rfl, hz _, hz _, hz _,
    fun x y hx hy => zero_get (⟨w, h, 1, WRAP, rawR 1⟩ : Field K) x y
      (by show -1 ≤ x ∧ x < w + 1; exact hx) (by show -1 ≤ y ∧ y < h + 1; exact hy), ?_⟩
  intro x y hx hy
  show (Field.fillBorder _).get x y = _
  rw [fillBorder_get_main _ w h hS hw hh x y hx hy]
  have e := m5 x y (show -1 ≤ x ∧ x < w + 1 by omega)
  rw [if_pos (by omega)] at e
  exact e

/-- With an exact square root and `cos² + sin² = 1`, `|polar(1, θ)| = 1`. -/
theorem abs_polar_one (M : MathLib K)
    (hsqrt : ∀ s : K, 0 ≤ s → 0 ≤ M.sqrt s ∧ M.sqrt s * M.sqrt s = s)
    (htrig : ∀ t : K, M.cos t * M.cos t + M.sin t * M.sin t = 1) (theta : K) :
    Dcomp.abs M (Dcomp.polar M 1 theta) = 1 := by
  have e : Dcomp.norm (Dcomp.polar M 1 theta) = 1 := by
    show 1 * M.cos theta * (1 * M.cos theta) + 1 * M.sin theta * (1 * M.sin theta) = 1
    rw [one_mul, one_mul]
    exact htrig theta
  show M.sqrt (Dcomp.norm (Dcomp.polar M 1 theta)) = 1
  rw [e]
  obtain ⟨h1, h2⟩ := hsqrt 1 zero_le_one
  have h3 : (M.sqrt 1 - 1) * (M.sqrt 1 + 1) = 0 := by ring_nf; ring_nf at h2; linarith
  rcases mul_eq_zero.mp h3 with h | h
  · linarith
  · linarith

/-- In exact arithmetic: the first Poisson relaxation of `evolve` on the wave the
constructor returns has a uniform source, and `calcV` returns exactly when the bound
allows 100 rounds, with `dynPotential_` zero in every cell of the frame. -/
theorem calcV_initial (M : MathLib K)
    (hsqrt : ∀ s : K, 0 ≤ s → 0 ≤ M.sqrt s ∧ M.sqrt s * M.sqrt s = s)
    (htrig : ∀ t : K, M.cos t * M.cos t + M.sin t * M.sin t = 1) (hpi : 0 < M.pi)
    (rawC : Nat → Int → Dcomp K) (rawR : Nat → Int → K)
    (w h : Int) (hw : 1 ≤ w) (hh : 1 ≤ h) :
    ∃ W0 : Wave K, Wave.create M rawC rawR w h = some W0 ∧
      (∀ fuel : Nat, fuel < 100 →
        Wave.calcV M fuel { W0 with tmpReal_ := Wave.calcLaplaceV M W0 W0.tmpReal_ }
          (Wave.calcLaplaceV M W0 W0.tmpReal_) = none) ∧
      (∀ fuel : Nat, 100 ≤ fuel → ∃ W2 : Wave K,
        Wave.calcV M fuel { W0 with tmpReal_ := Wave.calcLaplaceV M W0 W0.tmpReal_ }
          (Wave.calcLaplaceV M W0 W0.tmpReal_) = some W2 ∧
        ∀ x y : Int, -1 ≤ x ∧ x < w + 1 → -1 ≤ y ∧ y < h + 1 →
          W2.dynPotential_.get x y = 0) := by
  obtain ⟨W0, c1, c2, c3, c4, c5, c6, c7, c8⟩ := wave_create_initial M rawC rawR w h hw hh
  subst c2 c3
  have hfac : (0 : K) < 4 * M.pi * Wave.GRAVITATIONAL_CONST * Wave.m_ := by
    unfold Wave.GRAVITATIONAL_CONST Wave.m_
    positivity
  obtain ⟨_, hget⟩ := calcLaplaceV_spec M W0 W0.tmpReal_ c6 hw hh
  obtain ⟨_, r2, r3⟩ := calcV_uniform M hsqrt (Wave.calcLaplaceV M W0 W0.tmpReal_)
    { W0 with tmpReal_ := Wave.calcLaplaceV M W0 W0.tmpReal_ }
    (4 * M.pi * Wave.GRAVITATIONAL_CONST * Wave.m_) c4 c5 hw hh
    (fun x y hx hy => c7 x y hx hy)
    (fun x y hx hy => by
      rw [hget x y hx hy, c8 x y hx hy, abs_polar_one M hsqrt htrig, mul_one])
    (ne_of_gt hfac)
  exact ⟨W0, c1, r2, r3⟩

end Initial

end Schroedinger

/-! ## `normalize()` after `addBump` -/

namespace Schroedinger
open BoundaryCondition

/-- The constructor returns on the 1 x 1 grid. -/
theorem create_one_isSome :
    (Wave.create (⟨fun q => q, 3, fun _ => 1, fun _ => 0⟩ : MathLib ℚ)
      (fun _ _ => ⟨7, 7⟩) (fun _ _ => 7) 1 1).isSome = true := by decide!

/-- C5 as stated fails: on the 1 x 1 wave (raw buffers full of 7), after
`addBump(0, 0, dcomp(-1, 0), 1)` the only main-rectangle cell of `psi_` is 0 while the
border cell `(-1, 0)` still is 1; `normalize()` then finds the integral 0, rescales
nothing and refreshes the border, which changes the cell `(-1, 0)` from 1 to 0.  The
run is over the rationals: the square root is taken at 0 and 1 only, where it is the
identity, and the constructor takes the cosine and the sine at the angle 0 only, where
they are 1 and 0. -/
theorem normalize_stale_border_counterexample :
    ∃ W0 : Wave ℚ,
      Wave.create (⟨fun q => q, 3, fun _ => 1, fun _ => 0⟩ : MathLib ℚ)
        (fun _ _ => ⟨7, 7⟩) (fun _ _ => 7) 1 1 = some W0 ∧
      (Wave.addBump (⟨fun q => q, 3, fun _ => 1, fun _ => 0⟩ : MathLib ℚ) W0 0 0 ⟨-1, 0⟩ 1).psi_.get
        0 0 = 0 ∧
      (Wave.addBump (⟨fun q => q, 3, fun _ => 1, fun _ => 0⟩ : MathLib ℚ) W0 0 0 ⟨-1, 0⟩ 1).psi_.get
        (-1) 0 = ⟨1, 0⟩ ∧
      (Wave.normalize (⟨fun q => q, 3, fun _ => 1, fun _ => 0⟩ : MathLib ℚ)
        (Wave.addBump (⟨fun q => q, 3, fun _ => 1, fun _ => 0⟩ : MathLib ℚ) W0 0 0 ⟨-1, 0⟩ 1)).psi_.get
        (-1) 0 = 0 :=
  ⟨(Wave.create (⟨fun q => q, 3, fun _ => 1, fun _ => 0⟩ : MathLib ℚ)
      (fun _ _ => ⟨7, 7⟩) (fun _ _ => 7) 1 1).get create_one_isSome,
    (Option.some_get create_one_isSome).symm,
    Dcomp.ext_re_im _ _ (by decide!) (by decide!),
    Dcomp.ext_re_im _ _ (by decide!) (by decide!),
    Dcomp.ext_re_im _ _ (by decide!) (by decide!)⟩

end Schroedinger

/-! ## A run of `calcV` that subtracts a non-zero mean -/

namespace Schroedinger
open BoundaryCondition

section Fixed
variable {K : Type} [LinearOrderedField K]

/-- When the potential is a fixed point of the Jacobi sweep, `calcV` returns after one
round. -/
theorem calcV_fixed (M : MathLib K) (lap : Field K) (W : Wave K)
    (hD : W.dynPotential_.Shaped W.width_ W.height_)
    (hT : W.tmpPotential_.Shaped W.width_ W.height_)
    (hw : 1 ≤ W.width_) (hh : 1 ≤ W.height_)
    (hfix : ∀ x y : Int, 0 ≤ x ∧ x < W.width_ → 0 ≤ y ∧ y < W.height_ →
      specJacobi (Wave.dr_ M W) W.dynPotential_ lap x y = W.dynPotential_.get x y)
    (fuel : Nat) : ∃ W2 : Wave K, Wave.calcV M (fuel + 1) W lap = some W2 := by
  obtain ⟨s, h1, _, _, _, _, _, _, h8, h9⟩ := calcVBody_spec M lap W hD hT hw hh
  have e8 : s.sqrerr = 0 := by
    rw [h8]
    apply Finset.sum_eq_zero
    intro x hx
    apply Finset.sum_eq_zero
    intro y hy
    rw [Finset.mem_range] at hx hy
    rw [hfix x y (by omega) (by omega)]
    ring
  have e9 : 0 ≤ s.norm := by
    rw [h9]
    exact Finset.sum_nonneg (fun x _ => Finset.sum_nonneg (fun y _ => mul_self_nonneg _))
  have hloop := calcVLoop_stops M lap 0 W s (fun i hi => absurd hi (Nat.not_lt_zero i)) h1
    (by rw [e8]; exact not_lt.mpr (mul_nonneg e9 (by norm_num))) (fuel + 1)
  rw [if_pos (by omega)] at hloop
  unfold Wave.calcV
  rw [hloop]
  exact ⟨_, rfl⟩

end Fixed

theorem calcV_sum_zero_witness :
    ∃ W2 : Wave ℝ,
      Wave.calcV ⟨Real.sqrt, Real.pi, Real.cos, Real.sin⟩ 1
        { constWave 2 1 (0 : Dcomp ℝ) with
          dynPotential_ := ⟨2, 1, 1, WRAP, fun i => if i % 2 = 1 then 3 else 1⟩ }
        ⟨2, 1, 1, WRAP, fun i => if i % 2 = 1 then -8 else 8⟩ = some W2 ∧
      (∑ x in Finset.range (2 : Int).toNat, ∑ y in Finset.range (1 : Int).toNat,
        W2.dynPotential_.get x y) = 0 := by
  have hdr : Wave.dr_ ⟨Real.sqrt, Real.pi, Real.cos, Real.sin⟩
      { constWave 2 1 (0 : Dcomp ℝ) with
        dynPotential_ := ⟨2, 1, 1, WRAP, fun i => if i % 2 = 1 then 3 else 1⟩ } *
      Wave.dr_ ⟨Real.sqrt, Real.pi, Real.cos, Real.sin⟩
      { constWave 2 1 (0 : Dcomp ℝ) with
        dynPotential_ := ⟨2, 1, 1, WRAP, fun i => if i % 2 = 1 then 3 else 1⟩ } = 1 / 2 := by
    show Real.sqrt (1 / (((2 : Int) * 1 : Int) : ℝ)) * Real.sqrt (1 / (((2 : Int) * 1 : Int) : ℝ))
      = 1 / 2
    rw [Real.mul_self_sqrt (by norm_num)]
    norm_num
  obtain ⟨W2, h2⟩ := calcV_fixed ⟨Real.sqrt, Real.pi, Real.cos, Real.sin⟩
    ⟨2, 1, 1, WRAP, fun i => if i % 2 = 1 then -8 else 8⟩
    { constWave 2 1 (0 : Dcomp ℝ) with
      dynPotential_ := ⟨2, 1, 1, WRAP, fun i => if i % 2 = 1 then 3 else 1⟩ }
    ⟨rfl, rfl, rfl, rfl⟩ ⟨rfl, rfl, rfl, rfl⟩ (by decide) (by decide)
    (by
      intro x y hx hy
      have hx2 : x < 2 := hx.2
      have hy2 : y < 1 := hy.2
      have hy0 : y = 0 := by omega
      have hx01 : x = 0 ∨ x = 1 := by omega
      unfold specJacobi
      rw [hdr]
      subst hy0
      rcases hx01 with h | h <;> subst h <;>
        simp [Field.get, Field.cell0, Field.framew] <;> norm_num) 0
  exact ⟨W2, h2, (calcV_sum_zero _ 1 _ W2 _ ⟨rfl, rfl, rfl, rfl⟩ (by decide) (by decide) h2).1⟩

end Schroedinger

/-! ## `addPotentialBump` with a cone wider than the grid -/

namespace Schroedinger
open BoundaryCondition

end Schroedinger
